import Mathlib

/-!
# The jail configuration of `minijail/libminijail.c`

A shallow embedding of the process-sandboxing library: the configuration
struct and its setters, the seccomp filter list, the filter-file reader, the
marshaling of a configuration to a byte buffer and back, the privilege-drop
engine (`minijail_enter`, `setup_seccomp_filters`, `drop_caps`), the init of a
PID namespace, the pipe protocol (`minijail_to_fd`, `minijail_from_fd`) and the
two sides of `minijail_run`.

Conventions of the embedding.

* A `char` is a `Nat`; a C string argument is the list of bytes stored from the
  pointer onwards, and the string it designates stops before the first `0`
  (`cstr`).
* A pointer is a `Nat`, `0` being `NULL`.  The heap is typed: string blocks
  and `struct seccomp_filter` blocks live in two stores, and the pointer
  `p + 1` designates block `p` of its store.  `malloc` hands out the next
  block.
* A call either returns, or reaches `die`/`pdie` (`syslog` then `abort`), or
  has undefined behaviour (an access outside the memory it was given); see
  `Outcome`.
* The calls the engine makes to the system and to libcap are recorded in a
  `World`; what the system answers is a parameter, and so is what the platform
  makes of the `int` shift `1 << i` for `i` from 31 on (`Platform`).
-/

namespace Minijail

/-! ## Results of a call -/

/-- The three ways a call can end: it returns the value `a` in state `s`, it
reaches `die` in state `s` with a diagnostic, or its behaviour is undefined. -/
inductive Outcome (σ α : Type) where
  | ret (s : σ) (a : α)
  | die (msg : String) (s : σ)
  | undef
deriving DecidableEq

/-! ## Error codes (`errno.h`) -/

def ENOMEM : Int := 12
def EINVAL : Int := 22
def ENOSPC : Int := 28

/-! ## C strings -/

/-- The string designated by a `char *`: the bytes before the first NUL. -/
def cstr (m : List Nat) : List Nat := m.takeWhile (fun b => b != 0)

/-- C `strlen`. -/
def strlen (m : List Nat) : Nat := (cstr m).length

/-- C `strndup(s, n)`: the first `n` bytes of the string, or all of it when it
is shorter. -/
def strndup (m : List Nat) (n : Nat) : List Nat := cstr (m.take n)

/-- C `strdup`. -/
def strdup (m : List Nat) : List Nat := cstr m

/-- The bytes of a string literal. -/
def lit (s : String) : List Nat := s.toList.map Char.toNat

/-! ## The data model -/

/-- The one-bit fields of `struct minijail`. -/
structure Flags where
  uid : Bool
  gid : Bool
  caps : Bool
  vfs : Bool
  pids : Bool
  seccomp : Bool
  readonly : Bool
  usergroups : Bool
  ptrace : Bool
  seccomp_filter : Bool
deriving DecidableEq

/-- Modelled from the spec: `struct minijail` is declared in
`libminijail-private.h`, which is not among the sources; the fields are those
the code of `libminijail.c` reads and writes (spec, data model). `user` and
`filters` are pointers (a `Nat`, `0` for `NULL`). -/
structure minijail where
  flags : Flags
  uid : Nat
  gid : Nat
  usergid : Nat
  user : Nat
  caps : Nat
  initpid : Int
  filters : Nat
deriving DecidableEq

/-- Modelled from the spec: `struct seccomp_filter` (same header): a syscall
number, the owned filter text, and the two links of the circular list. The
text is kept in the node, since nothing aliases it. -/
structure seccomp_filter where
  nr : Int
  filter : List Nat
  next : Nat
  prev : Nat
deriving DecidableEq

/-- The heap of the process: string blocks and filter blocks. -/
structure Heap where
  strs : List (List Nat)
  nodes : List seccomp_filter
deriving DecidableEq

/-- The string block a `char *` designates, if any. -/
def Heap.str (h : Heap) (p : Nat) : Option (List Nat) :=
  if p = 0 then none else h.strs[p - 1]?

/-- The filter block a `struct seccomp_filter *` designates, if any. -/
def Heap.node (h : Heap) (p : Nat) : Option seccomp_filter :=
  if p = 0 then none else h.nodes[p - 1]?

/-- Allocation of a string block; returns the new heap and the pointer. -/
def Heap.allocStr (h : Heap) (s : List Nat) : Heap × Nat :=
  ({ h with strs := h.strs ++ [s] }, h.strs.length + 1)

/-- Allocation of a filter block. -/
def Heap.allocNode (h : Heap) (n : seccomp_filter) : Heap × Nat :=
  ({ h with nodes := h.nodes ++ [n] }, h.nodes.length + 1)

/-- Store to the filter block at `p` (which must exist). -/
def Heap.setNode (h : Heap) (p : Nat) (n : seccomp_filter) : Heap :=
  { h with nodes := h.nodes.set (p - 1) n }

def Flags.zero : Flags :=
  { uid := false, gid := false, caps := false, vfs := false, pids := false,
    seccomp := false, readonly := false, usergroups := false, ptrace := false,
    seccomp_filter := false }

/-- `minijail_new`: the struct after `memset(j, 0, sizeof(*j))`. -/
def minijail_new : minijail :=
  { flags := Flags.zero, uid := 0, gid := 0, usergid := 0, user := 0, caps := 0,
    initpid := 0, filters := 0 }

/-- The empty heap. -/
def Heap.empty : Heap := { strs := [], nodes := [] }

/-! ## The object representation of the struct -/

/-- The values a field of each C type can hold (`uid_t`, `gid_t`: 32 bits;
pointers and `uint64_t`: 64 bits; `pid_t`: 32 bits, signed). -/
def minijail.InRange (j : minijail) : Prop :=
  j.uid < 2 ^ 32 ∧ j.gid < 2 ^ 32 ∧ j.usergid < 2 ^ 32 ∧ j.user < 2 ^ 64 ∧
  j.caps < 2 ^ 64 ∧ (-(2 ^ 31) ≤ j.initpid ∧ j.initpid < 2 ^ 31) ∧ j.filters < 2 ^ 64

instance (j : minijail) : Decidable j.InRange := by
  unfold minijail.InRange; infer_instance

/-- The object representation of `struct minijail`, a parameter of the
marshaling code: `sizeof(struct minijail)`, the bytes `memcpy` reads out of a
struct, and the struct `memcpy` builds from that many bytes. -/
structure Layout where
  size : Nat
  put : minijail → List Nat
  get : List Nat → minijail

/-- What C guarantees of an object representation: it has `sizeof` bytes, and
copying a struct out and back gives the same field values. -/
def Layout.Lawful (L : Layout) : Prop :=
  (∀ j, (L.put j).length = L.size) ∧ (∀ j, j.InRange → L.get (L.put j) = j)

/-- C `memcpy(buf + off, src, src.length)` into the buffer `buf`; `none` when
the destination range is not inside the buffer. -/
def memcpy (buf : List Nat) (off : Nat) (src : List Nat) : Option (List Nat) :=
  if off + src.length ≤ buf.length then
    some (buf.take off ++ src ++ buf.drop (off + src.length))
  else none

/-! ### A concrete representation: the LP64 little-endian layout -/

/-- The `k` little-endian bytes of `n`. -/
def le : Nat → Nat → List Nat
  | 0, _ => []
  | k + 1, n => n % 256 :: le k (n / 256)

/-- The number whose little-endian bytes are given. -/
def unle : List Nat → Nat
  | [] => 0
  | b :: bs => b + 256 * unle bs

/-- Reading a `k`-byte little-endian field at the head of a byte list. -/
def rd (k : Nat) (bs : List Nat) : Nat × List Nat := (unle (bs.take k), bs.drop k)

/-- The storage unit of the bit-fields: bit `i` is the `i`-th flag in
declaration order. -/
def Flags.toNat (f : Flags) : Nat :=
  f.uid.toNat + 2 * f.gid.toNat + 4 * f.caps.toNat + 8 * f.vfs.toNat +
  16 * f.pids.toNat + 32 * f.seccomp.toNat + 64 * f.readonly.toNat +
  128 * f.usergroups.toNat + 256 * f.ptrace.toNat + 512 * f.seccomp_filter.toNat

def Flags.ofNat (n : Nat) : Flags :=
  { uid := n.testBit 0, gid := n.testBit 1, caps := n.testBit 2, vfs := n.testBit 3,
    pids := n.testBit 4, seccomp := n.testBit 5, readonly := n.testBit 6,
    usergroups := n.testBit 7, ptrace := n.testBit 8, seccomp_filter := n.testBit 9 }

/-- A 32-bit two's complement value as an `Int`. -/
def int32 (n : Nat) : Int := if n < 2 ^ 31 then (n : Int) else (n : Int) - 2 ^ 32

/-- The 48 bytes of the struct under LP64: flags at 0, `uid` at 4, `gid` at 8,
`usergid` at 12, `user` at 16, `caps` at 24, `initpid` at 32, padding at 36,
`filters` at 40. -/
def lp64_put (j : minijail) : List Nat :=
  le 4 j.flags.toNat ++ (le 4 j.uid ++ (le 4 j.gid ++ (le 4 j.usergid ++ (le 8 j.user ++
    (le 8 j.caps ++ (le 4 (j.initpid % 2 ^ 32).toNat ++ (le 4 0 ++ le 8 j.filters)))))))

def lp64_get (bs : List Nat) : minijail :=
  let (fl, bs) := rd 4 bs
  let (uid, bs) := rd 4 bs
  let (gid, bs) := rd 4 bs
  let (usergid, bs) := rd 4 bs
  let (user, bs) := rd 8 bs
  let (caps, bs) := rd 8 bs
  let (initpid, bs) := rd 4 bs
  let (_, bs) := rd 4 bs
  let (filters, _) := rd 8 bs
  { flags := Flags.ofNat fl, uid := uid, gid := gid, usergid := usergid, user := user,
    caps := caps, initpid := int32 initpid, filters := filters }

/-- The LP64 little-endian layout of `struct minijail`. -/
def lp64 : Layout := { size := 48, put := lp64_put, get := lp64_get }

/-! ## Marshaling -/

/-- `minijail_size` (lines 245-251); `none` when `user` designates no string. -/
def minijail_size (L : Layout) (h : Heap) (j : minijail) : Option Nat :=
  let bytes := L.size
  if j.user ≠ 0 then
    match h.str j.user with
    | none => none
    | some u => some (bytes + (strlen u + 1))
  else some bytes

/-- `minijail_marshal` (lines 253-268): the state is the destination buffer,
which must hold the bytes the two `memcpy` calls write. -/
def minijail_marshal (L : Layout) (h : Heap) (j : minijail) (buf : List Nat)
    (available : Nat) : Outcome (List Nat) Int :=
  let total := L.size
  if available < total then .ret buf (-ENOSPC)
  else
    let available := available - total
    match memcpy buf 0 (L.put j) with
    | none => .undef
    | some buf =>
      if j.user ≠ 0 then
        match h.str j.user with
        | none => .undef
        | some u =>
          let len := strlen u + 1
          if available < len then .ret buf (-ENOSPC)
          else
            match memcpy buf total (cstr u ++ [0]) with
            | none => .undef
            | some buf => .ret buf 0
      else .ret buf 0

/-- `minijail_unmarshal` (lines 270-283): the state is the heap of the reading
process and the struct `*j`; `serialized` must hold `length` bytes. `strndupOk` tells whether the allocation in `strndup` succeeds;
its result is not checked, and `strlen` of it is taken next. -/
def minijail_unmarshal (L : Layout) (strndupOk : Bool) (h : Heap) (j : minijail)
    (serialized : List Nat) (length : Nat) : Outcome (Heap × minijail) Int :=
  if length < L.size then .ret (h, j) (-EINVAL)
  else if serialized.length < length then .undef
  else
    let j := L.get (serialized.take L.size)
    let rest := serialized.drop L.size
    let length := length - L.size
    if j.user ≠ 0 then
      if length = 0 then .ret (h, j) (-EINVAL)
      else if strndupOk then
        let (h, p) := h.allocStr (strndup rest length)
        .ret (h, { j with user := p }) 0
      else .undef
    else .ret (h, j) 0

/-! ## Setters -/

/-- `minijail_change_uid` (lines 61-66). -/
def minijail_change_uid (j : minijail) (uid : Nat) : Outcome minijail Unit :=
  if uid = 0 then .die "useless change to uid 0" j
  else .ret { j with uid := uid, flags := { j.flags with uid := true } } ()

/-- `minijail_change_gid` (lines 68-73). -/
def minijail_change_gid (j : minijail) (gid : Nat) : Outcome minijail Unit :=
  if gid = 0 then .die "useless change to gid 0" j
  else .ret { j with gid := gid, flags := { j.flags with gid := true } } ()

/-- The fields of `struct passwd` the code reads. -/
structure passwd where
  pw_uid : Nat
  pw_gid : Nat
deriving DecidableEq

/-- The fields of `struct group` the code reads. -/
structure group where
  gr_gid : Nat
deriving DecidableEq

/-- `minijail_change_user` (lines 75-94). The system lookup `getpwnam` is a parameter: it
gives the entry of a name, or (for `NULL`) the value `errno` has after the call.
`strdupOk` tells whether the allocation in `strdup` succeeds. -/
def minijail_change_user (getpwnam : List Nat → Except Int passwd) (strdupOk : Bool)
    (h : Heap) (j : minijail) (user : List Nat) : Outcome (Heap × minijail) Int :=
  match getpwnam (cstr user) with
  | .error errno => .ret (h, j) errno
  | .ok pw =>
    match minijail_change_uid j pw.pw_uid with
    | .undef => .undef
    | .die msg j => .die msg (h, j)
    | .ret j _ =>
      if strdupOk then
        let (h, p) := h.allocStr (strdup user)
        .ret (h, { j with user := p, usergid := pw.pw_gid }) 0
      else .ret (h, { j with user := 0 }) (-ENOMEM)

/-- `minijail_change_group` (lines 96-111), with the system lookup `getgrnam` as a parameter. -/
def minijail_change_group (getgrnam : List Nat → Except Int group)
    (j : minijail) (grp : List Nat) : Outcome minijail Int :=
  match getgrnam (cstr grp) with
  | .error errno => .ret j errno
  | .ok gr =>
    match minijail_change_gid j gr.gr_gid with
    | .undef => .undef
    | .die msg j => .die msg j
    | .ret j _ => .ret j 0

/-! ## The filter list -/

/-- Update of the filter block at `p`; `none` when `p` designates no block. -/
def Heap.modifyNode (h : Heap) (p : Nat) (f : seccomp_filter → seccomp_filter) :
    Option Heap :=
  match h.node p with
  | none => none
  | some n => some (h.setNode p (f n))

/-- `minijail_add_seccomp_filter` (lines 147-174). `MAX` is `MINIJAIL_MAX_SECCOMP_FILTER_LINE`
(its header is not among the sources); `filter` is `none` for a null pointer;
`mallocOk` and `strndupOk` tell whether the two allocations succeed. The new
block gets `nr` and the text, then the four links are stored as in the source. -/
def minijail_add_seccomp_filter (MAX : Nat) (mallocOk strndupOk : Bool) (h : Heap)
    (j : minijail) (nr : Int) (filter : Option (List Nat)) :
    Outcome (Heap × minijail) Int :=
  match filter with
  | none => .ret (h, j) (-EINVAL)
  | some filter =>
    if nr < 0 then .ret (h, j) (-EINVAL)
    else if !mallocOk then .ret (h, j) (-ENOMEM)
    else if !strndupOk then .ret (h, j) (-ENOMEM)
    else
      let (h, sf) := h.allocNode { nr := nr, filter := strndup filter MAX, next := 0, prev := 0 }
      if j.filters = 0 then
        match h.modifyNode sf (fun n => { n with next := sf, prev := sf }) with
        | none => .undef
        | some h => .ret (h, { j with filters := sf }) 0
      else
        match h.node j.filters with
        | none => .undef
        | some first =>
          -- sf->next = j->filters; sf->prev = j->filters->prev;
          match h.modifyNode sf (fun n => { n with next := j.filters, prev := first.prev }) with
          | none => .undef
          | some h =>
            -- sf->prev->next = sf;
            match h.modifyNode first.prev (fun n => { n with next := sf }) with
            | none => .undef
            | some h =>
              -- j->filters->prev = sf;
              match h.modifyNode j.filters (fun n => { n with prev := sf }) with
              | none => .undef
              | some h => .ret (h, j) 0

/-- The walk of `setup_seccomp_filters` and `minijail_destroy` over the list:
from `sf`, follow `next` until it is `first` again, collecting the pointers
visited; `none` when a pointer designates no block or the fuel runs out. -/
def walk (h : Heap) (first : Nat) : Nat → Nat → Option (List Nat)
  | 0, _ => none
  | fuel + 1, sf =>
    match h.node sf with
    | none => none
    | some n =>
      if n.next = first then some [sf]
      else (walk h first fuel n.next).map (fun ps => sf :: ps)

/-- The pointers of the entries of the collection of `j`, first entry first.
A heap of `k` blocks holds a cycle of at most `k` entries. -/
def filter_ptrs (h : Heap) (j : minijail) : Option (List Nat) :=
  if j.filters = 0 then some [] else walk h j.filters h.nodes.length j.filters

/-- The entries of the collection of `j`: syscall number and filter text. -/
def filter_entries (h : Heap) (j : minijail) : Option (List (Int × List Nat)) :=
  (filter_ptrs h j).map (fun ps =>
    ps.filterMap (fun p => (h.node p).map (fun n => (n.nr, n.filter))))

/-- A run of calls of `minijail_add_seccomp_filter`, all allocations succeeding,
stopping at the first call that does not return `0`. -/
def add_all (MAX : Nat) : Heap × minijail → List (Int × List Nat) →
    Outcome (Heap × minijail) Int
  | st, [] => .ret st 0
  | st, (nr, text) :: rest =>
    match minijail_add_seccomp_filter MAX true true st.1 st.2 nr (some text) with
    | .ret st r => if r = 0 then add_all MAX st rest else .ret st r
    | other => other

/-- The syscall number and filter text of the blocks at the pointers `ps`. -/
def entries_at (h : Heap) (ps : List Nat) : List (Int × List Nat) :=
  ps.filterMap (fun p => (h.node p).map (fun n => (n.nr, n.filter)))

/-- The collection of `first` is a well-formed circular doubly-linked list
with the entries `ps`, first entry first: `ps` is empty exactly when `first` is
null, no entry occurs twice, and the block of entry `i` has for `next` entry
`i + 1` (the first entry after the last) and for `prev` entry `i - 1` (the last
entry before the first). -/
def Ring (h : Heap) (first : Nat) (ps : List Nat) : Prop :=
  ps.head? = (if first = 0 then none else some first) ∧ ps.Nodup ∧
  ∀ i, i < ps.length →
    (h.node (ps.getD i 0)).map (fun n => (n.next, n.prev)) =
      some ((ps[i + 1]?).getD first,
            (if i = 0 then ps[ps.length - 1]? else ps[i - 1]?).getD 0)

instance (h : Heap) (first : Nat) (ps : List Nat) : Decidable (Ring h first ps) := by
  unfold Ring; infer_instance

/-! ## The filter file -/

/-- An entry of `syscall_table` (`libsyscalls.h`, not among the sources);
`name` is `none` for a null pointer. -/
structure syscall_entry where
  name : Option (List Nat)
  nr : Int
deriving DecidableEq

/-- `minijail_lookup_syscall` (lines 176-182), with the table as a parameter. The end of the
list stands for the terminating entry of the array. -/
def minijail_lookup_syscall : List syscall_entry → List Nat → Int
  | [], _ => -1
  | entry :: rest, name =>
    match entry.name with
    | none => -1
    | some n =>
      if entry.nr < 0 then -1
      else if cstr n = cstr name then entry.nr
      else minijail_lookup_syscall rest name

/-- C `isblank` in the C locale: space and tab. -/
def isblank (c : Nat) : Bool := c == 32 || c == 9

/-- C `isspace` in the C locale. -/
def isspace (c : Nat) : Bool := c == 32 || (9 ≤ c && c ≤ 13)

/-- The backward loop of `strip`, `while (*end && (isblank(*end) || *end ==
'\n')) end--;`, on the array `m`. The argument and the result are `end + 1`.
Reading `m[-1]` is outside the array: `none`. -/
def strip_back (m : List Nat) : Nat → Option Nat
  | 0 => none
  | e + 1 =>
    match m[e]? with
    | none => none
    | some c => if c != 0 && (isblank c || c == 10) then strip_back m e else some (e + 1)

/-- `strip` (lines 184-193) on the string that starts at index `s` of the array `m`: the
array after the store of the terminator, and the pointer returned. -/
def strip (m : List Nat) (s : Nat) : Option (List Nat × Nat) :=
  -- while (*s && isblank(*s)) s++;
  let s := s + ((m.drop s).takeWhile (fun c => c != 0 && isblank c)).length
  -- end = s + strlen(s) - 1;
  match strip_back m (s + strlen (m.drop s)) with
  | none => none
  | some e1 =>
    -- *(end+1) = 0
    if e1 < m.length then some (m.set e1 0, s) else none

/-- C `strsep(&p, delim)` for a one-character delimiter on the string at index
`s` of `m`: the array after the store, and the new value of `p` (`none` for
`NULL`, when the delimiter does not occur). The token returned starts at `s`. -/
def strsep (m : List Nat) (s : Nat) (delim : Nat) : List Nat × Option Nat :=
  let i := s + ((m.drop s).takeWhile (fun c => c != 0 && c != delim)).length
  if m[i]? = some delim then (m.set i 0, some (i + 1)) else (m, none)

/-- The value of a character as a digit. -/
def digitVal (c : Nat) : Option Nat :=
  if 48 ≤ c ∧ c ≤ 57 then some (c - 48)
  else if 97 ≤ c ∧ c ≤ 122 then some (c - 97 + 10)
  else if 65 ≤ c ∧ c ≤ 90 then some (c - 65 + 10)
  else none

/-- The values of the longest run of digits of the base at the head. -/
def digitsOf (base : Nat) : List Nat → List Nat
  | [] => []
  | c :: r =>
    match digitVal c with
    | none => []
    | some d => if d < base then d :: digitsOf base r else []

def LONG_MAX : Int := 2 ^ 63 - 1
def LONG_MIN : Int := -(2 ^ 63)

/-- C `strtol(s, &end, 0)` (LP64): white space, an optional sign, the base
from the prefix (`0x`: 16, `0`: 8, else 10), the digits; the value is clamped
to the range of `long`. Returns the value and the offset of `end` from `s`;
with no digits the value is `0` and `end` is `s`. -/
def strtol (s : List Nat) : Int × Nat :=
  let ws := (s.takeWhile isspace).length
  let s1 := s.drop ws
  let (neg, sg) : Bool × Nat :=
    match s1 with
    | 45 :: _ => (true, 1)
    | 43 :: _ => (false, 1)
    | _ => (false, 0)
  let s2 := s1.drop sg
  let (base, pre) : Nat × Nat :=
    match s2 with
    | 48 :: x :: d :: _ =>
      if (x = 120 ∨ x = 88) ∧ (digitsOf 16 [d] ≠ []) then (16, 2) else (8, 0)
    | 48 :: _ => (8, 0)
    | _ => (10, 0)
  let ds := digitsOf base (s2.drop pre)
  if ds = [] then (0, 0)
  else
    let v : Int := ((ds.foldl (fun a d => a * base + d) 0 : Nat) : Int)
    (if neg then max (-v) LONG_MIN else min v LONG_MAX, ws + sg + pre + ds.length)

/-- The conversion of a `long` to `int`: the low 32 bits, two's complement. -/
def long_to_int (v : Int) : Int := int32 (v % 2 ^ 32).toNat

/-- The bytes one `fgets` call takes from the file, and the bytes it leaves:
at most `k` bytes, up to and including the first newline. -/
def read_line : Nat → List Nat → List Nat × List Nat
  | 0, f => ([], f)
  | _ + 1, [] => ([], [])
  | k + 1, c :: f =>
    if c = 10 then ([c], f) else (c :: (read_line k f).1, (read_line k f).2)

/-- C `fgets(line, n, file)` on the unread bytes of the file: `none` at end of
file, else the array (at most `n - 1` bytes, up to and including a newline,
then the terminator) and the bytes left unread. -/
def fgets (n : Nat) (file : List Nat) : Option (List Nat × List Nat) :=
  match file with
  | [] => none
  | _ => some ((read_line (n - 1) file).1 ++ [0], (read_line (n - 1) file).2)

/-- The body of the loop of `minijail_parse_seccomp_filters` (lines 208-240) for one array
`line` filled by `fgets`; returning stands for reaching the end of the body or
a `continue`. `alloc` tells whether the allocations of
`minijail_add_seccomp_filter` succeed. -/
def parse_line (MAX : Nat) (table : List syscall_entry) (alloc : Bool × Bool)
    (st : Heap × minijail) (line : List Nat) : Outcome (Heap × minijail) Unit :=
  -- char *filter = line; char *name = strsep(&filter, ":");
  let (m, filter) := strsep line 0 58
  -- name = strip(name);
  match strip m 0 with
  | none => .undef
  | some (m, name) =>
    match filter with
    | none =>
      if strlen (m.drop name) ≠ 0 then .die "invalid filter on line %d" st
      else .ret st ()
    | some filter =>
      if m[name]? = some 35 then .ret st ()
      else
        match strip m filter with
        | none => .undef
        | some (m, filter) =>
          let (v, name_end) := strtol (m.drop name)
          let nr := long_to_int v
          let nr := if m[name + name_end]? ≠ some 0 then
            minijail_lookup_syscall table (m.drop name) else nr
          if nr < 0 then .die "syscall '%s' unknown" st
          else
            match minijail_add_seccomp_filter MAX alloc.1 alloc.2 st.1 st.2 nr
                (some (m.drop filter)) with
            | .undef => .undef
            | .die msg st => .die msg st
            | .ret st r =>
              if r ≠ 0 then .die "failed to add filter for syscall '%s'" st
              else .ret st ()

/-- The loop `while (fgets(line, sizeof(line), file))`: `i` counts the lines
read so far, and `alloc i` tells whether the allocations made for line `i`
succeed. Every turn reads at least one byte when `MAX` is at least 2, so fuel
above the length of the file is never used up. -/
def parse_lines (MAX : Nat) (table : List syscall_entry) (alloc : Nat → Bool × Bool) :
    Nat → Nat → Heap × minijail → List Nat → Outcome (Heap × minijail) Unit
  | 0, _, _, _ => .undef
  | fuel + 1, i, st, file =>
    match fgets MAX file with
    | none => .ret st ()
    | some (line, rest) =>
      match parse_line MAX table (alloc i) st line with
      | .ret st _ => parse_lines MAX table alloc fuel (i + 1) st rest
      | other => other

/-- `minijail_parse_seccomp_filters` (lines 195-243): `file` is the content of the file at
`path`, `none` when `fopen` fails. -/
def minijail_parse_seccomp_filters (MAX : Nat) (table : List syscall_entry)
    (alloc : Nat → Bool × Bool) (h : Heap) (j : minijail) (file : Option (List Nat)) :
    Outcome (Heap × minijail) Unit :=
  match file with
  | none => .die "failed to open seccomp filters file" (h, j)
  | some f => parse_lines MAX table alloc (f.length + 1) 0 (h, j) f

/-! ## The filter file: the steps of the loop body -/

/-- The two fields of a rule line as the loop body has them when it reaches the
resolution of the syscall (line 231): the colon was found, both calls of
`strip` are done, and the name does not start with `#`. The result is the bytes
from the pointer `name` on and the bytes from the pointer `filter` on; `none`
for every line that does not reach line 231. -/
def rule_fields (line : List Nat) : Option (List Nat × List Nat) :=
  let (m, filter) := strsep line 0 58
  match strip m 0 with
  | none => none
  | some (m, name) =>
    match filter with
    | none => none
    | some filter =>
      if m[name]? = some 35 then none
      else
        match strip m filter with
        | none => none
        | some (m, filter) => some (m.drop name, m.drop filter)

/-- The syscall number of lines 231-235: `strtol` first, and the table when
`strtol` stops before the terminator of the name. -/
def resolve_syscall (table : List syscall_entry) (name : List Nat) : Int :=
  let (v, name_end) := strtol name
  let nr := long_to_int v
  if name[name_end]? ≠ some 0 then minijail_lookup_syscall table name else nr

/-- The loop body of `minijail_parse_seccomp_filters` with the array `line`
placed in memory after the bytes `below` (the stack under the array), so that
an access to `line[-1]` reads the last byte of `below`. With no byte known
under the array this is `parse_line`. -/
def parse_line_below (below : List Nat) (MAX : Nat) (table : List syscall_entry)
    (alloc : Bool × Bool) (st : Heap × minijail) (line : List Nat) :
    Outcome (Heap × minijail) Unit :=
  let base := below.length
  let (m, filter) := strsep (below ++ line) base 58
  match strip m base with
  | none => .undef
  | some (m, name) =>
    match filter with
    | none =>
      if strlen (m.drop name) ≠ 0 then .die "invalid filter on line %d" st
      else .ret st ()
    | some filter =>
      if m[name]? = some 35 then .ret st ()
      else
        match strip m filter with
        | none => .undef
        | some (m, filter) =>
          let (v, name_end) := strtol (m.drop name)
          let nr := long_to_int v
          let nr := if m[name + name_end]? ≠ some 0 then
            minijail_lookup_syscall table (m.drop name) else nr
          if nr < 0 then .die "syscall '%s' unknown" st
          else
            match minijail_add_seccomp_filter MAX alloc.1 alloc.2 st.1 st.2 nr
                (some (m.drop filter)) with
            | .undef => .undef
            | .die msg st => .die msg st
            | .ret st r =>
              if r ≠ 0 then .die "failed to add filter for syscall '%s'" st
              else .ret st ()

/-- The arrays the successive calls of `fgets` fill from a file. -/
def file_lines (MAX : Nat) : Nat → List Nat → List (List Nat)
  | 0, _ => []
  | fuel + 1, file =>
    match fgets MAX file with
    | none => []
    | some (line, rest) => line :: file_lines MAX fuel rest

/-- The loop body run on a list of arrays, `i` being the number of the first. -/
def parse_arrays (MAX : Nat) (table : List syscall_entry) (alloc : Nat → Bool × Bool) :
    Nat → Heap × minijail → List (List Nat) → Outcome (Heap × minijail) Unit
  | _, st, [] => .ret st ()
  | i, st, line :: rest =>
    match parse_line MAX table (alloc i) st line with
    | .ret st _ => parse_arrays MAX table alloc (i + 1) st rest
    | other => other

/-- The entries of the syscall table before its terminating entry (the first
entry with a null name or a negative number). -/
def live_entries (table : List syscall_entry) : List syscall_entry :=
  table.takeWhile (fun e => e.name.isSome && decide (0 ≤ e.nr))

/-- The first entry of the table, before the terminator, whose name is the
string `name`. -/
def table_entry (table : List syscall_entry) (name : List Nat) : Option syscall_entry :=
  (live_entries table).find? (fun e =>
    match e.name with
    | some n => decide (cstr n = cstr name)
    | none => false)

/-- The number written by the decimal digits `ds`. -/
def decimal_value (ds : List Nat) : Nat := ds.foldl (fun a d => a * 10 + d) 0

/-- The characters of the decimal digits `ds`. -/
def decimal_text (ds : List Nat) : List Nat := ds.map (fun d => d + 48)

/-! ## The privilege-drop engine -/

def E2BIG : Int := 7
def ENOSYS : Int := 38
def EPERM : Int := 1

/-- `CAP_SETPCAP` (`linux/capability.h`). -/
def CAP_SETPCAP : Nat := 8

/-- The three flags of a `cap_t` (`sys/capability.h`). -/
inductive CapFlag where
  | effective
  | permitted
  | inheritable
deriving DecidableEq

/-- The calls `minijail_enter` and its helpers make to the system and to
libcap, with the arguments that vary:
`seccomp_filter nr filter` is `prctl(PR_SET_SECCOMP_FILTER,
PR_SECCOMP_FILTER_SYSCALL, nr, filter)`, `unshare_newns` is
`unshare(CLONE_NEWNS)`, `umount_proc` and `mount_proc_readonly` are the two
calls of `remount_readonly`, `keepcaps` is `prctl(PR_SET_KEEPCAPS, 1)`,
`securebits` is `prctl(PR_SET_SECUREBITS, SECURE_ALL_BITS | SECURE_ALL_LOCKS)`,
`setgroups_none` is `setgroups(0, NULL)`, `capbset_drop i` is
`prctl(PR_CAPBSET_DROP, i)` and `seccomp mode` is `prctl(PR_SET_SECCOMP, mode)`. -/
inductive Op where
  | seccomp_filter (nr : Int) (filter : List Nat)
  | unshare_newns
  | umount_proc
  | mount_proc_readonly
  | keepcaps
  | securebits
  | initgroups (user : List Nat) (gid : Nat)
  | setgroups_none
  | setresgid (gid : Nat)
  | setresuid (uid : Nat)
  | cap_get_proc
  | cap_clear_flag (f : CapFlag)
  | cap_set_flag (f : CapFlag) (cap : Nat)
  | cap_set_proc
  | cap_free
  | capbset_drop (cap : Nat)
  | seccomp (mode : Nat)
deriving DecidableEq

/-- Three capability sets, each the list of the capabilities raised in it. -/
structure CapSets where
  effective : List Nat
  permitted : List Nat
  inheritable : List Nat
deriving DecidableEq

def CapSets.clear (c : CapSets) : CapFlag → CapSets
  | .effective => { c with effective := [] }
  | .permitted => { c with permitted := [] }
  | .inheritable => { c with inheritable := [] }

def CapSets.raise (c : CapSets) (i : Nat) : CapFlag → CapSets
  | .effective => { c with effective := c.effective ++ [i] }
  | .permitted => { c with permitted := c.permitted ++ [i] }
  | .inheritable => { c with inheritable := c.inheritable ++ [i] }

/-- The state of the process that the calls act on: the calls issued so far
(oldest first), the capability sets of the process, the capabilities dropped
from its bounding set, and the `cap_t` object of `drop_caps`. -/
structure World where
  trace : List Op
  proc : CapSets
  dropped : List Nat
  capobj : CapSets
deriving DecidableEq

/-- What a call that succeeds does to the state, besides being recorded:
`cap_get_proc` copies the sets of the process into the `cap_t`,
`cap_clear_flag` and `cap_set_flag` change the `cap_t`, `cap_set_proc` makes
the `cap_t` the sets of the process, `PR_CAPBSET_DROP` drops from the bounding
set. -/
def effect (op : Op) (w : World) : World :=
  match op with
  | .cap_get_proc => { w with capobj := w.proc }
  | .cap_clear_flag f => { w with capobj := w.capobj.clear f }
  | .cap_set_flag f i => { w with capobj := w.capobj.raise i f }
  | .cap_set_proc => { w with proc := w.capobj }
  | .capbset_drop i => { w with dropped := w.dropped ++ [i] }
  | _ => w

/-- A call is issued: it is recorded, and the system answers 0 for success or
the `errno` of the failure. The answers are a parameter `sys`, a function of the
calls made before and of the call. -/
def issue (sys : List Op → Op → Nat) (w : World) (op : Op) : World × Nat :=
  ({ w with trace := w.trace ++ [op] }, sys w.trace op)

/-- `if (call) die(msg)`: the call, fatal when it fails. -/
def perform (sys : List Op → Op → Nat) (op : Op) (msg : String) (w : World) :
    Outcome World Unit :=
  if (issue sys w op).2 ≠ 0 then .die msg (issue sys w op).1
  else .ret (effect op (issue sys w op).1) ()

/-- Sequencing of two steps. -/
def Outcome.andThen {σ α β : Type} (o : Outcome σ α) (f : σ → α → Outcome σ β) :
    Outcome σ β :=
  match o with
  | .undef => Outcome.undef
  | .die msg s => Outcome.die msg s
  | .ret s a => f s a

/-- The platform the library is built for: `CAP_LAST_CAP` of the kernel
headers (`cap_valid(i)` is `0 <= i && i <= CAP_LAST_CAP`), and the value of the
`int` expression `1 << i` once converted to `uint64_t` for the `&` with the
mask. -/
structure Platform where
  last_cap : Nat
  shl1 : Nat → Nat

/-- What C defines of `1 << i` on a 32-bit `int`: its value is `2^i` for
`i < 31`. For larger `i` the expression has no defined value. -/
def Platform.Lawful (P : Platform) : Prop := ∀ i, i < 31 → P.shl1 i = 2 ^ i

/-- The loop of `setup_seccomp_filters` (lines 363-394) from the entry `sf` on,
with `broaden` as in the source. A `continue` goes to the test
`sf != j->filters` of the `do ... while`. The result is `ret`, -1 for a failed
`prctl`. -/
def setup_loop (sys : List Op → Op → Nat) (h : Heap) (first : Nat) :
    Nat → Nat → Bool → World → Outcome World Int
  | 0, _, _, _ => .undef
  | fuel + 1, sf, broaden, w =>
    match h.node sf with
    | none => .undef
    | some n =>
      let r := issue sys w (.seccomp_filter n.nr (if broaden then lit "1" else n.filter))
      if r.2 ≠ 0 then
        if (r.2 : Int) = ENOSYS then
          if broaden then .die "CONFIG_SECCOMP_FILTER is not supported by your kernel" r.1
          else if sf ≠ first then setup_loop sys h first fuel sf true r.1
          else .ret r.1 (-1)
        else if (r.2 : Int) = E2BIG then .die "filter too long" r.1
        else if (r.2 : Int) = ENOSPC then .die "too many seccomp filters" r.1
        else .die "failed to install seccomp filter" r.1
      else if n.next ≠ first then setup_loop sys h first fuel n.next false r.1
      else .ret r.1 0

/-- `setup_seccomp_filters` (lines 354-396). Every entry takes at most two
turns of the loop. -/
def setup_seccomp_filters (sys : List Op → Op → Nat) (h : Heap) (j : minijail) (w : World) :
    Outcome World Int :=
  if j.filters = 0 then .ret w 0
  else setup_loop sys h j.filters (2 * h.nodes.length + 1) j.filters false w

/-- `remount_readonly` (lines 306-318): the state after it and its result. -/
def remount_readonly (sys : List Op → Op → Nat) (w : World) : World × Nat :=
  if (issue sys w .umount_proc).2 ≠ 0 then issue sys w .umount_proc
  else if (issue sys (issue sys w .umount_proc).1 .mount_proc_readonly).2 ≠ 0 then
    issue sys (issue sys w .umount_proc).1 .mount_proc_readonly
  else ((issue sys (issue sys w .umount_proc).1 .mount_proc_readonly).1, 0)

/-- The capability numbers the two loops of `drop_caps` go through:
`for (i = 0; i < sizeof(j->caps) * 8 && cap_valid((int)i); ++i)`. -/
def cap_range (P : Platform) : List Nat :=
  (List.range 64).takeWhile (fun i => decide (i ≤ P.last_cap))

/-- The first loop of `drop_caps` (lines 332-342). -/
def raise_loop (P : Platform) (sys : List Op → Op → Nat) (mask : Nat) :
    List Nat → World → Outcome World Unit
  | [], w => .ret w ()
  | i :: rest, w =>
    if i ≠ CAP_SETPCAP ∧ mask &&& P.shl1 i = 0 then raise_loop P sys mask rest w
    else
      (perform sys (.cap_set_flag .effective i) "can't add effective cap" w).andThen
        fun w _ =>
      (perform sys (.cap_set_flag .permitted i) "can't add permitted cap" w).andThen
        fun w _ =>
      (perform sys (.cap_set_flag .inheritable i) "can't add inheritable cap" w).andThen
        fun w _ => raise_loop P sys mask rest w

/-- The second loop of `drop_caps` (lines 346-351). -/
def bounding_loop (P : Platform) (sys : List Op → Op → Nat) (mask : Nat) :
    List Nat → World → Outcome World Unit
  | [], w => .ret w ()
  | i :: rest, w =>
    if mask &&& P.shl1 i ≠ 0 then bounding_loop P sys mask rest w
    else
      (perform sys (.capbset_drop i) "prctl(PR_CAPBSET_DROP)" w).andThen
        fun w _ => bounding_loop P sys mask rest w

/-- `drop_caps` (lines 320-352). The result of `cap_free` is not looked at. -/
def drop_caps (P : Platform) (sys : List Op → Op → Nat) (j : minijail) (w : World) :
    Outcome World Unit :=
  (perform sys .cap_get_proc "can't get process caps" w).andThen fun w _ =>
  (perform sys (.cap_clear_flag .inheritable) "can't clear inheritable caps" w).andThen
    fun w _ =>
  (perform sys (.cap_clear_flag .effective) "can't clear effective caps" w).andThen
    fun w _ =>
  (perform sys (.cap_clear_flag .permitted) "can't clear permitted caps" w).andThen
    fun w _ =>
  (raise_loop P sys j.caps (cap_range P) w).andThen fun w _ =>
  (perform sys .cap_set_proc "can't apply cleaned capset" w).andThen fun w _ =>
  bounding_loop P sys j.caps (cap_range P) (issue sys w .cap_free).1

/-- `minijail_use_caps` (lines 121-124). -/
def minijail_use_caps (j : minijail) (capmask : Nat) : minijail :=
  { j with caps := capmask, flags := { j.flags with caps := true } }

/-- `minijail_enter` (lines 398-451). -/
def minijail_enter (P : Platform) (sys : List Op → Op → Nat) (h : Heap) (j : minijail)
    (w : World) : Outcome World Unit :=
  if j.flags.pids then .die "tried to enter a pid-namespaced jail; try minijail_run()?" w
  else
    (setup_seccomp_filters sys h j w).andThen fun w ret =>
    if j.flags.seccomp_filter = true ∧ ret ≠ 0 then
      .die "failed to configure seccomp filters" w
    else if j.flags.usergroups = true ∧ j.user = 0 then
      .die "usergroup inheritance without username" w
    else
      (if j.flags.vfs then perform sys .unshare_newns "unshare" w
        else Outcome.ret w ()).andThen fun w _ =>
      (if j.flags.readonly then
          if (remount_readonly sys w).2 ≠ 0 then Outcome.die "remount" (remount_readonly sys w).1
          else Outcome.ret (remount_readonly sys w).1 ()
        else Outcome.ret w ()).andThen fun w _ =>
      (if j.flags.caps then
          (perform sys .keepcaps "prctl(PR_SET_KEEPCAPS)" w).andThen fun w _ =>
          perform sys .securebits "prctl(PR_SET_SECUREBITS)" w
        else Outcome.ret w ()).andThen fun w _ =>
      (if j.flags.usergroups then
          match h.str j.user with
          | none => Outcome.undef
          | some u => perform sys (.initgroups (cstr u) j.usergid) "initgroups" w
        else perform sys .setgroups_none "setgroups" w).andThen fun w _ =>
      (if j.flags.gid then perform sys (.setresgid j.gid) "setresgid" w
        else Outcome.ret w ()).andThen fun w _ =>
      (if j.flags.uid then perform sys (.setresuid j.uid) "setresuid" w
        else Outcome.ret w ()).andThen fun w _ =>
      (if j.flags.caps then drop_caps P sys j w else Outcome.ret w ()).andThen fun w _ =>
      (if j.flags.seccomp_filter then
          perform sys (.seccomp 13) "prctl(PR_SET_SECCOMP, 13)" w
        else Outcome.ret w ()).andThen fun w _ =>
      (if j.flags.seccomp then perform sys (.seccomp 1) "prctl(PR_SET_SECCOMP)" w
        else Outcome.ret w ())

/-- The state after the calls `ops`, all successful. -/
def run (ops : List Op) (w : World) : World :=
  ops.foldl (fun w op => effect op { w with trace := w.trace ++ [op] }) w

/-- The capabilities the first loop of `drop_caps` raises. -/
def raised_caps (P : Platform) (mask : Nat) : List Nat :=
  (cap_range P).filter (fun i => !(decide (i ≠ CAP_SETPCAP ∧ mask &&& P.shl1 i = 0)))

/-- The capabilities the second loop of `drop_caps` drops from the bounding
set. -/
def dropped_caps (P : Platform) (mask : Nat) : List Nat :=
  (cap_range P).filter (fun i => decide (mask &&& P.shl1 i = 0))

/-- The calls of a `drop_caps` that returns. -/
def drop_caps_ops (P : Platform) (mask : Nat) : List Op :=
  [Op.cap_get_proc, Op.cap_clear_flag .inheritable, Op.cap_clear_flag .effective,
    Op.cap_clear_flag .permitted] ++
  (raised_caps P mask).flatMap (fun i =>
    [Op.cap_set_flag .effective i, Op.cap_set_flag .permitted i,
      Op.cap_set_flag .inheritable i]) ++
  [Op.cap_set_proc, Op.cap_free] ++ (dropped_caps P mask).map Op.capbset_drop

/-- A call that installs a filter of the collection. -/
def Op.isInstall : Op → Bool
  | .seccomp_filter _ _ => true
  | _ => false

/-- A call that activates seccomp: `prctl(PR_SET_SECCOMP, mode)`. -/
def Op.isActivation : Op → Bool
  | .seccomp _ => true
  | _ => false

/-- The username of the configuration, empty when `user` designates no
string. -/
def user_name (h : Heap) (j : minijail) : List Nat :=
  match h.str j.user with
  | some u => cstr u
  | none => []

/-- The order of the specification for the calls of Enter between the
installation of the filters and the activation of seccomp: the unshare of the
mount namespace, the unmount and read-only mount of /proc, keep-caps and the
lock of the securebits, the supplementary groups (those of the user, or none),
`setresgid`, `setresuid`, the capability drop; each when its flag is set. -/
def enter_order (P : Platform) (j : minijail) (user : List Nat) : List Op :=
  (if j.flags.vfs then [Op.unshare_newns] else []) ++
  ((if j.flags.readonly then [Op.umount_proc, Op.mount_proc_readonly] else []) ++
  ((if j.flags.caps then [Op.keepcaps, Op.securebits] else []) ++
  ([if j.flags.usergroups then Op.initgroups user j.usergid else Op.setgroups_none] ++
  ((if j.flags.gid then [Op.setresgid j.gid] else []) ++
  ((if j.flags.uid then [Op.setresuid j.uid] else []) ++
  (if j.flags.caps then drop_caps_ops P j.caps else []))))))

/-- The activation of seccomp: filter mode, then classic mode, each when its
flag is set. -/
def enter_activation (j : minijail) : List Op :=
  (if j.flags.seccomp_filter then [Op.seccomp 13] else []) ++
  (if j.flags.seccomp then [Op.seccomp 1] else [])

/-- The calls `ops` were made from `w` on, all of them filter installs, and
`w'` is the state after them. -/
def InstallsFrom (w w' : World) : Prop :=
  ∃ ops, (∀ op ∈ ops, Op.isInstall op = true) ∧ w' = run ops w

/-- A call that sets the supplementary groups. -/
def Op.isGroups : Op → Bool
  | .initgroups _ _ => true
  | .setgroups_none => true
  | _ => false

/-! ## The namespace init -/

/-- `WIFEXITED(status)` of `sys/wait.h` on Linux: the low seven bits of the
status, the number of the terminating signal, are zero. -/
def WIFEXITED (status : Nat) : Bool := status % 128 == 0

/-- `WEXITSTATUS(status)`: `(status & 0xff00) >> 8`. -/
def WEXITSTATUS (status : Nat) : Nat := status / 256 % 256

/-- The status `wait` stores for a child that ended by `exit(code)`. -/
def W_EXITCODE (code : Nat) : Nat := code % 256 * 256

/-- The status `wait` stores for a child killed by the signal `sig`, with or
without a core dump. -/
def W_SIGNALED (sig : Nat) (core : Bool) : Nat := sig + (if core then 128 else 0)

/-- The exit status a parent reads for a process that called `_exit(arg)`:
`arg & 0377`. -/
def exit_code (arg : Int) : Nat := (arg % 256).toNat

/-- What happens to the init process while it runs: a call of `wait` returns
`pid` and has stored `status` (for `pid <= 0` nothing is stored), or `SIGTERM`
is delivered. -/
inductive InitEvent where
  | wait_ret (pid : Int) (status : Nat)
  | sigterm
deriving DecidableEq

/-- `init_term` (lines 455-457): the argument it passes to `_exit`, given the
value of `init_exitstatus`. -/
def init_term (init_exitstatus : Nat) : Int := init_exitstatus

/-- The loop and the end of `init` (lines 463-471) with `init_exitstatus` as
the state, the handler `init_term` being installed. The result is the argument
of the `_exit` that ends the process; `none` when the events stop while the
process is still in `wait`. `ERR_INIT` is `MINIJAIL_ERR_INIT` (`libminijail.h`,
not among the sources). -/
def init_from (ERR_INIT : Int) (rootpid : Int) : Nat → List InitEvent → Option Int
  | _, [] => none
  | init_exitstatus, .sigterm :: _ => some (init_term init_exitstatus)
  | init_exitstatus, .wait_ret pid status :: rest =>
    if pid > 0 then
      init_from ERR_INIT rootpid (if pid = rootpid then status else init_exitstatus) rest
    else if !WIFEXITED init_exitstatus then some ERR_INIT
    else some (WEXITSTATUS init_exitstatus : Int)

/-- `init` (lines 459-472): `static int init_exitstatus = 0;` is the state at
the start. -/
def init (ERR_INIT : Int) (rootpid : Int) (events : List InitEvent) : Option Int :=
  init_from ERR_INIT rootpid 0 events

/-- The events of a run of calls of `wait` that return the pairs `ws`. -/
def reaped (ws : List (Int × Nat)) : List InitEvent :=
  ws.map (fun p => InitEvent.wait_ret p.1 p.2)

/-- The statuses reaped for the tracked pid, oldest first. -/
def tracked (rootpid : Int) (ws : List (Int × Nat)) : List Nat :=
  (ws.filter (fun p => decide (p.1 = rootpid))).map (fun p => p.2)

/-- The install calls of the entries at the pointers `ps`, one for each entry,
with its syscall number and its own filter text. -/
def installs_of (h : Heap) (ps : List Nat) : List Op :=
  (entries_at h ps).map (fun e => Op.seccomp_filter e.1 e.2)

/-! ## Stripping a configuration, and the child of `minijail_run` -/

/-- `minijail_preenter` (lines 285-290). -/
def minijail_preenter (j : minijail) : minijail :=
  let j := { j with flags := { j.flags with vfs := false } }
  let j := { j with flags := { j.flags with readonly := false } }
  { j with flags := { j.flags with pids := false } }

/-- `minijail_preexec` (lines 292-304): the struct after the call, and the
pointers handed to `free`. -/
def minijail_preexec (j : minijail) : minijail × List Nat :=
  let vfs := j.flags.vfs
  let readonly := j.flags.readonly
  let freed := if j.user ≠ 0 then [j.user] else []
  let j := { j with user := 0 }
  -- memset(&j->flags, 0, sizeof(j->flags));
  let j := { j with flags := Flags.zero }
  let j := { j with flags := { j.flags with vfs := vfs } }
  let j := { j with flags := { j.flags with readonly := readonly } }
  (j, freed)

/-- `minijail_enter(j)` as its caller sees it: the state of the process, and
the struct `*j` after the call. The parameter is a `const struct minijail *`,
as are those of `setup_seccomp_filters` and `drop_caps`, and no statement of
the three bodies stores through it. -/
def enter_struct (P : Platform) (sys : List Op → Op → Nat) (h : Heap) (j : minijail)
    (w : World) : Outcome (World × minijail) Unit :=
  match minijail_enter P sys h j w with
  | .undef => Outcome.undef
  | .die msg w => Outcome.die msg (w, j)
  | .ret w u => Outcome.ret (w, j) u

/-- How the child of `minijail_run` goes on after `minijail_enter`. -/
inductive ChildEnd where
  | exits (code : Int)
  | becomes_init (rootpid : Int)
  | execs
deriving DecidableEq

/-- The child path of `minijail_run` (lines 595-621), from the return of
`clone` with 0: `minijail_preexec(j)`, `minijail_enter(j)`, then, when a PID
namespace was asked for at the start of `minijail_run` (`pidns`, read from the
flags before `clone`), `fork`, whose result is the parameter `fork`: the
process exits with it when negative, becomes `init(fork)` when positive, and
otherwise goes on to `execve`. -/
def run_child (P : Platform) (sys : List Op → Op → Nat) (fork : Int) (h : Heap)
    (j : minijail) (w : World) : Outcome (World × minijail) ChildEnd :=
  let pidns := j.flags.pids
  let j := (minijail_preexec j).1
  (enter_struct P sys h j w).andThen fun s _ =>
    if pidns then
      if fork < 0 then Outcome.ret s (ChildEnd.exits fork)
      else if fork > 0 then Outcome.ret s (ChildEnd.becomes_init fork)
      else Outcome.ret s ChildEnd.execs
    else Outcome.ret s ChildEnd.execs
/-- What `minijail_enter` comes to on a configuration stripped by
`minijail_preexec`, in terms of the configuration before the stripping: the
installation of the filters, the unshare when `vfs` is set, the remount of
/proc when `readonly` is set, and `setgroups(0, NULL)`. -/
def enter_stripped (sys : List Op → Op → Nat) (h : Heap) (j : minijail) (w : World) :
    Outcome World Unit :=
  (setup_seccomp_filters sys h j w).andThen fun w _ =>
  (if j.flags.vfs then perform sys .unshare_newns "unshare" w
    else Outcome.ret w ()).andThen fun w _ =>
  (if j.flags.readonly then
      if (remount_readonly sys w).2 ≠ 0 then Outcome.die "remount" (remount_readonly sys w).1
      else Outcome.ret (remount_readonly sys w).1 ()
    else Outcome.ret w ()).andThen fun w _ =>
  perform sys .setgroups_none "setgroups" w

/-- The calls of the two namespace steps of Enter: the unshare of the mount
namespace when `vfs` is set, the unmount and read-only mount of /proc when
`readonly` is set. -/
def namespace_ops (j : minijail) : List Op :=
  (if j.flags.vfs then [Op.unshare_newns] else []) ++
  (if j.flags.readonly then [Op.umount_proc, Op.mount_proc_readonly] else [])

/-! ## Sequences of calls of `minijail_add_seccomp_filter` -/

/-- The arguments of one call of `minijail_add_seccomp_filter`, and whether
its two allocations succeed. -/
structure AddCall where
  nr : Int
  filter : Option (List Nat)
  mallocOk : Bool
  strndupOk : Bool
deriving DecidableEq

/-- A sequence of calls on one configuration, whatever each of them returns. -/
def add_calls (MAX : Nat) : Heap × minijail → List AddCall → Outcome (Heap × minijail) Unit
  | st, [] => .ret st ()
  | st, c :: rest =>
    match minijail_add_seccomp_filter MAX c.mallocOk c.strndupOk st.1 st.2 c.nr c.filter with
    | .undef => Outcome.undef
    | .die msg st => Outcome.die msg st
    | .ret st _ => add_calls MAX st rest

/-- A call that is not rejected: the filter text is not null, the syscall
number is not negative, and both allocations succeed. -/
def AddCall.accepted (c : AddCall) : Bool :=
  c.filter.isSome && decide (0 ≤ c.nr) && c.mallocOk && c.strndupOk

/-- The entries the accepted calls of a sequence ask for, in the order of the
calls: the syscall number and the first `MAX` bytes of the text. -/
def added (MAX : Nat) (calls : List AddCall) : List (Int × List Nat) :=
  (calls.filter AddCall.accepted).filterMap
    (fun c => c.filter.map (fun t => (c.nr, (cstr t).take MAX)))

/-! ## The pipe protocol -/

def EFAULT : Int := 14

/-- `USHRT_MAX` (`limits.h`). -/
def USHRT_MAX : Nat := 65535

/-- The object representation of a `size_t`, a parameter like that of the
struct: `sizeof(size_t)`, the bytes of a value, and the value of that many
bytes. -/
structure SizeRep where
  size : Nat
  put : Nat → List Nat
  get : List Nat → Nat

/-- What C guarantees of the representation of a `size_t`: it has `sizeof`
bytes, a value that fits is read back from its bytes, and `SIZE_MAX` is at
least 65535. -/
def SizeRep.Lawful (R : SizeRep) : Prop :=
  (∀ n, (R.put n).length = R.size) ∧ (∀ n, n < 2 ^ (8 * R.size) → R.get (R.put n) = n) ∧
  2 ≤ R.size

/-- The `size_t` of LP64: 8 bytes, little-endian. -/
def lp64_size_t : SizeRep := { size := 8, put := le 8, get := unle }

/-- C `write(fd, data, n)` on a pipe: the system takes `r` bytes, `r` being
the result of the call (negative for an error), and they are appended to the
content of the pipe. -/
def write (pipe : List Nat) (data : List Nat) (r : Int) : List Nat :=
  pipe ++ data.take r.toNat

/-- C `read(fd, buf, n)` on a pipe whose writer has written all it had to: the
first `n` bytes of the content, or all of it when it is shorter; the result of
the call is their number. The bytes read leave the pipe. -/
def read (pipe : List Nat) (n : Nat) : List Nat × List Nat := (pipe.take n, pipe.drop n)

/-- `minijail_to_fd` (lines 496-525): the state is the content of the pipe.
`malloc` gives the bytes of the block it returns, `none` for a null pointer,
which is not tested for: a null `buf` has no byte to store to. `w1` and `w2`
are the results of the two calls of `write`. The `warn` does nothing to the
state. -/
def minijail_to_fd (L : Layout) (R : SizeRep) (malloc : Nat → Option (List Nat))
    (w1 w2 : Int) (h : Heap) (j : minijail) (pipe : List Nat) : Outcome (List Nat) Int :=
  match minijail_size L h j with
  | none => .undef
  | some sz =>
    if sz = 0 then .ret pipe (-EINVAL)
    else
      match minijail_marshal L h j ((malloc sz).getD []) sz with
      | .undef => Outcome.undef
      | .die msg _ => Outcome.die msg pipe
      | .ret buf r =>
        if r ≠ 0 then .ret pipe r
        else
          -- written = write(fd, &sz, sizeof(sz));
          let pipe := write pipe (R.put sz) w1
          if w1 ≠ R.size then .ret pipe (-EFAULT)
          else
            -- written = write(fd, buf, sz);
            let pipe := write pipe (buf.take sz) w2
            if w2 < 0 ∨ w2 ≠ sz then .ret pipe (-EFAULT)
            else .ret pipe 0

/-- `minijail_from_fd` (lines 474-494): the state is the content of the pipe,
the heap and the struct `*j`. `mallocOk` tells whether `malloc(sz)` succeeds,
`strndupOk` whether the allocation in `minijail_unmarshal` does. -/
def minijail_from_fd (L : Layout) (R : SizeRep) (mallocOk strndupOk : Bool) (h : Heap)
    (j : minijail) (pipe : List Nat) : Outcome (List Nat × Heap × minijail) Int :=
  -- size_t bytes = read(fd, &sz, sizeof(sz));
  let got := (read pipe R.size).1
  let pipe := (read pipe R.size).2
  if got.length ≠ R.size then .ret (pipe, h, j) (-EINVAL)
  else
    let sz := R.get got
    if sz > USHRT_MAX then .ret (pipe, h, j) (-E2BIG)
    else if !mallocOk then .ret (pipe, h, j) (-ENOMEM)
    else
      -- bytes = read(fd, buf, sz);
      let buf := (read pipe sz).1
      let pipe := (read pipe sz).2
      if buf.length ≠ sz then .ret (pipe, h, j) (-EINVAL)
      else
        match minijail_unmarshal L strndupOk h j buf sz with
        | .undef => Outcome.undef
        | .die msg s => Outcome.die msg (pipe, s.1, s.2)
        | .ret s r => Outcome.ret (pipe, s.1, s.2) r

/-- The marshaled form of a configuration: the bytes of the struct, then, when
it has a username, the bytes of the name and the terminator. -/
def marshaled (L : Layout) (h : Heap) (j : minijail) : List Nat :=
  L.put j ++ (if j.user = 0 then [] else
    (match h.str j.user with | some u => cstr u ++ [0] | none => []))

/-! ## The environment, and the parent side of `minijail_run` -/

/-- C `getenv` on an environment of names and values. -/
def getenv (env : List (List Nat × List Nat)) (name : List Nat) : Option (List Nat) :=
  (env.find? (fun p => decide (p.1 = name))).map (fun p => p.2)

/-- C `unsetenv`. -/
def unsetenv (env : List (List Nat × List Nat)) (name : List Nat) :
    List (List Nat × List Nat) :=
  env.filter (fun p => !decide (p.1 = name))

/-- C `setenv(name, value, 1)`. -/
def setenv (env : List (List Nat × List Nat)) (name value : List Nat) :
    List (List Nat × List Nat) :=
  (name, value) :: unsetenv env name

/-- `setup_preload` (lines 527-540): the environment after the call, and the
result. `kLdPreloadEnvVar` and `PRELOADPATH` come from a header and from the
build, neither among the sources; `mallocOk` tells whether the `malloc`
succeeds. -/
def setup_preload (kLdPreloadEnvVar PRELOADPATH : List Nat) (mallocOk : Bool)
    (env : List (List Nat × List Nat)) : List (List Nat × List Nat) × Int :=
  -- char *oldenv = getenv(kLdPreloadEnvVar) ? : "";
  let oldenv := (getenv env kLdPreloadEnvVar).getD []
  if !mallocOk then (env, -ENOMEM)
  else
    -- sprintf(newenv, "%s%s%s", oldenv, strlen(oldenv) ? " " : "", PRELOADPATH);
    let newenv := oldenv ++ ((if strlen oldenv ≠ 0 then lit " " else []) ++ PRELOADPATH)
    (setenv env kLdPreloadEnvVar newenv, 0)

/-- What the system answers to the calls of `minijail_run` in the calling
process: whether the `strdup` and the `malloc` of `setup_preload` succeed, the
result of `pipe` and the descriptor of the read end, the result of the `clone`,
and for `minijail_to_fd` the blocks of `malloc` and the results of the two
calls of `write`. -/
structure RunAnswers where
  strdupOk : Bool
  preloadMallocOk : Bool
  pipe : Int
  read_fd : Nat
  clone : Int
  malloc : Nat → Option (List Nat)
  w1 : Int
  w2 : Int

/-- The state `minijail_run` acts on in the calling process: the environment,
the struct `*j`, the content of the pipe, and the processes sent `SIGKILL`. -/
structure RunState where
  env : List (List Nat × List Nat)
  j : minijail
  pipe : List Nat
  killed : List Int
deriving DecidableEq

/-- `minijail_run` (lines 542-593) up to the point where the calling process
returns or aborts, or finds itself the child (`clone` gave 0), which goes on
with `run_child`: the result is `some r` for `return r` and `none` for the
child. `kFdEnvVar` comes from the same header as `kLdPreloadEnvVar`. -/
def minijail_run (L : Layout) (R : SizeRep) (kLdPreloadEnvVar kFdEnvVar PRELOADPATH : List Nat)
    (a : RunAnswers) (h : Heap) (s : RunState) : Outcome RunState (Option Int) :=
  let oldenv := getenv s.env kLdPreloadEnvVar
  -- oldenv_copy = strdup(oldenv); if (!oldenv_copy) return -ENOMEM;
  if oldenv.isSome && !a.strdupOk then .ret s (some (-ENOMEM))
  else
    let oldenv_copy := oldenv
    let p := setup_preload kLdPreloadEnvVar PRELOADPATH a.preloadMallocOk s.env
    if p.2 ≠ 0 then .ret { s with env := p.1 } (some p.2)
    else if a.pipe ≠ 0 then .ret { s with env := p.1 } (some a.pipe)
    else
      -- r = snprintf(fd_buf, sizeof(fd_buf), "%d", pipe_fds[0]);
      let text := lit (toString a.read_fd)
      if (text.length : Int) ≤ 0 then .ret { s with env := p.1 } (some (-EINVAL))
      else
        let env := setenv p.1 kFdEnvVar (text.take 10)
        if a.clone > 0 then
          let env :=
            match oldenv_copy with
            | some v => setenv env kLdPreloadEnvVar v
            | none => unsetenv env kLdPreloadEnvVar
          let env := unsetenv env kFdEnvVar
          let j := { s.j with initpid := a.clone }
          match minijail_to_fd L R a.malloc a.w1 a.w2 h j s.pipe with
          | .undef => Outcome.undef
          | .die msg pipe =>
            Outcome.die msg { env := env, j := j, pipe := pipe, killed := s.killed }
          | .ret pipe r =>
            if r ≠ 0 then
              Outcome.die "failed to send marshalled minijail"
                { env := env, j := j, pipe := pipe, killed := s.killed ++ [j.initpid] }
            else Outcome.ret { env := env, j := j, pipe := pipe, killed := s.killed } (some 0)
        else if a.clone < 0 then .ret { s with env := env } (some a.clone)
        else .ret { s with env := env } none

/-! ## Sample inputs -/

/-- A heap holding the string "ab". -/
def heap_ab : Heap := { strs := [lit "ab"], nodes := [] }

/-- A configuration with the username "ab" of `heap_ab`. -/
def jail_ab : minijail :=
  { flags := { Flags.zero with uid := true, gid := true, caps := true },
    uid := 1000, gid := 1000, usergid := 1000, user := 1, caps := 5, initpid := 0,
    filters := 0 }

/-- The marshaled form of `jail_ab`: the 48 bytes of the header, then "ab" and
the terminator. -/
def marshaled_ab : List Nat := lp64_put jail_ab ++ [97, 98, 0]

/-- A heap with one filter block, linked to itself. -/
def heap_one : Heap := { strs := [], nodes := [⟨2, lit "1", 1, 1⟩] }

/-- A configuration whose collection is the block of `heap_one`. -/
def jail_one : minijail := { minijail_new with filters := 1 }

/-- A syscall table with three entries (the x86-64 numbers). -/
def sample_table : List syscall_entry :=
  [⟨some (lit "read"), 0⟩, ⟨some (lit "open"), 2⟩, ⟨some (lit "close"), 3⟩]

/-- Every allocation succeeds. -/
def alloc_ok : Nat → Bool × Bool := fun _ => (true, true)

/-- A lookup that knows no name and leaves `ENOENT` in `errno`. -/
def getpwnam_none : List Nat → Except Int passwd := fun _ => .error 2

/-- A group lookup that knows no name and leaves `ENOENT` in `errno`. -/
def getgrnam_none : List Nat → Except Int group := fun _ => .error 2

/-- The array `fgets` fills from the line "open: 1". -/
def line_open : List Nat := lit "open: 1\n" ++ [0]

/-- A filter file whose second line names a syscall the sample table does not
have. -/
def file_bogus : List Nat := lit "open: 1\nbogus: 1\n"

/-- The heap after the line "open: 1" of `file_bogus`. -/
def heap_open : Heap := { strs := [], nodes := [⟨2, lit "1", 1, 1⟩] }

/-- A platform: `CAP_LAST_CAP` 35, and `1 << i` as x86-64 code computes it
(the count taken modulo 32, the `int` sign-extended to 64 bits). -/
def platform_x86 : Platform :=
  { last_cap := 35,
    shl1 := fun i => if i % 32 = 31 then 2 ^ 64 - 2 ^ 31 else 2 ^ (i % 32) }

/-- Every call succeeds. -/
def sys_ok : List Op → Op → Nat := fun _ _ => 0

/-- A process that has issued no call, with capabilities 0 to 2 in its sets. -/
def world0 : World :=
  { trace := [], proc := ⟨[0, 1, 2], [0, 1, 2], [0, 1, 2]⟩, dropped := [], capobj := ⟨[], [], []⟩ }

/-- A configuration with the PID-namespace flag set. -/
def jail_pids : minijail := { jail_ab with flags := { jail_ab.flags with pids := true } }

/-- A configuration that asks for group inheritance and has no username. -/
def jail_nouser : minijail :=
  { minijail_new with flags := { Flags.zero with usergroups := true, vfs := true } }

/-- The configuration `jail_ab` with every mode flag set but `pids`. -/
def jail_full : minijail :=
  { jail_ab with
    flags :=
      { uid := true, gid := true, caps := true, vfs := true, pids := false,
        seccomp := true, readonly := true, usergroups := true, ptrace := true,
        seccomp_filter := true },
    caps := 256 }

/-- The state `minijail_enter` leaves on `jail_full` when every call
succeeds. -/
def world_full : World :=
  run (enter_order platform_x86 jail_full (lit "ab") ++ enter_activation jail_full) world0

/-- A platform whose shift gives 0 for counts from 32 on (as a register shift
on ARM does), with `CAP_LAST_CAP` 35. -/
def platform_arm : Platform :=
  { last_cap := 35, shl1 := fun i => if i < 31 then 2 ^ i else if i = 31 then 2 ^ 64 - 2 ^ 31 else 0 }

/-- A heap with a collection of two entries: syscall 3 with "a == 1", then
syscall 2 with "1". -/
def heap_two : Heap :=
  { strs := [lit "ab"], nodes := [⟨3, lit "a == 1", 2, 2⟩, ⟨2, lit "1", 1, 1⟩] }

/-- The same two entries in the other order: syscall 2 with "1" comes first. -/
def heap_two_swapped : Heap :=
  { strs := [lit "ab"], nodes := [⟨2, lit "1", 2, 2⟩, ⟨3, lit "a == 1", 1, 1⟩] }

/-- A configuration with the collection of `heap_two` and the filter flag. -/
def jail_two : minijail :=
  { minijail_new with filters := 1, flags := { Flags.zero with seccomp_filter := true } }

/-- A kernel without per-syscall filtering for the filter texts other than
"1": the install of such a text fails with `ENOSYS`, every other call
succeeds. -/
def sys_enosys : List Op → Op → Nat := fun _ op =>
  match op with
  | .seccomp_filter _ f => if f = lit "1" then 0 else 38
  | _ => 0

/-- The answers of a system on which the `unshare` fails with `EPERM` and
every other call succeeds. -/
def sys_no_unshare : List Op → Op → Nat := fun _ op =>
  match op with
  | .unshare_newns => 1
  | _ => 0

/-- A configuration with the vfs, readonly and pids flags, a uid and a
username. -/
def jail_ns : minijail :=
  { jail_ab with
    flags :=
      { Flags.zero with vfs := true, readonly := true, pids := true, uid := true,
                        usergroups := true } }

/-- Five calls: two accepted, then one with a negative number, one whose
`malloc` fails, and a last accepted one. -/
def calls_mixed : List AddCall :=
  [⟨2, some (lit "1"), true, true⟩, ⟨3, some (lit "a == 1"), true, true⟩,
    ⟨-1, some (lit "1"), true, true⟩, ⟨4, some (lit "1"), false, true⟩,
    ⟨0, some (lit "fd == 0"), true, true⟩]

/-- A username of 65488 letters. -/
def long_name : List Nat := List.replicate 65488 97

/-- A heap holding `long_name`. -/
def heap_long : Heap := { strs := [long_name], nodes := [] }

/-- A configuration with the username of `heap_long`. -/
def jail_long : minijail := { minijail_new with user := 1 }

/-- An allocator whose blocks hold zeros. -/
def malloc_zero : Nat → Option (List Nat) := fun n => some (List.replicate n 0)

/-- The name of the preload variable of the dynamic linker. -/
def ld_preload : List Nat := lit "LD_PRELOAD"

/-- A name for the variable that carries the descriptor. -/
def fd_var : List Nat := lit "__MINIJAIL_FD"

/-- A path for the preload library. -/
def preload_path : List Nat := lit "/lib/libminijailpreload.so"

/-- An environment in which the preload variable is set. -/
def env_preload : List (List Nat × List Nat) :=
  [(lit "PATH", lit "/bin"), (lit "LD_PRELOAD", lit "libfoo.so")]

/-- Answers of a system on which `pipe` fails. -/
def answers_no_pipe : RunAnswers :=
  { strdupOk := true, preloadMallocOk := true, pipe := -1, read_fd := 0, clone := 0,
    malloc := malloc_zero, w1 := 0, w2 := 0 }

/-- Answers of a system on which the `clone` fails, the pipe having the
descriptors 3 and 4. -/
def answers_no_clone : RunAnswers :=
  { strdupOk := true, preloadMallocOk := true, pipe := 0, read_fd := 3, clone := -1,
    malloc := malloc_zero, w1 := 0, w2 := 0 }

/-- Answers of a system on which every call succeeds: the child has pid 77,
and the two writes of the 51 bytes of `jail_ab` are complete. -/
def answers_ok : RunAnswers :=
  { strdupOk := true, preloadMallocOk := true, pipe := 0, read_fd := 3, clone := 77,
    malloc := malloc_zero, w1 := 8, w2 := 51 }

/-- The x86-64 platform built against kernel headers whose `CAP_LAST_CAP` is
40: the shift is that of `platform_x86`. -/
def platform_x86_40 : Platform := { platform_x86 with last_cap := 40 }

/-- A new configuration after `minijail_use_caps(j, 1 << CAP_SETPCAP)`. -/
def jail_setpcap : minijail := minijail_use_caps minijail_new (2 ^ CAP_SETPCAP)

/-! # Theorems -/

/-! ## The LP64 layout is lawful -/

theorem le_length (k n : Nat) : (le k n).length = k := by
  induction k generalizing n with
  | zero => rfl
  | succ k ih => simp [le, ih]

theorem unle_le (k n : Nat) : unle (le k n) = n % 256 ^ k := by
  induction k generalizing n with
  | zero => simp [le, unle, Nat.mod_one]
  | succ k ih =>
    simp only [le, unle, ih]
    rw [pow_succ, Nat.mul_comm (256 ^ k) 256, Nat.mod_mul]

theorem rd_le_append (k n : Nat) (r : List Nat) :
    rd k (le k n ++ r) = (n % 256 ^ k, r) := by
  have h := le_length k n
  simp [rd, List.take_append_eq_append_take, List.drop_append_eq_append_drop, h, unle_le,
    List.take_of_length_le, List.drop_of_length_le]

theorem Flags.ofNat_toNat (f : Flags) : Flags.ofNat f.toNat = f := by
  rcases f with ⟨a, b, c, d, e, f, g, h, i, j⟩
  revert a b c d e f g h i j
  decide

theorem Flags.toNat_lt (f : Flags) : f.toNat < 256 ^ 4 := by
  rcases f with ⟨a, b, c, d, e, f, g, h, i, j⟩
  revert a b c d e f g h i j
  decide

theorem int32_emod (i : Int) (h1 : -(2 ^ 31) ≤ i) (h2 : i < 2 ^ 31) :
    int32 ((i % 2 ^ 32).toNat % 256 ^ 4) = i := by
  have hnn : 0 ≤ i % 2 ^ 32 := Int.emod_nonneg _ (by norm_num)
  have hlt : i % 2 ^ 32 < 2 ^ 32 := Int.emod_lt_of_pos _ (by norm_num)
  have hm : (i % 2 ^ 32).toNat % 256 ^ 4 = (i % 2 ^ 32).toNat := by
    apply Nat.mod_eq_of_lt
    omega
  rw [hm]
  unfold int32
  by_cases hi : 0 ≤ i
  · have : i % 2 ^ 32 = i := Int.emod_eq_of_lt hi (by omega)
    rw [this]
    have h3 : i.toNat < 2 ^ 31 := by omega
    rw [if_pos h3]
    exact Int.toNat_of_nonneg hi
  · have : i % 2 ^ 32 = i + 2 ^ 32 := by
      have := Int.add_mul_emod_self (a := i) (b := 1) (c := 2 ^ 32)
      rw [one_mul] at this
      rw [← this]
      exact Int.emod_eq_of_lt (by omega) (by omega)
    rw [this]
    have h3 : ¬ (i + 2 ^ 32).toNat < 2 ^ 31 := by omega
    rw [if_neg h3, Int.toNat_of_nonneg (by omega)]
    omega

theorem lp64_put_length (j : minijail) : (lp64_put j).length = 48 := by
  simp [lp64_put, le_length]

theorem lp64_get_put (j : minijail) (hj : j.InRange) : lp64_get (lp64_put j) = j := by
  obtain ⟨h1, h2, h3, h4, h5, ⟨h6, h7⟩, h8⟩ := hj
  have e32 : ∀ n, n < 2 ^ 32 → n % 256 ^ 4 = n := fun n hn => Nat.mod_eq_of_lt (by omega)
  have e64 : ∀ n, n < 2 ^ 64 → n % 256 ^ 8 = n := fun n hn => Nat.mod_eq_of_lt (by omega)
  simp only [lp64_get, lp64_put, rd_le_append]
  rw [e32 _ h1, e32 _ h2, e32 _ h3, e64 _ h4, e64 _ h5, int32_emod _ h6 h7,
    Nat.mod_eq_of_lt (Flags.toNat_lt j.flags), Flags.ofNat_toNat]
  have : rd 8 (le 8 j.filters) = (j.filters % 256 ^ 8, []) := by
    simpa using rd_le_append 8 j.filters []
  rw [this, e64 _ h8]

theorem lp64_lawful : lp64.Lawful := ⟨lp64_put_length, lp64_get_put⟩

/-! ## Marshaling -/

theorem memcpy_zero (buf src : List Nat) (h : src.length ≤ buf.length) :
    memcpy buf 0 src = some (src ++ buf.drop src.length) := by
  simp [memcpy, h]

theorem memcpy_after (a b src : List Nat) (h : src.length ≤ b.length) :
    memcpy (a ++ b) a.length src = some (a ++ (src ++ b.drop src.length)) := by
  have : a.length + src.length ≤ (a ++ b).length := by simp; omega
  simp [memcpy, h, List.take_append_eq_append_take, List.drop_append_eq_append_drop]

theorem strlen_eq (u : List Nat) : strlen u = (cstr u).length := rfl

/-- What a successful `minijail_marshal` leaves in the buffer. -/
theorem marshal_ret (L : Layout) (hL : L.Lawful) (h : Heap) (j : minijail)
    (buf : List Nat) (available sz : Nat) (hbuf : available ≤ buf.length)
    (hsz : minijail_size L h j = some sz) (hav : sz ≤ available) :
    minijail_marshal L h j buf available =
      .ret (L.put j ++ ((if j.user = 0 then [] else
        (match h.str j.user with | some u => cstr u ++ [0] | none => [])) ++ buf.drop sz)) 0 := by
  have hlen := hL.1 j
  unfold minijail_size at hsz
  unfold minijail_marshal
  by_cases hu : j.user = 0
  · simp only [hu, ne_eq, not_true_eq_false, if_false, Option.some.injEq] at hsz
    subst hsz
    have h1 : ¬ available < L.size := by omega
    simp only [h1, if_false, hu, ne_eq, not_true_eq_false, if_true]
    rw [memcpy_zero _ _ (by omega)]
    simp [hlen]
  · simp only [ne_eq, hu, not_false_eq_true, if_true] at hsz
    cases hs : h.str j.user with
    | none => simp [hs] at hsz
    | some u =>
      simp only [hs, Option.some.injEq] at hsz
      subst hsz
      have h1 : ¬ available < L.size := by omega
      have h2 : ¬ available - L.size < strlen u + 1 := by omega
      simp only [h1, if_false, hu, ne_eq, not_false_eq_true, if_true, h2]
      rw [memcpy_zero _ _ (by omega)]
      simp only []
      have hl : (L.put j).length = L.size := hlen
      rw [← hl, memcpy_after _ _ _ (by simp [strlen_eq] at *; omega)]
      simp [strlen_eq, hl, Nat.add_assoc]

theorem cstr_nonzero (u : List Nat) : ∀ b ∈ cstr u, b ≠ 0 := by
  intro b hb
  have := List.mem_takeWhile_imp hb
  simpa using this

theorem cstr_eq_self (l : List Nat) (hl : ∀ b ∈ l, b ≠ 0) : cstr l = l := by
  unfold cstr
  rw [List.takeWhile_eq_self_iff]
  intro b hb
  simpa using hl b hb

theorem cstr_append_zero (l r : List Nat) (hl : ∀ b ∈ l, b ≠ 0) : cstr (l ++ 0 :: r) = l := by
  induction l with
  | nil => simp [cstr]
  | cons a l ih =>
    have ha : a ≠ 0 := hl a (by simp)
    have := ih (fun b hb => hl b (by simp [hb]))
    simp only [cstr] at this ⊢
    have hb : (a != 0) = true := by simpa using ha
    rw [List.cons_append, List.takeWhile_cons, hb]
    simp [this]

/-- The marshaled form when the buffer has exactly `minijail_size` bytes. -/
theorem marshal_exact (L : Layout) (hL : L.Lawful) (h : Heap) (j : minijail)
    (buf : List Nat) (sz : Nat) (hbuf : buf.length = sz)
    (hsz : minijail_size L h j = some sz) :
    minijail_marshal L h j buf sz =
      .ret (L.put j ++ (if j.user = 0 then [] else
        (match h.str j.user with | some u => cstr u ++ [0] | none => []))) 0 := by
  rw [marshal_ret L hL h j buf sz sz (by omega) hsz (le_refl _)]
  have : buf.drop sz = [] := List.drop_of_length_le (by omega)
  rw [this, List.append_nil]

theorem size_null (L : Layout) (h : Heap) (j : minijail) (hu : j.user = 0) :
    minijail_size L h j = some L.size := by
  simp [minijail_size, hu]

theorem size_user (L : Layout) (h : Heap) (j : minijail) (u : List Nat) (hu : j.user ≠ 0)
    (hs : h.str j.user = some u) :
    minijail_size L h j = some (L.size + (strlen u + 1)) := by
  simp [minijail_size, hu, hs]

theorem str_allocStr (h : Heap) (s : List Nat) :
    (h.allocStr s).1.str (h.allocStr s).2 = some s := by
  simp [Heap.allocStr, Heap.str]

/-- `minijail_unmarshal` on a header followed by `k` bytes of a string and its
terminator or the end of the input. -/
theorem unmarshal_header_user (L : Layout) (hL : L.Lawful) (h2 : Heap) (j0 c : minijail)
    (hc : c.InRange) (hu : c.user ≠ 0) (tail : List Nat) (htail : tail ≠ []) :
    minijail_unmarshal L true h2 j0 (L.put c ++ tail) (L.size + tail.length) =
      .ret ((h2.allocStr (cstr tail)).1, { c with user := (h2.allocStr (cstr tail)).2 }) 0 := by
  have hlen := hL.1 c
  have hget := hL.2 c hc
  unfold minijail_unmarshal
  have h1 : ¬ L.size + tail.length < L.size := by omega
  have h2' : ¬ (L.put c ++ tail).length < L.size + tail.length := by simp [hlen]
  have h3 : (L.put c ++ tail).take L.size = L.put c := by
    rw [← hlen]; simp
  have h4 : (L.put c ++ tail).drop L.size = tail := by
    rw [← hlen]; simp
  have h5 : tail.length ≠ 0 := by
    intro h; exact htail (List.length_eq_zero.mp h)
  simp only [h1, h2', if_false, h3, hget, ne_eq, hu, not_false_eq_true, if_true, h4,
    Nat.add_sub_cancel_left, h5, strndup, List.take_length]

theorem unmarshal_header_null (L : Layout) (hL : L.Lawful) (h2 : Heap) (j0 c : minijail)
    (hc : c.InRange) (hu : c.user = 0) :
    minijail_unmarshal L true h2 j0 (L.put c) L.size = .ret (h2, c) 0 := by
  have hlen := hL.1 c
  have hget := hL.2 c hc
  unfold minijail_unmarshal
  have h3 : (L.put c).take L.size = L.put c := by
    rw [← hlen]; simp
  simp [hlen, h3, hget, hu]

/-- C1. Round trip: marshaling a configuration `c` (fields in the range of
their C types, `user` null or designating a string) into a buffer of
`minijail_size(c)` bytes returns 0, and unmarshaling that buffer with that
length (the allocation of the copy succeeding) returns 0 and gives a struct
equal to `c` in every field but the pointer `user`, which is null exactly when
that of `c` is and otherwise designates a string with the bytes of the username
of `c`; when `c` has no username the marshaled form is the header alone. -/
theorem marshal_unmarshal_round_trip (L : Layout) (hL : L.Lawful) (h : Heap) (c : minijail)
    (hc : c.InRange) (sz : Nat) (hsz : minijail_size L h c = some sz)
    (buf : List Nat) (hbuf : buf.length = sz) (h2 : Heap) (j0 : minijail) :
    ∃ buf', minijail_marshal L h c buf sz = .ret buf' 0 ∧ buf'.length = sz ∧
      (c.user = 0 → buf' = L.put c ∧ sz = L.size ∧
        minijail_unmarshal L true h2 j0 buf' sz = .ret (h2, c) 0) ∧
      (c.user ≠ 0 → ∃ h3 c' u, minijail_unmarshal L true h2 j0 buf' sz = .ret (h3, c') 0 ∧
        { c' with user := c.user } = c ∧ c'.user ≠ 0 ∧
        h.str c.user = some u ∧ h3.str c'.user = some (cstr u)) := by
  have hlen := hL.1 c
  refine ⟨_, marshal_exact L hL h c buf sz hbuf hsz, ?_, ?_, ?_⟩
  · by_cases hu : c.user = 0
    · rw [size_null L h c hu] at hsz
      simp only [Option.some.injEq] at hsz
      simp [hu, hlen, hsz]
    · cases hs : h.str c.user with
      | none => simp [minijail_size, hu, hs] at hsz
      | some u =>
        rw [size_user L h c u hu hs] at hsz
        simp only [Option.some.injEq] at hsz
        simp [hu, hlen, ← hsz, strlen_eq]
  · intro hu
    rw [size_null L h c hu] at hsz
    simp only [Option.some.injEq] at hsz
    subst hsz
    simp only [hu, if_true, List.append_nil, true_and]
    exact unmarshal_header_null L hL h2 j0 c hc hu
  · intro hu
    cases hs : h.str c.user with
    | none => simp [minijail_size, hu, hs] at hsz
    | some u =>
      rw [size_user L h c u hu hs] at hsz
      simp only [Option.some.injEq] at hsz
      subst hsz
      simp only [hu, if_false]
      have := unmarshal_header_user L hL h2 j0 c hc hu (cstr u ++ [0]) (by simp)
      simp only [List.length_append, List.length_singleton, ← strlen_eq] at this
      refine ⟨_, _, u, this, rfl, ?_, rfl, ?_⟩
      · simp [Heap.allocStr]
      · rw [cstr_append_zero _ _ (cstr_nonzero u)]
        exact str_allocStr h2 (cstr u)

/-- C1 at `jail_ab` under the LP64 layout, into a buffer of 51 bytes. -/
theorem marshal_unmarshal_round_trip_witness :
    lp64.Lawful ∧ jail_ab.InRange ∧ minijail_size lp64 heap_ab jail_ab = some 51 ∧
    ∃ buf', minijail_marshal lp64 heap_ab jail_ab (List.replicate 51 0) 51 = .ret buf' 0 ∧
      buf'.length = 51 ∧
      (jail_ab.user = 0 → buf' = lp64.put jail_ab ∧ 51 = lp64.size ∧
        minijail_unmarshal lp64 true Heap.empty minijail_new buf' 51 =
          .ret (Heap.empty, jail_ab) 0) ∧
      (jail_ab.user ≠ 0 → ∃ h3 c' u,
        minijail_unmarshal lp64 true Heap.empty minijail_new buf' 51 = .ret (h3, c') 0 ∧
        { c' with user := jail_ab.user } = jail_ab ∧ c'.user ≠ 0 ∧
        heap_ab.str jail_ab.user = some u ∧ h3.str c'.user = some (cstr u)) :=
  ⟨lp64_lawful, by decide, by decide,
    marshal_unmarshal_round_trip lp64 lp64_lawful heap_ab jail_ab (by decide) 51 (by decide)
      (List.replicate 51 0) (by decide) Heap.empty minijail_new⟩

theorem marshal_nospc (L : Layout) (hL : L.Lawful) (h : Heap) (j : minijail)
    (buf : List Nat) (available sz : Nat) (hbuf : available ≤ buf.length)
    (hsz : minijail_size L h j = some sz) (hav : available < sz) :
    ∃ buf', minijail_marshal L h j buf available = .ret buf' (-ENOSPC) ∧
      buf'.length = buf.length := by
  have hlen := hL.1 j
  unfold minijail_size at hsz
  unfold minijail_marshal
  by_cases h1 : available < L.size
  · exact ⟨buf, by simp [h1], rfl⟩
  · by_cases hu : j.user = 0
    · simp [hu] at hsz; omega
    · simp only [ne_eq, hu, not_false_eq_true, if_true] at hsz
      cases hs : h.str j.user with
      | none => simp [hs] at hsz
      | some u =>
        simp only [hs, Option.some.injEq] at hsz
        subst hsz
        have h2 : available - L.size < strlen u + 1 := by omega
        simp only [h1, if_false, hu, ne_eq, not_false_eq_true, if_true, h2]
        rw [memcpy_zero _ _ (by omega)]
        exact ⟨_, rfl, by simp [hlen]; omega⟩

/-- C2. `minijail_size` is the struct size without a username and the struct
size plus `strlen(username) + 1` with one; `minijail_marshal` into a buffer
holding at least `available` bytes returns `-ENOSPC` exactly when `available`
is less than `minijail_size`, and otherwise returns 0 with the struct in the
first `sizeof` bytes, then the bytes of the username and its terminator, the
rest of the buffer untouched. -/
theorem minijail_size_marshal_spec (L : Layout) (hL : L.Lawful) (h : Heap) (j : minijail)
    (buf : List Nat) (available : Nat) (hbuf : available ≤ buf.length)
    (hptr : j.user ≠ 0 → (h.str j.user).isSome = true) :
    ∃ sz, minijail_size L h j = some sz ∧
      (j.user = 0 → sz = L.size) ∧
      (∀ u, j.user ≠ 0 → h.str j.user = some u → sz = L.size + (strlen u + 1)) ∧
      ∃ buf' r, minijail_marshal L h j buf available = .ret buf' r ∧
        (r = -ENOSPC ↔ available < sz) ∧
        (¬ available < sz → r = 0 ∧ buf'.take L.size = L.put j ∧
          (∀ u, j.user ≠ 0 → h.str j.user = some u →
            (buf'.drop L.size).take (strlen u + 1) = cstr u ++ [0]) ∧
          buf'.drop sz = buf.drop sz) := by
  have hlen := hL.1 j
  obtain ⟨sz, hsz⟩ : ∃ sz, minijail_size L h j = some sz := by
    by_cases hu : j.user = 0
    · exact ⟨_, size_null L h j hu⟩
    · cases hs : h.str j.user with
      | none => simp [hs] at hptr; exact absurd hptr hu
      | some u => exact ⟨_, size_user L h j u hu hs⟩
  refine ⟨sz, hsz, ?_, ?_, ?_⟩
  · intro hu
    rw [size_null L h j hu] at hsz
    exact (Option.some.inj hsz).symm
  · intro u hu hs
    rw [size_user L h j u hu hs] at hsz
    exact (Option.some.inj hsz).symm
  · by_cases hav : available < sz
    · obtain ⟨buf', hm, _⟩ := marshal_nospc L hL h j buf available sz hbuf hsz hav
      exact ⟨buf', _, hm, by simp [hav], fun hn => absurd hav hn⟩
    · refine ⟨_, _, marshal_ret L hL h j buf available sz hbuf hsz (by omega), ?_, ?_⟩
      · simp [hav, ENOSPC]
      · intro _
        refine ⟨rfl, ?_, ?_, ?_⟩
        · rw [← hlen]; simp
        · intro u hu hs
          rw [← hlen]
          simp only [hu, if_false, hs, List.drop_left, strlen_eq]
          rw [List.take_left' (by simp)]
        · by_cases hu : j.user = 0
          · rw [size_null L h j hu] at hsz
            have := Option.some.inj hsz
            subst this
            rw [← hlen]
            simp [hu]
          · cases hs : h.str j.user with
            | none => simp [minijail_size, hu, hs] at hsz
            | some u =>
              rw [size_user L h j u hu hs] at hsz
              have := Option.some.inj hsz
              subst this
              have e : L.size + (strlen u + 1) = (L.put j ++ (cstr u ++ [0])).length := by
                simp [hlen, strlen_eq]
              simp only [hu, if_false]
              rw [← List.append_assoc]
              generalize L.put j ++ (cstr u ++ [0]) = pre at e
              generalize List.drop (L.size + (strlen u + 1)) buf = post
              rw [e, List.drop_left]

/-- C2 at `jail_ab` under the LP64 layout, with 60 bytes available in a buffer
of 64. -/
theorem minijail_size_marshal_spec_witness :
    lp64.Lawful ∧ 60 ≤ (List.replicate 64 7).length ∧
    (jail_ab.user ≠ 0 → (heap_ab.str jail_ab.user).isSome = true) ∧
    ∃ sz, minijail_size lp64 heap_ab jail_ab = some sz ∧
      (jail_ab.user = 0 → sz = lp64.size) ∧
      (∀ u, jail_ab.user ≠ 0 → heap_ab.str jail_ab.user = some u →
        sz = lp64.size + (strlen u + 1)) ∧
      ∃ buf' r, minijail_marshal lp64 heap_ab jail_ab (List.replicate 64 7) 60 = .ret buf' r ∧
        (r = -ENOSPC ↔ 60 < sz) ∧
        (¬ 60 < sz → r = 0 ∧ buf'.take lp64.size = lp64.put jail_ab ∧
          (∀ u, jail_ab.user ≠ 0 → heap_ab.str jail_ab.user = some u →
            (buf'.drop lp64.size).take (strlen u + 1) = cstr u ++ [0]) ∧
          buf'.drop sz = (List.replicate 64 7).drop sz) :=
  ⟨lp64_lawful, by decide, by decide,
    minijail_size_marshal_spec lp64 lp64_lawful heap_ab jail_ab (List.replicate 64 7) 60
      (by decide) (by decide)⟩

/-- C3. `minijail_unmarshal` on a buffer holding at least `length` bytes
returns `-EINVAL` when `length` is less than the struct size, and `-EINVAL`
when the `user` pointer of the copied header is not null and `length` is the
struct size exactly; in every other case (the allocation succeeding) it returns
0, and when the `user` pointer of the header is not null the username is the
string taken from the `length - sizeof` bytes that follow the header. -/
theorem minijail_unmarshal_spec (L : Layout) (h : Heap) (j : minijail)
    (serialized : List Nat) (length : Nat) (hlen : length ≤ serialized.length) :
    (length < L.size →
      minijail_unmarshal L true h j serialized length = .ret (h, j) (-EINVAL)) ∧
    (L.size ≤ length →
      ((L.get (serialized.take L.size)).user ≠ 0 → length = L.size →
        minijail_unmarshal L true h j serialized length =
          .ret (h, L.get (serialized.take L.size)) (-EINVAL)) ∧
      ((L.get (serialized.take L.size)).user = 0 →
        minijail_unmarshal L true h j serialized length =
          .ret (h, L.get (serialized.take L.size)) 0) ∧
      ((L.get (serialized.take L.size)).user ≠ 0 → L.size < length →
        ∃ h' p, minijail_unmarshal L true h j serialized length =
            .ret (h', { L.get (serialized.take L.size) with user := p }) 0 ∧
          p ≠ 0 ∧
          h'.str p = some (cstr ((serialized.drop L.size).take (length - L.size))))) := by
  have hnl : ¬ serialized.length < length := by omega
  refine ⟨fun hlt => by simp [minijail_unmarshal, hlt], fun hge => ?_⟩
  have h1 : ¬ length < L.size := by omega
  refine ⟨?_, ?_, ?_⟩
  · intro hu he
    subst he
    simp [minijail_unmarshal, hnl, hu]
  · intro hu
    simp [minijail_unmarshal, h1, hnl, hu]
  · intro hu hlt
    have h2 : length - L.size ≠ 0 := by omega
    refine ⟨_, _, ?_, ?_, str_allocStr h _⟩
    · simp only [minijail_unmarshal, h1, hnl, if_false, ne_eq, hu, not_false_eq_true,
        if_true, h2, strndup]
    · simp [Heap.allocStr]

/-- C3 at the 51 bytes of `marshaled_ab` under the LP64 layout. -/
theorem minijail_unmarshal_spec_witness :
    51 ≤ marshaled_ab.length ∧
    ((51 < lp64.size →
      minijail_unmarshal lp64 true Heap.empty minijail_new marshaled_ab 51 =
        .ret (Heap.empty, minijail_new) (-EINVAL)) ∧
    (lp64.size ≤ 51 →
      ((lp64.get (marshaled_ab.take lp64.size)).user ≠ 0 → 51 = lp64.size →
        minijail_unmarshal lp64 true Heap.empty minijail_new marshaled_ab 51 =
          .ret (Heap.empty, lp64.get (marshaled_ab.take lp64.size)) (-EINVAL)) ∧
      ((lp64.get (marshaled_ab.take lp64.size)).user = 0 →
        minijail_unmarshal lp64 true Heap.empty minijail_new marshaled_ab 51 =
          .ret (Heap.empty, lp64.get (marshaled_ab.take lp64.size)) 0) ∧
      ((lp64.get (marshaled_ab.take lp64.size)).user ≠ 0 → lp64.size < 51 →
        ∃ h' p, minijail_unmarshal lp64 true Heap.empty minijail_new marshaled_ab 51 =
            .ret (h', { lp64.get (marshaled_ab.take lp64.size) with user := p }) 0 ∧
          p ≠ 0 ∧
          h'.str p = some (cstr ((marshaled_ab.drop lp64.size).take (51 - lp64.size)))))) :=
  ⟨by decide, minijail_unmarshal_spec lp64 Heap.empty minijail_new marshaled_ab 51 (by decide)⟩

/-- C4, counterexample. The configuration `jail_ab` has the username "ab" and
marshals to the 51 bytes `marshaled_ab`; on the first 49 bytes, a strict
prefix, `minijail_unmarshal` returns 0, not a negative code, and the username
it gives is the shortened "a". -/
theorem unmarshal_truncated_counterexample :
    minijail_size lp64 heap_ab jail_ab = some 51 ∧
    minijail_marshal lp64 heap_ab jail_ab (List.replicate 51 0) 51 = .ret marshaled_ab 0 ∧
    (49 < 51 ∧
    minijail_unmarshal lp64 true Heap.empty minijail_new (marshaled_ab.take 49) 49 =
      .ret ({ strs := [lit "a"], nodes := [] }, jail_ab) 0) := by
  decide

theorem cstr_take (u : List Nat) (k : Nat) : cstr ((cstr u).take k) = (cstr u).take k :=
  cstr_eq_self _ (fun b hb => cstr_nonzero u b (List.mem_of_mem_take hb))

/-- C4, amended. For a configuration `c` with a username and its marshaled
buffer of `minijail_size(c)` bytes, `minijail_unmarshal` on a strict prefix of
`n` bytes returns `-EINVAL` when `n` is at most the struct size (the header is
cut, or no byte of the username is left); when `n` is more than the struct size
(the allocation succeeding) it returns 0 and the username is the first
`n - sizeof` bytes of the username of `c`. -/
theorem unmarshal_truncated (L : Layout) (hL : L.Lawful) (h : Heap) (c : minijail)
    (hc : c.InRange) (hu : c.user ≠ 0) (u : List Nat) (hs : h.str c.user = some u)
    (buf0 buf : List Nat) (sz : Nat) (hsz : minijail_size L h c = some sz)
    (hbuf : buf0.length = sz) (hm : minijail_marshal L h c buf0 sz = .ret buf 0)
    (n : Nat) (hn : n < sz) (h2 : Heap) (j0 : minijail) :
    (n ≤ L.size → ∃ st, minijail_unmarshal L true h2 j0 (buf.take n) n = .ret st (-EINVAL)) ∧
    (L.size < n → ∃ h3 c', minijail_unmarshal L true h2 j0 (buf.take n) n = .ret (h3, c') 0 ∧
      { c' with user := c.user } = c ∧
      h3.str c'.user = some ((cstr u).take (n - L.size))) := by
  have hlen := hL.1 c
  have hget := hL.2 c hc
  rw [marshal_exact L hL h c buf0 sz hbuf hsz] at hm
  simp only [hu, if_false, hs] at hm
  injection hm with hm _
  subst hm
  rw [size_user L h c u hu hs] at hsz
  have hsz := Option.some.inj hsz
  subst hsz
  constructor
  · intro hle
    by_cases hlt : n < L.size
    · exact ⟨(h2, j0), by simp [minijail_unmarshal, hlt]⟩
    · have hn' : n = L.size := by omega
      subst hn'
      have ht : (L.put c ++ (cstr u ++ [0])).take L.size = L.put c := by
        rw [← hlen]; simp
      rw [ht]
      refine ⟨(h2, c), ?_⟩
      have h3 : (L.put c).take L.size = L.put c := by rw [← hlen]; simp
      simp [minijail_unmarshal, hlen, h3, hget, hu]
  · intro hlt
    have ht : (L.put c ++ (cstr u ++ [0])).take n
        = L.put c ++ (cstr u).take (n - L.size) := by
      rw [List.take_append_eq_append_take, hlen, List.take_of_length_le (by omega),
        List.take_append_eq_append_take]
      have : n - L.size - (cstr u).length = 0 := by
        simp only [strlen_eq] at hn; omega
      simp [this]
    rw [ht]
    have hk : ((cstr u).take (n - L.size)).length = n - L.size := by
      simp only [strlen_eq] at hn
      simp; omega
    have hne : (cstr u).take (n - L.size) ≠ [] := by
      intro he; rw [he] at hk; simp at hk; omega
    have := unmarshal_header_user L hL h2 j0 c hc hu _ hne
    rw [hk, show L.size + (n - L.size) = n by omega] at this
    refine ⟨_, _, this, rfl, ?_⟩
    rw [cstr_take]
    exact str_allocStr h2 _

/-- C4, amended, at the first 50 bytes of `marshaled_ab`. -/
theorem unmarshal_truncated_witness :
    lp64.Lawful ∧ jail_ab.InRange ∧ jail_ab.user ≠ 0 ∧
    heap_ab.str jail_ab.user = some (lit "ab") ∧
    minijail_size lp64 heap_ab jail_ab = some 51 ∧ (List.replicate 51 0).length = 51 ∧
    minijail_marshal lp64 heap_ab jail_ab (List.replicate 51 0) 51 = .ret marshaled_ab 0 ∧
    50 < 51 ∧
    ((50 ≤ lp64.size → ∃ st,
      minijail_unmarshal lp64 true Heap.empty minijail_new (marshaled_ab.take 50) 50 =
        .ret st (-EINVAL)) ∧
    (lp64.size < 50 → ∃ h3 c',
      minijail_unmarshal lp64 true Heap.empty minijail_new (marshaled_ab.take 50) 50 =
        .ret (h3, c') 0 ∧
      { c' with user := jail_ab.user } = jail_ab ∧
      h3.str c'.user = some ((cstr (lit "ab")).take (50 - lp64.size)))) :=
  ⟨lp64_lawful, by decide, by decide, by decide, by decide, by decide, by decide, by decide,
    unmarshal_truncated lp64 lp64_lawful heap_ab jail_ab (by decide) (by decide) (lit "ab")
      (by decide) (List.replicate 51 0) marshaled_ab 51 (by decide) (by decide) (by decide)
      50 (by decide) Heap.empty minijail_new⟩

/-! ## The filter list -/

theorem node_zero (h : Heap) : h.node 0 = none := by simp [Heap.node]

theorem node_bound (h : Heap) (p : Nat) (n : seccomp_filter) (hp : h.node p = some n) :
    0 < p ∧ p ≤ h.nodes.length := by
  unfold Heap.node at hp
  by_cases h0 : p = 0
  · simp [h0] at hp
  · simp only [h0, if_false] at hp
    have := (List.getElem?_eq_some_iff.mp hp).1
    omega

theorem node_allocNode (h : Heap) (n : seccomp_filter) (p : Nat) :
    (h.allocNode n).1.node p = if p = h.nodes.length + 1 then some n else h.node p := by
  unfold Heap.allocNode Heap.node
  by_cases h0 : p = 0
  · simp [h0]
  · by_cases h1 : p = h.nodes.length + 1
    · simp [h1]
    · simp only [h0, if_false, h1]
      by_cases h2 : p - 1 < h.nodes.length
      · rw [List.getElem?_append_left h2]
      · rw [List.getElem?_eq_none (by simp; omega), List.getElem?_eq_none (by omega)]

theorem modifyNode_spec (h : Heap) (q : Nat) (f : seccomp_filter → seccomp_filter)
    (m : seccomp_filter) (hq : h.node q = some m) :
    ∃ h', h.modifyNode q f = some h' ∧ h'.nodes.length = h.nodes.length ∧
      h'.strs = h.strs ∧ ∀ p, h'.node p = if p = q then some (f m) else h.node p := by
  have hb := node_bound h q m hq
  refine ⟨h.setNode q (f m), by simp [Heap.modifyNode, hq], by simp [Heap.setNode], rfl, ?_⟩
  intro p
  unfold Heap.setNode Heap.node
  by_cases h0 : p = 0
  · have : ¬ (0 = q) := by omega
    simp [h0, this]
  · simp only [h0, if_false]
    by_cases h1 : p = q
    · subst h1
      simp only [if_true]
      rw [List.getElem?_set_self (by omega)]
    · simp only [h1, if_false]
      rw [List.getElem?_set_ne (by omega)]

theorem add_seccomp_filter_empty (MAX : Nat) (h : Heap) (j : minijail) (nr : Int)
    (text : List Nat) (hnr : 0 ≤ nr) (hf : j.filters = 0) :
    ∃ h', minijail_add_seccomp_filter MAX true true h j nr (some text) =
        .ret (h', { j with filters := h.nodes.length + 1 }) 0 ∧
      h'.nodes.length = h.nodes.length + 1 ∧ h'.strs = h.strs ∧
      ∀ p, h'.node p = if p = h.nodes.length + 1 then
          some ⟨nr, strndup text MAX, h.nodes.length + 1, h.nodes.length + 1⟩
        else h.node p := by
  have hn : ¬ nr < 0 := by omega
  have e1 := node_allocNode h ⟨nr, strndup text MAX, 0, 0⟩
  have e1s : (h.allocNode ⟨nr, strndup text MAX, 0, 0⟩).1.node (h.nodes.length + 1)
      = some ⟨nr, strndup text MAX, 0, 0⟩ := by rw [e1]; simp
  obtain ⟨h2, m2, l2, s2, n2⟩ := modifyNode_spec _ _
    (fun n => { n with next := h.nodes.length + 1, prev := h.nodes.length + 1 }) _ e1s
  refine ⟨h2, ?_, ?_, ?_, ?_⟩
  · unfold minijail_add_seccomp_filter
    simp only [hn, if_false, Bool.not_true, Bool.false_eq_true, hf, if_true]
    simp only [Heap.allocNode] at m2 ⊢
    rw [m2]
  · rw [l2]; simp [Heap.allocNode]
  · rw [s2]; simp [Heap.allocNode]
  · intro p
    rw [n2, e1]
    by_cases hp : p = h.nodes.length + 1 <;> simp [hp]

theorem add_seccomp_filter_nonempty (MAX : Nat) (h : Heap) (j : minijail) (nr : Int)
    (text : List Nat) (hnr : 0 ≤ nr) (f0 l0 : seccomp_filter)
    (hf : h.node j.filters = some f0) (hl : h.node f0.prev = some l0) :
    ∃ h', minijail_add_seccomp_filter MAX true true h j nr (some text) = .ret (h', j) 0 ∧
      h'.nodes.length = h.nodes.length + 1 ∧ h'.strs = h.strs ∧
      ∀ p, h'.node p = if p = h.nodes.length + 1 then
          some ⟨nr, strndup text MAX, j.filters, f0.prev⟩
        else (h.node p).map (fun n => { n with
          next := if p = f0.prev then h.nodes.length + 1 else n.next,
          prev := if p = j.filters then h.nodes.length + 1 else n.prev }) := by
  have hn : ¬ nr < 0 := by omega
  have bf := node_bound h _ _ hf
  have bl := node_bound h _ _ hl
  have hf0 : j.filters ≠ 0 := by omega
  have e1 := node_allocNode h ⟨nr, strndup text MAX, 0, 0⟩
  have e1s : (h.allocNode ⟨nr, strndup text MAX, 0, 0⟩).1.node (h.nodes.length + 1)
      = some ⟨nr, strndup text MAX, 0, 0⟩ := by rw [e1]; simp
  have e1f : (h.allocNode ⟨nr, strndup text MAX, 0, 0⟩).1.node j.filters = some f0 := by
    rw [e1, if_neg (by omega), hf]
  obtain ⟨h2, m2, l2, s2, n2⟩ := modifyNode_spec _ _
    (fun n => { n with next := j.filters, prev := f0.prev }) _ e1s
  have e2l : h2.node f0.prev = some l0 := by
    rw [n2, if_neg (by omega), e1, if_neg (by omega), hl]
  obtain ⟨h3, m3, l3, s3, n3⟩ := modifyNode_spec _ _
    (fun n => { n with next := h.nodes.length + 1 }) _ e2l
  have e3f : h3.node j.filters =
      some (if j.filters = f0.prev then { l0 with next := h.nodes.length + 1 } else f0) := by
    rw [n3]
    by_cases hfl : j.filters = f0.prev
    · simp [hfl]
    · rw [if_neg hfl, if_neg hfl, n2, if_neg (by omega), e1, if_neg (by omega), hf]
  obtain ⟨h4, m4, l4, s4, n4⟩ := modifyNode_spec _ _
    (fun n => { n with prev := h.nodes.length + 1 }) _ e3f
  refine ⟨h4, ?_, ?_, ?_, ?_⟩
  · unfold minijail_add_seccomp_filter
    simp only [hn, if_false, Bool.not_true, Bool.false_eq_true, hf0]
    simp only [Heap.allocNode] at m2 e1f m3 m4 ⊢
    rw [e1f]
    simp only []
    rw [m2]
    simp only []
    rw [m3]
    simp only []
    rw [m4]
  · rw [l4, l3, l2]; simp [Heap.allocNode]
  · rw [s4, s3, s2]; simp [Heap.allocNode]
  · intro p
    rw [n4]
    by_cases hp : p = h.nodes.length + 1
    · subst hp
      rw [if_neg (by omega), n3, if_neg (by omega), n2]
      simp
    · rw [if_neg hp]
      by_cases hpf : p = j.filters
      · subst hpf
        simp only [if_true, hf, Option.map_some']
        by_cases hfl : j.filters = f0.prev
        · have : l0 = f0 := by
            rw [← hfl, hf] at hl
            exact (Option.some.inj hl).symm
          simp [hfl, this]
        · simp [hfl]
      · rw [if_neg hpf, n3]
        by_cases hpl : p = f0.prev
        · subst hpl
          simp [hl, hpf]
        · rw [if_neg hpl, n2, if_neg hp, e1, if_neg hp]
          cases h.node p <;> simp [hpl, hpf]

theorem ring_first (h : Heap) (first : Nat) (ps : List Nat) (hr : Ring h first ps) :
    (ps = [] ↔ first = 0) ∧ (first ≠ 0 → ps[0]? = some first) := by
  obtain ⟨hh, _, _⟩ := hr
  cases ps with
  | nil =>
    by_cases h0 : first = 0
    · simp [h0]
    · simp [h0] at hh
  | cons p ps =>
    by_cases h0 : first = 0
    · simp [h0] at hh
    · simp only [List.head?_cons, h0, if_false, Option.some.injEq] at hh
      simp [h0, hh]

theorem ring_at (h : Heap) (first : Nat) (ps : List Nat) (hr : Ring h first ps)
    (i : Nat) (hi : i < ps.length) :
    ∃ nd, h.node ps[i] = some nd ∧ nd.next = (ps[i + 1]?).getD first ∧
      nd.prev = (if i = 0 then ps[ps.length - 1]? else ps[i - 1]?).getD 0 := by
  have := hr.2.2 i hi
  rw [List.getD_eq_getElem _ _ hi] at this
  cases hn : h.node ps[i] with
  | none => simp [hn] at this
  | some nd =>
    simp only [hn, Option.map_some', Option.some.injEq, Prod.mk.injEq] at this
    exact ⟨nd, rfl, this.1, this.2⟩

theorem ring_length_le (h : Heap) (first : Nat) (ps : List Nat) (hr : Ring h first ps) :
    ps.length ≤ h.nodes.length := by
  have hsub : ps ⊆ List.range' 1 h.nodes.length := by
    intro p hp
    obtain ⟨i, hi, rfl⟩ := List.getElem_of_mem hp
    obtain ⟨nd, hnd, _⟩ := ring_at h first ps hr i hi
    have := node_bound h _ _ hnd
    rw [List.mem_range']
    exact ⟨ps[i] - 1, by omega, by omega⟩
  have := (List.Nodup.subperm hr.2.1 hsub).length_le
  simpa using this

/-- On a well-formed collection the walk from entry `i` visits the entries from
`i` on, in order, and stops. -/
theorem walk_ring (h : Heap) (first : Nat) (ps : List Nat) (hr : Ring h first ps) :
    ∀ k i (hi : i < ps.length), i + k + 1 = ps.length → ∀ fuel, k < fuel →
      walk h first fuel ps[i] = some (ps.drop i) := by
  have hne : ps ≠ [] → first ≠ 0 := fun hne h0 => hne ((ring_first h first ps hr).1.mpr h0)
  intro k
  induction k with
  | zero =>
    intro i hi hk fuel hf
    obtain ⟨nd, hnd, hnext, _⟩ := ring_at h first ps hr i hi
    obtain ⟨fuel, rfl⟩ : ∃ f, fuel = f + 1 := ⟨fuel - 1, by omega⟩
    have h1 : ps[i + 1]? = none := List.getElem?_eq_none (by omega)
    rw [h1] at hnext
    simp only [Option.getD_none] at hnext
    have hd : ps.drop i = [ps[i]] := by
      rw [List.drop_eq_getElem_cons hi, List.drop_of_length_le (by omega)]
    simp [walk, hnd, hnext, hd]
  | succ k ih =>
    intro i hi hk fuel hf
    obtain ⟨nd, hnd, hnext, _⟩ := ring_at h first ps hr i hi
    obtain ⟨fuel, rfl⟩ : ∃ f, fuel = f + 1 := ⟨fuel - 1, by omega⟩
    have hi1 : i + 1 < ps.length := by omega
    have h1 : ps[i + 1]? = some ps[i + 1] := List.getElem?_eq_getElem hi1
    rw [h1] at hnext
    simp only [Option.getD_some] at hnext
    have hpos : 0 < ps.length := by omega
    have hfirst : ps[0] = first := by
      have h0 := (ring_first h first ps hr).2 (hne (List.ne_nil_of_length_pos hpos))
      rw [List.getElem?_eq_getElem hpos] at h0
      exact Option.some.inj h0
    have hneq : nd.next ≠ first := by
      rw [hnext, ← hfirst]
      intro he
      have := (List.Nodup.getElem_inj_iff hr.2.1).mp he
      omega
    have hrec := ih (i + 1) hi1 (by omega) fuel (by omega)
    rw [List.drop_eq_getElem_cons hi]
    simp only [walk, hnd, if_neg hneq]
    rw [hnext, hrec]
    rfl

theorem filter_ptrs_ring (h : Heap) (j : minijail) (ps : List Nat)
    (hr : Ring h j.filters ps) : filter_ptrs h j = some ps := by
  unfold filter_ptrs
  by_cases h0 : j.filters = 0
  · have := (ring_first h _ ps hr).1.mpr h0
    simp [h0, this]
  · have hps : ps ≠ [] := fun he => h0 ((ring_first h _ ps hr).1.mp he)
    have hpos : 0 < ps.length := List.length_pos.mpr hps
    have h0' := (ring_first h _ ps hr).2 h0
    rw [List.getElem?_eq_getElem hpos] at h0'
    have hw := walk_ring h _ ps hr (ps.length - 1) 0 hpos (by omega) h.nodes.length
      (by have := ring_length_le h _ ps hr; omega)
    rw [Option.some.inj h0'] at hw
    simpa [h0] using hw

theorem ring_ptr_le (h : Heap) (first : Nat) (ps : List Nat) (hr : Ring h first ps) :
    ∀ p ∈ ps, p ≤ h.nodes.length := by
  intro p hp
  obtain ⟨i, hi, rfl⟩ := List.getElem_of_mem hp
  obtain ⟨nd, hnd, _⟩ := ring_at h first ps hr i hi
  exact (node_bound h _ _ hnd).2

/-- A successful `minijail_add_seccomp_filter` on a well-formed collection
appends the new block to it and leaves it well-formed. -/
theorem add_seccomp_filter_ring (MAX : Nat) (h : Heap) (j : minijail) (nr : Int)
    (text : List Nat) (ps : List Nat) (hr : Ring h j.filters ps) (hnr : 0 ≤ nr) :
    ∃ h' j', minijail_add_seccomp_filter MAX true true h j nr (some text) = .ret (h', j') 0 ∧
      j' = { j with filters := if j.filters = 0 then h.nodes.length + 1 else j.filters } ∧
      Ring h' j'.filters (ps ++ [h.nodes.length + 1]) ∧
      h'.nodes.length = h.nodes.length + 1 ∧ h'.strs = h.strs ∧
      (h'.node (h.nodes.length + 1)).map (fun n => (n.nr, n.filter)) =
        some (nr, strndup text MAX) ∧
      ∀ p, p ≠ h.nodes.length + 1 →
        (h'.node p).map (fun n => (n.nr, n.filter)) =
          (h.node p).map (fun n => (n.nr, n.filter)) := by
  by_cases h0 : j.filters = 0
  · have hps : ps = [] := (ring_first h _ ps hr).1.mpr h0
    subst hps
    obtain ⟨h', hadd, hl, hs, hn⟩ := add_seccomp_filter_empty MAX h j nr text hnr h0
    refine ⟨h', _, hadd, by simp [h0], ?_, hl, hs, ?_, ?_⟩
    · refine ⟨by simp, by simp, ?_⟩
      intro i hi
      have hi0 : i = 0 := by simpa using hi
      subst hi0
      simp [hn]
    · simp [hn]
    · intro p hp
      rw [hn, if_neg hp]
  · have hps : ps ≠ [] := fun he => h0 ((ring_first h _ ps hr).1.mp he)
    have hpos : 0 < ps.length := List.length_pos.mpr hps
    have hfirst : ps[0] = j.filters := by
      have := (ring_first h _ ps hr).2 h0
      rw [List.getElem?_eq_getElem hpos] at this
      exact Option.some.inj this
    have hle := ring_ptr_le h _ ps hr
    obtain ⟨f0, hf0, _, hf0prev⟩ := ring_at h _ ps hr 0 hpos
    have hlast : ps.length - 1 < ps.length := by omega
    rw [if_pos rfl, List.getElem?_eq_getElem hlast, Option.getD_some] at hf0prev
    obtain ⟨l0, hl0, _, _⟩ := ring_at h _ ps hr (ps.length - 1) hlast
    rw [hfirst] at hf0
    rw [← hf0prev] at hl0
    obtain ⟨h', hadd, hl, hs, hn⟩ :=
      add_seccomp_filter_nonempty MAX h j nr text hnr f0 l0 hf0 hl0
    refine ⟨h', j, hadd, by simp [h0], ?_, hl, hs, ?_, ?_⟩
    · refine ⟨?_, ?_, ?_⟩
      · have := hr.1
        cases ps with
        | nil => exact absurd rfl hps
        | cons p ps => simpa using this
      · rw [List.nodup_append]
        refine ⟨hr.2.1, by simp, ?_⟩
        intro a ha hb
        have := hle a ha
        simp at hb
        omega
      · intro i hi
        simp only [List.length_append, List.length_singleton] at hi ⊢
        by_cases hin : i = ps.length
        · subst hin
          have e1 : (ps ++ [h.nodes.length + 1]).getD ps.length 0 = h.nodes.length + 1 := by
            simp
          have e2 : (ps ++ [h.nodes.length + 1])[ps.length + 1]? = none :=
            List.getElem?_eq_none (by simp)
          have e4 : (ps ++ [h.nodes.length + 1])[ps.length - 1]?
              = some ps[ps.length - 1] := by
            rw [List.getElem?_append_left (by omega), List.getElem?_eq_getElem hlast]
          have hne0 : ps.length ≠ 0 := by omega
          rw [e1, hn, if_pos rfl, e2]
          simp only [Option.map_some', Option.getD_none, hne0, if_false, e4, Option.getD_some,
            hf0prev]
        · have hi' : i < ps.length := by omega
          obtain ⟨nd, hnd, hnext, hprev⟩ := ring_at h _ ps hr i hi'
          have e1 : (ps ++ [h.nodes.length + 1]).getD i 0 = ps[i] := by
            rw [List.getD_eq_getElem _ _ (by simp; omega), List.getElem_append_left hi']
          have hne : ps[i] ≠ h.nodes.length + 1 := by
            have := hle ps[i] (List.getElem_mem _)
            omega
          rw [e1, hn, if_neg hne, hnd]
          have hA : (ps[i] = f0.prev) ↔ i = ps.length - 1 := by
            rw [hf0prev]
            exact List.Nodup.getElem_inj_iff hr.2.1
          have hB : (ps[i] = j.filters) ↔ i = 0 := by
            rw [← hfirst]
            exact List.Nodup.getElem_inj_iff hr.2.1
          simp only [Option.map_some', Option.some.injEq, Prod.mk.injEq]
          constructor
          · by_cases hi1 : i + 1 < ps.length
            · have : ¬ ps[i] = f0.prev := by rw [hA]; omega
              rw [if_neg this, hnext, List.getElem?_append_left hi1]
            · have : ps[i] = f0.prev := by rw [hA]; omega
              rw [if_pos this]
              have e : i + 1 = ps.length := by omega
              rw [e]
              simp
          · by_cases hi0 : i = 0
            · have : ps[i] = j.filters := hB.mpr hi0
              rw [if_pos this, if_pos hi0]
              simp
            · have : ¬ ps[i] = j.filters := by rw [hB]; exact hi0
              rw [if_neg this, hprev, if_neg hi0, if_neg hi0,
                List.getElem?_append_left (by omega)]
    · simp [hn]
    · intro p hp
      rw [hn, if_neg hp]
      cases h.node p <;> simp

theorem strndup_eq (text : List Nat) (n : Nat) : strndup text n = (cstr text).take n := by
  unfold strndup cstr
  induction text generalizing n with
  | nil => simp
  | cons a l ih =>
    cases n with
    | zero => simp
    | succ n =>
      by_cases ha : a = 0
      · simp [ha]
      · have hb : (a != 0) = true := by simpa using ha
        simp only [List.take_succ_cons, List.takeWhile_cons, hb, if_true, ih]

theorem filter_entries_ring (h : Heap) (j : minijail) (ps : List Nat)
    (hr : Ring h j.filters ps) : filter_entries h j = some (entries_at h ps) := by
  simp [filter_entries, filter_ptrs_ring h j ps hr, entries_at]

theorem entries_at_congr (h h' : Heap) (ps : List Nat)
    (hp : ∀ p ∈ ps, (h'.node p).map (fun n => (n.nr, n.filter)) =
      (h.node p).map (fun n => (n.nr, n.filter))) :
    entries_at h' ps = entries_at h ps := by
  induction ps with
  | nil => rfl
  | cons p ps ih =>
    have h1 := hp p (by simp)
    have h2 := ih (fun q hq => hp q (by simp [hq]))
    simp only [entries_at] at h2 ⊢
    simp only [List.filterMap_cons, h1, h2]

/-- C7. On a configuration whose collection is well-formed,
`minijail_add_seccomp_filter` returns, and returns `-EINVAL` exactly when `nr`
is negative or `filter` is null; in that case the heap and the configuration
are unchanged. Otherwise, both allocations succeeding, it returns 0 and the
collection has its former entries followed by one new entry, which holds `nr`
and the first `MINIJAIL_MAX_SECCOMP_FILTER_LINE` bytes of the filter text. -/
theorem add_seccomp_filter_spec (MAX : Nat) (mallocOk strndupOk : Bool) (h : Heap)
    (j : minijail) (nr : Int) (filter : Option (List Nat)) (ps : List Nat)
    (hr : Ring h j.filters ps) :
    (∃ st r, minijail_add_seccomp_filter MAX mallocOk strndupOk h j nr filter = .ret st r ∧
      (r = -EINVAL ↔ (nr < 0 ∨ filter = none))) ∧
    ((nr < 0 ∨ filter = none) →
      minijail_add_seccomp_filter MAX mallocOk strndupOk h j nr filter =
        .ret (h, j) (-EINVAL)) ∧
    (∀ text, filter = some text → 0 ≤ nr → mallocOk = true → strndupOk = true →
      ∃ h' j', minijail_add_seccomp_filter MAX mallocOk strndupOk h j nr filter =
          .ret (h', j') 0 ∧
        filter_entries h j = some (entries_at h ps) ∧
        filter_entries h' j' = some (entries_at h ps ++ [(nr, (cstr text).take MAX)]) ∧
        ((cstr text).take MAX).length ≤ MAX ∧
        Ring h' j'.filters (ps ++ [h.nodes.length + 1])) := by
  have hbad : (nr < 0 ∨ filter = none) →
      minijail_add_seccomp_filter MAX mallocOk strndupOk h j nr filter =
        .ret (h, j) (-EINVAL) := by
    intro hb
    cases filter with
    | none => simp [minijail_add_seccomp_filter]
    | some text =>
      have : nr < 0 := by simpa using hb
      simp [minijail_add_seccomp_filter, this]
  have hgood : ∀ text, filter = some text → 0 ≤ nr → mallocOk = true → strndupOk = true →
      ∃ h' j', minijail_add_seccomp_filter MAX mallocOk strndupOk h j nr filter =
          .ret (h', j') 0 ∧
        filter_entries h j = some (entries_at h ps) ∧
        filter_entries h' j' = some (entries_at h ps ++ [(nr, (cstr text).take MAX)]) ∧
        ((cstr text).take MAX).length ≤ MAX ∧
        Ring h' j'.filters (ps ++ [h.nodes.length + 1]) := by
    intro text hf hnr hm hs
    subst hf hm hs
    obtain ⟨h', j', hadd, _, hr', _, _, hnew, hold⟩ :=
      add_seccomp_filter_ring MAX h j nr text ps hr hnr
    refine ⟨h', j', hadd, filter_entries_ring h j ps hr, ?_, by simp, hr'⟩
    rw [filter_entries_ring h' j' _ hr']
    have hle := ring_ptr_le h _ ps hr
    have e1 : entries_at h' ps = entries_at h ps :=
      entries_at_congr h h' ps (fun p hp => hold p (by have := hle p hp; omega))
    have e2 : entries_at h' (ps ++ [h.nodes.length + 1])
        = entries_at h' ps ++ entries_at h' [h.nodes.length + 1] := by
      simp [entries_at]
    have e3 : entries_at h' [h.nodes.length + 1] = [(nr, (cstr text).take MAX)] := by
      simp only [entries_at, List.filterMap_cons, hnew, List.filterMap_nil, strndup_eq]
    rw [e2, e1, e3]
  refine ⟨?_, hbad, hgood⟩
  by_cases hb : nr < 0 ∨ filter = none
  · exact ⟨_, _, hbad hb, by simp [hb]⟩
  · have hnr : 0 ≤ nr := by
      by_contra hc; exact hb (Or.inl (by omega))
    obtain ⟨text, hf⟩ : ∃ text, filter = some text := by
      cases filter with
      | none => exact absurd (Or.inr rfl) hb
      | some t => exact ⟨t, rfl⟩
    by_cases hm : mallocOk = true
    · by_cases hs : strndupOk = true
      · obtain ⟨h', j', hadd, _⟩ := hgood text hf hnr hm hs
        refine ⟨_, _, hadd, ?_⟩
        simp [hb, EINVAL]
      · have hn : ¬ nr < 0 := by omega
        subst hf
        refine ⟨(h, j), -ENOMEM, by simp [minijail_add_seccomp_filter, hn, hm, hs], ?_⟩
        exact ⟨fun he => by simp [ENOMEM, EINVAL] at he, fun he => absurd he hb⟩
    · have hn : ¬ nr < 0 := by omega
      subst hf
      refine ⟨(h, j), -ENOMEM, by simp [minijail_add_seccomp_filter, hn, hm], ?_⟩
      exact ⟨fun he => by simp [ENOMEM, EINVAL] at he, fun he => absurd he hb⟩

/-- C7 at `jail_one`, whose collection has one entry, with a bound of 4 bytes. -/
theorem add_seccomp_filter_spec_witness :
    Ring heap_one jail_one.filters [1] ∧
    ((∃ st r, minijail_add_seccomp_filter 4 true true heap_one jail_one 3
        (some (lit "a == 1")) = .ret st r ∧
      (r = -EINVAL ↔ ((3 : Int) < 0 ∨ some (lit "a == 1") = none))) ∧
    (((3 : Int) < 0 ∨ some (lit "a == 1") = none) →
      minijail_add_seccomp_filter 4 true true heap_one jail_one 3 (some (lit "a == 1")) =
        .ret (heap_one, jail_one) (-EINVAL)) ∧
    (∀ text, some (lit "a == 1") = some text → (0 : Int) ≤ 3 → true = true → true = true →
      ∃ h' j', minijail_add_seccomp_filter 4 true true heap_one jail_one 3
          (some (lit "a == 1")) = .ret (h', j') 0 ∧
        filter_entries heap_one jail_one = some (entries_at heap_one [1]) ∧
        filter_entries h' j' =
          some (entries_at heap_one [1] ++ [(3, (cstr text).take 4)]) ∧
        ((cstr text).take 4).length ≤ 4 ∧
        Ring h' j'.filters ([1] ++ [heap_one.nodes.length + 1]))) :=
  ⟨by decide, add_seccomp_filter_spec 4 true true heap_one jail_one 3 (some (lit "a == 1")) [1]
    (by decide)⟩

/-- A run of successful calls appends one block per call, in order, and never
changes a non-null `filters`. -/
theorem add_all_ring (MAX : Nat) (items : List (Int × List Nat)) :
    ∀ (h : Heap) (j : minijail) (ps : List Nat), Ring h j.filters ps →
      (∀ it ∈ items, 0 ≤ it.1) →
      ∃ h' j' qs, add_all MAX (h, j) items = .ret (h', j') 0 ∧
        Ring h' j'.filters (ps ++ qs) ∧ qs.length = items.length ∧
        (j.filters ≠ 0 → j'.filters = j.filters) ∧
        h.nodes.length ≤ h'.nodes.length ∧
        (∀ p, p ≤ h.nodes.length → (h'.node p).map (fun n => (n.nr, n.filter)) =
          (h.node p).map (fun n => (n.nr, n.filter))) ∧
        entries_at h' (ps ++ qs) =
          entries_at h ps ++ items.map (fun it => (it.1, (cstr it.2).take MAX)) := by
  induction items with
  | nil =>
    intro h j ps hr _
    exact ⟨h, j, [], rfl, by simpa using hr, rfl, fun _ => rfl, le_refl _, fun _ _ => rfl,
      by simp⟩
  | cons it rest ih =>
    intro h j ps hr hnr
    obtain ⟨nr, text⟩ := it
    have hnr0 : 0 ≤ nr := hnr (nr, text) (by simp)
    obtain ⟨h1, j1, hadd, hj1, hr1, hl1, _, hnew, hold⟩ :=
      add_seccomp_filter_ring MAX h j nr text ps hr hnr0
    obtain ⟨h', j', qs, hall, hr', hlen, hfix, hle, hkeep, hent⟩ :=
      ih h1 j1 (ps ++ [h.nodes.length + 1]) hr1 (fun it hit => hnr it (by simp [hit]))
    have hps := ring_ptr_le h _ ps hr
    refine ⟨h', j', (h.nodes.length + 1) :: qs, ?_, by simpa using hr', by simp [hlen], ?_,
      by omega, ?_, ?_⟩
    · simp only [add_all, hadd, if_true]
      exact hall
    · intro hne
      have e : j1.filters = j.filters := by rw [hj1]; simp [hne]
      rw [hfix (by rw [e]; exact hne), e]
    · intro p hp
      rw [hkeep p (by omega), hold p (by omega)]
    · have e1 : entries_at h1 (ps ++ [h.nodes.length + 1])
          = entries_at h ps ++ [(nr, (cstr text).take MAX)] := by
        have a1 : entries_at h1 ps = entries_at h ps :=
          entries_at_congr h h1 ps (fun p hp => hold p (by have := hps p hp; omega))
        have a2 : entries_at h1 [h.nodes.length + 1] = [(nr, (cstr text).take MAX)] := by
          simp only [entries_at, List.filterMap_cons, hnew, List.filterMap_nil, strndup_eq]
        have a3 : entries_at h1 (ps ++ [h.nodes.length + 1])
            = entries_at h1 ps ++ entries_at h1 [h.nodes.length + 1] := by
          simp [entries_at]
        rw [a3, a1, a2]
      have e2 : ps ++ (h.nodes.length + 1) :: qs = ps ++ [h.nodes.length + 1] ++ qs := by
        simp
      rw [e2, hent, e1]
      simp

/-- C8. Starting from a new configuration (any heap), a run of `n ≥ 1` calls
of `minijail_add_seccomp_filter` with non-negative syscall numbers and
successful allocations returns 0 every time; `filters` is then the block of the
first call, as it was right after that call, and the walk along `next` from it
visits `n` distinct blocks, which hold the syscall numbers and (bounded) texts
of the calls in the order of the calls, and is then back at the first. -/
theorem filters_keep_insertion_order (MAX : Nat) (h0 : Heap) (first : Int × List Nat)
    (rest : List (Int × List Nat)) (hnr : ∀ it ∈ first :: rest, 0 ≤ it.1) :
    ∃ h1 j1 h j ps,
      add_all MAX (h0, minijail_new) [first] = .ret (h1, j1) 0 ∧
      add_all MAX (h0, minijail_new) (first :: rest) = .ret (h, j) 0 ∧
      j1.filters ≠ 0 ∧ j.filters = j1.filters ∧
      (h.node j.filters).map (fun n => (n.nr, n.filter)) =
        some (first.1, (cstr first.2).take MAX) ∧
      filter_ptrs h j = some ps ∧ ps.head? = some j.filters ∧ ps.Nodup ∧
      ps.length = (first :: rest).length ∧
      filter_entries h j =
        some ((first :: rest).map (fun it => (it.1, (cstr it.2).take MAX))) ∧
      Ring h j.filters ps := by
  obtain ⟨nr, text⟩ := first
  have hnr0 : 0 ≤ nr := hnr (nr, text) (by simp)
  have hr0 : Ring h0 minijail_new.filters [] := by
    refine ⟨by simp [minijail_new], by simp, ?_⟩
    intro i hi
    simp at hi
  obtain ⟨h1, j1, hadd, hj1, hr1, hl1, _, hnew, _⟩ :=
    add_seccomp_filter_ring MAX h0 minijail_new nr text [] hr0 hnr0
  have hf1 : j1.filters = h0.nodes.length + 1 := by rw [hj1]; simp [minijail_new]
  obtain ⟨h, j, qs, hall, hr, hlen, hfix, _, hkeep, hent⟩ :=
    add_all_ring MAX rest h1 j1 ([] ++ [h0.nodes.length + 1]) hr1
      (fun it hit => hnr it (by simp [hit]))
  have hne : j1.filters ≠ 0 := by omega
  have hjf := hfix hne
  refine ⟨h1, j1, h, j, _, ?_, ?_, hne, hjf, ?_, filter_ptrs_ring h j _ hr, ?_, hr.2.1, ?_,
    ?_, hr⟩
  · simp only [add_all, hadd, if_true]
  · simp only [add_all, hadd, if_true]
    exact hall
  · rw [hjf, hf1, hkeep _ (by omega), hnew, strndup_eq]
  · simp [hjf, hf1]
  · simp [hlen]
  · rw [filter_entries_ring h j _ hr, hent]
    have : entries_at h1 ([] ++ [h0.nodes.length + 1]) = [(nr, (cstr text).take MAX)] := by
      simp only [List.nil_append, entries_at, List.filterMap_cons, hnew, List.filterMap_nil,
        strndup_eq]
    rw [this]
    simp

/-- C8 at a run of three calls on the empty heap. -/
theorem filters_keep_insertion_order_witness :
    (∀ it ∈ ((2, lit "1") : Int × List Nat) :: [(3, lit "1"), (0, lit "fd == 0")],
      0 ≤ it.1) ∧
    ∃ h1 j1 h j ps,
      add_all 512 (Heap.empty, minijail_new) [(2, lit "1")] = .ret (h1, j1) 0 ∧
      add_all 512 (Heap.empty, minijail_new)
        ((2, lit "1") :: [(3, lit "1"), (0, lit "fd == 0")]) = .ret (h, j) 0 ∧
      j1.filters ≠ 0 ∧ j.filters = j1.filters ∧
      (h.node j.filters).map (fun n => (n.nr, n.filter)) =
        some (((2, lit "1") : Int × List Nat).1,
          (cstr ((2, lit "1") : Int × List Nat).2).take 512) ∧
      filter_ptrs h j = some ps ∧ ps.head? = some j.filters ∧ ps.Nodup ∧
      ps.length = (((2, lit "1") : Int × List Nat) ::
        [(3, lit "1"), (0, lit "fd == 0")]).length ∧
      filter_entries h j =
        some ((((2, lit "1") : Int × List Nat) :: [(3, lit "1"), (0, lit "fd == 0")]).map
          (fun it => (it.1, (cstr it.2).take 512))) ∧
      Ring h j.filters ps :=
  ⟨by decide, filters_keep_insertion_order 512 Heap.empty (2, lit "1")
    [(3, lit "1"), (0, lit "fd == 0")] (by decide)⟩

/-! ## Setters -/

/-- C5. For every configuration, `minijail_change_uid` with uid 0 and
`minijail_change_gid` with gid 0 fail: they reach `die` (the process aborts)
before any store, so the configuration at that point is exactly the one the
call was given. -/
theorem change_uid_gid_zero_fails (j : minijail) :
    minijail_change_uid j 0 = .die "useless change to uid 0" j ∧
    minijail_change_gid j 0 = .die "useless change to gid 0" j :=
  ⟨rfl, rfl⟩

/-- C6, counterexample. Requesting uid 0 on a new configuration does not
return a negative code: `minijail_change_uid` returns nothing and terminates
the process through `die`. And for a user name the lookup does not know, with
`ENOENT` in `errno`, `minijail_change_user` returns 2, which is not negative. -/
theorem config_failure_counterexample :
    minijail_change_uid minijail_new 0 = .die "useless change to uid 0" minijail_new ∧
    minijail_change_gid minijail_new 0 = .die "useless change to gid 0" minijail_new ∧
    minijail_change_user getpwnam_none true Heap.empty minijail_new (lit "nobody") =
      .ret (Heap.empty, minijail_new) 2 ∧
    ¬ ((2 : Int) < 0) := by
  decide

/-- C6, amended. A bad filter (negative syscall number or null text) makes
`minijail_add_seccomp_filter` return `-EINVAL`, a negative code, with the heap
and the configuration unchanged. Requesting uid 0 or gid 0 is not returned as a
code: `minijail_change_uid` and `minijail_change_gid` reach `die` with the
configuration unmodified. A user or group name the system lookup does not know
makes `minijail_change_user` and `minijail_change_group` return to the caller
with the heap and the configuration unchanged. -/
theorem config_time_failures (MAX : Nat) (mallocOk strndupOk strdupOk : Bool) (h : Heap)
    (j : minijail) (nr : Int) (filter : Option (List Nat))
    (getpwnam : List Nat → Except Int passwd) (getgrnam : List Nat → Except Int group)
    (name : List Nat) (hbad : nr < 0 ∨ filter = none)
    (hpw : (getpwnam (cstr name)).toBool = false)
    (hgr : (getgrnam (cstr name)).toBool = false) :
    (minijail_add_seccomp_filter MAX mallocOk strndupOk h j nr filter = .ret (h, j) (-EINVAL) ∧
      -EINVAL < 0) ∧
    minijail_change_uid j 0 = .die "useless change to uid 0" j ∧
    minijail_change_gid j 0 = .die "useless change to gid 0" j ∧
    (∃ r, minijail_change_user getpwnam strdupOk h j name = .ret (h, j) r) ∧
    (∃ r, minijail_change_group getgrnam j name = .ret j r) := by
  refine ⟨⟨?_, by decide⟩, rfl, rfl, ?_, ?_⟩
  · cases filter with
    | none => simp [minijail_add_seccomp_filter]
    | some text =>
      have : nr < 0 := by simpa using hbad
      simp [minijail_add_seccomp_filter, this]
  · cases hp : getpwnam (cstr name) with
    | error e => exact ⟨e, by simp [minijail_change_user, hp]⟩
    | ok pw => simp [hp, Except.toBool] at hpw
  · cases hg : getgrnam (cstr name) with
    | error e => exact ⟨e, by simp [minijail_change_group, hg]⟩
    | ok gr => simp [hg, Except.toBool] at hgr

/-- C6, amended, at `jail_one` with lookups that know no name. -/
theorem config_time_failures_witness :
    (((-1 : Int) < 0 ∨ some (lit "1") = none) ∧
      (getpwnam_none (cstr (lit "nobody"))).toBool = false ∧
      (getgrnam_none (cstr (lit "nobody"))).toBool = false) ∧
    ((minijail_add_seccomp_filter 512 true true heap_one jail_one (-1) (some (lit "1")) =
        .ret (heap_one, jail_one) (-EINVAL) ∧ -EINVAL < 0) ∧
    minijail_change_uid jail_one 0 = .die "useless change to uid 0" jail_one ∧
    minijail_change_gid jail_one 0 = .die "useless change to gid 0" jail_one ∧
    (∃ r, minijail_change_user getpwnam_none true heap_one jail_one (lit "nobody") =
      .ret (heap_one, jail_one) r) ∧
    (∃ r, minijail_change_group getgrnam_none jail_one (lit "nobody") = .ret jail_one r)) :=
  ⟨by decide, config_time_failures 512 true true true heap_one jail_one (-1) (some (lit "1"))
    getpwnam_none getgrnam_none (lit "nobody") (by decide) (by decide) (by decide)⟩

/-! ## The filter file -/

/-- C9, the code on a comment line. A file that is the one line "#comment"
makes `minijail_parse_seccomp_filters` reach `die`: the line has no colon, so
the test for a line without a filter comes before the test for a comment. The
file of the scenario of the spec reaches the same `die` on its third line,
after the entries for `open` and `close` have been attached. -/
theorem parse_comment_line_dies :
    minijail_parse_seccomp_filters 512 sample_table alloc_ok Heap.empty minijail_new
        (some (lit "#comment\n")) =
      .die "invalid filter on line %d" (Heap.empty, minijail_new) ∧
    minijail_parse_seccomp_filters 512 sample_table alloc_ok Heap.empty minijail_new
        (some (lit "open: 1\nclose:1\n#comment\n\n")) =
      .die "invalid filter on line %d"
        ({ strs := [], nodes := [⟨2, lit "1", 2, 2⟩, ⟨3, lit "1", 1, 1⟩] },
          { minijail_new with filters := 1 }) ∧
    minijail_parse_seccomp_filters 512 sample_table alloc_ok Heap.empty minijail_new
        (some (lit "#comment: x\n")) = .ret (Heap.empty, minijail_new) () := by
  decide

/-- C10, the code on a rule line whose expression is blank. The line "1: "
with its newline is accepted, and the filter text stored for it is the newline:
the backward scan of `strip` runs past the start of the field, so the
terminator is stored before the pointer that is returned. -/
theorem parse_blank_expression_keeps_newline :
    minijail_parse_seccomp_filters 512 sample_table alloc_ok Heap.empty minijail_new
        (some (lit "1: \n")) =
      .ret ({ strs := [], nodes := [⟨1, lit "\n", 1, 1⟩] },
        { minijail_new with filters := 1 }) () ∧
    strip (lit "1" ++ [0] ++ lit " \n" ++ [0]) 2 = some (lit "1" ++ [0, 0] ++ lit "\n" ++ [0], 3) ∧
    filter_entries { strs := [], nodes := [⟨1, lit "\n", 1, 1⟩] }
      { minijail_new with filters := 1 } = some [(1, [10])] := by
  decide

/-! ## The filter file: resolution of the syscall -/

theorem parse_line_below_nil (MAX : Nat) (table : List syscall_entry) (alloc : Bool × Bool)
    (st : Heap × minijail) (line : List Nat) :
    parse_line_below [] MAX table alloc st line = parse_line MAX table alloc st line := rfl

/-- The loop body on a line that reaches the resolution of the syscall. -/
theorem parse_line_rule (MAX : Nat) (table : List syscall_entry) (alloc : Bool × Bool)
    (st : Heap × minijail) (line name filter : List Nat)
    (hf : rule_fields line = some (name, filter)) :
    parse_line MAX table alloc st line =
      if resolve_syscall table name < 0 then .die "syscall '%s' unknown" st
      else
        match minijail_add_seccomp_filter MAX alloc.1 alloc.2 st.1 st.2
            (resolve_syscall table name) (some filter) with
        | .undef => .undef
        | .die msg st => .die msg st
        | .ret st r =>
          if r ≠ 0 then .die "failed to add filter for syscall '%s'" st
          else .ret st () := by
  unfold rule_fields at hf
  unfold parse_line
  cases h1 : strsep line 0 58 with
  | mk m filter0 =>
    simp only [h1] at hf ⊢
    cases h2 : strip m 0 with
    | none => simp [h2] at hf
    | some r2 =>
      obtain ⟨m2, nm⟩ := r2
      simp only [h2] at hf ⊢
      cases filter0 with
      | none => simp at hf
      | some f0 =>
        simp only [] at hf ⊢
        by_cases h3 : m2[nm]? = some 35
        · simp [h3] at hf
        · simp only [h3, if_false] at hf ⊢
          cases h4 : strip m2 f0 with
          | none => simp [h4] at hf
          | some r4 =>
            obtain ⟨m4, fl⟩ := r4
            simp only [h4, Option.some.injEq, Prod.mk.injEq] at hf ⊢
            obtain ⟨hn, hfl⟩ := hf
            subst hn hfl
            simp only [resolve_syscall, List.getElem?_drop]

/-- `minijail_lookup_syscall` gives the number of the first entry with the name,
and -1 when there is none. -/
theorem lookup_syscall_eq (table : List syscall_entry) (name : List Nat) :
    minijail_lookup_syscall table name =
      match table_entry table name with
      | some e => e.nr
      | none => -1 := by
  induction table with
  | nil => rfl
  | cons e rest ih =>
    obtain ⟨en, enr⟩ := e
    cases en with
    | none => simp [minijail_lookup_syscall, table_entry, live_entries]
    | some n =>
      by_cases hneg : enr < 0
      · have : ¬ (0 ≤ enr) := by omega
        simp [minijail_lookup_syscall, table_entry, live_entries, hneg, this]
      · have hnn : 0 ≤ enr := by omega
        by_cases hm : cstr n = cstr name
        · simp [minijail_lookup_syscall, table_entry, live_entries, hneg, hnn, hm]
        · simp only [minijail_lookup_syscall, hneg, if_false, hm, ih]
          simp [table_entry, live_entries, hnn, hm]

theorem table_entry_nonneg (table : List syscall_entry) (name : List Nat) (e : syscall_entry)
    (he : table_entry table name = some e) : 0 ≤ e.nr := by
  unfold table_entry live_entries at he
  have hmem := List.mem_of_find?_eq_some he
  have := List.mem_takeWhile_imp hmem
  simp at this
  exact this.2

theorem long_to_int_small (n : Int) (h0 : 0 ≤ n) (h1 : n < 2 ^ 31) : long_to_int n = n := by
  unfold long_to_int int32
  have e : n % 2 ^ 32 = n := Int.emod_eq_of_lt h0 (by omega)
  rw [e]
  have h3 : n.toNat < 2 ^ 31 := by omega
  rw [if_pos h3]
  exact Int.toNat_of_nonneg h0

/-- The loop body on a rule line whose syscall resolves to `nr ≥ 0`, on a
well-formed collection with the allocations succeeding: one entry is
attached. -/
theorem parse_line_attach (MAX : Nat) (table : List syscall_entry) (h : Heap) (j : minijail)
    (ps : List Nat) (hr : Ring h j.filters ps) (line name filter : List Nat)
    (hf : rule_fields line = some (name, filter)) (nr : Int)
    (hres : resolve_syscall table name = nr) (hnr : 0 ≤ nr) :
    ∃ h' j', parse_line MAX table (true, true) (h, j) line = .ret (h', j') () ∧
      Ring h' j'.filters (ps ++ [h.nodes.length + 1]) ∧
      filter_entries h' j' = some (entries_at h ps ++ [(nr, (cstr filter).take MAX)]) := by
  rw [parse_line_rule MAX table (true, true) (h, j) line name filter hf, hres]
  have hn : ¬ nr < 0 := by omega
  obtain ⟨h', j', hadd, _, hr', _, _, hnew, hold⟩ :=
    add_seccomp_filter_ring MAX h j nr filter ps hr hnr
  refine ⟨h', j', ?_, hr', ?_⟩
  · simp only [hn, if_false, hadd]
    simp
  · rw [filter_entries_ring h' j' _ hr']
    have hle := ring_ptr_le h _ ps hr
    have e1 : entries_at h' ps = entries_at h ps :=
      entries_at_congr h h' ps (fun p hp => hold p (by have := hle p hp; omega))
    have e2 : entries_at h' (ps ++ [h.nodes.length + 1])
        = entries_at h' ps ++ entries_at h' [h.nodes.length + 1] := by
      simp [entries_at]
    have e3 : entries_at h' [h.nodes.length + 1] = [(nr, (cstr filter).take MAX)] := by
      simp only [entries_at, List.filterMap_cons, hnew, List.filterMap_nil, strndup_eq]
    rw [e2, e1, e3]

theorem digitsOf_decimal (ds r : List Nat) (hd : ∀ d ∈ ds, d < 10) :
    digitsOf 10 (decimal_text ds ++ 0 :: r) = ds := by
  induction ds with
  | nil => simp [decimal_text, digitsOf, digitVal]
  | cons d ds ih =>
    have hd0 : d < 10 := hd d (by simp)
    have ih' := ih (fun x hx => hd x (by simp [hx]))
    have hv : digitVal (d + 48) = some d := by
      unfold digitVal
      rw [if_pos (by omega)]
      simp
    simp only [decimal_text, List.map_cons, List.cons_append, digitsOf, hv] at ih' ⊢
    rw [if_pos hd0]
    exact congrArg (fun l => d :: l) ih'

/-- `strtol` on a decimal literal that does not start with `0`: the value of
the literal (at most `LONG_MAX`), and `end` at the terminator. -/
theorem strtol_decimal (d : Nat) (ds r : List Nat) (hd : ∀ x ∈ d :: ds, x < 10)
    (h0 : d ≠ 0) :
    strtol (decimal_text (d :: ds) ++ 0 :: r) =
      (min ((decimal_value (d :: ds) : Nat) : Int) LONG_MAX, (d :: ds).length) := by
  have hd0 : d < 10 := hd d (by simp)
  have hdig := digitsOf_decimal (d :: ds) r hd
  have hsp : isspace (d + 48) = false := by
    unfold isspace
    have h1 : ¬ (d + 48 = 32) := by omega
    have h2 : ¬ (d + 48 ≤ 13) := by omega
    simp [h1, h2]
  unfold strtol
  simp only [decimal_text, List.map_cons, List.cons_append] at hdig ⊢
  simp only [List.takeWhile_cons, hsp, Bool.false_eq_true, if_false, List.length_nil,
    List.drop_zero]
  have e2 : (match ((d + 48) :: (List.map (fun d => d + 48) ds ++ 0 :: r)) with
      | 48 :: x :: d :: _ =>
        if (x = 120 ∨ x = 88) ∧ (digitsOf 16 [d] ≠ []) then (16, 2) else (8, 0)
      | 48 :: _ => (8, 0)
      | _ => ((10, 0) : Nat × Nat)) = (10, 0) := by
    split
    · next heq => simp at heq; omega
    · next heq => simp at heq; omega
    · rfl
  simp only [e2, List.drop_zero, hdig]
  simp [decimal_value]

theorem strtol_zero (r : List Nat) : strtol (48 :: 0 :: r) = (0, 1) := by
  cases r <;> simp [strtol, isspace, digitsOf, digitVal, LONG_MAX]

/-- C11, counterexample. The trimmed syscall field of the line
"4294967298:1" is the non-negative integer literal 4294967298 (`strtol`
consumes it all); the entry attached has syscall number 2, not 4294967298: the
`long` is stored in an `int`. -/
theorem literal_out_of_int_range_counterexample :
    strtol (lit "4294967298" ++ [0]) = (4294967298, 10) ∧
    minijail_parse_seccomp_filters 512 sample_table alloc_ok Heap.empty minijail_new
        (some (lit "4294967298:1\n")) =
      .ret ({ strs := [], nodes := [⟨2, lit "1", 1, 1⟩] },
        { minijail_new with filters := 1 }) () ∧
    filter_entries { strs := [], nodes := [⟨2, lit "1", 1, 1⟩] }
      { minijail_new with filters := 1 } = some [(2, lit "1")] := by
  decide

/-- C11, amended. On a rule line that reaches the resolution of the syscall,
with a well-formed collection and the allocations succeeding: when `strtol`
consumes the whole trimmed syscall field (an integer literal) and its value `n`
is non-negative and fits an `int` (`n < 2^31`), the loop body attaches an entry
with syscall number `n`, whatever the syscall table is; a decimal literal has
for `strtol` the value it writes (up to `LONG_MAX`) and is consumed whole, and
so is the literal `0`; when `strtol` stops before the end of the field and the
field is the name of an entry of the table, the entry attached has the number
of the first such entry; and `minijail_lookup_syscall` gives the number of the
first entry with the name, -1 when there is none. -/
theorem syscall_resolution_order (MAX : Nat) (table : List syscall_entry) (h : Heap)
    (j : minijail) (ps : List Nat) (hr : Ring h j.filters ps) (line name filter : List Nat)
    (hf : rule_fields line = some (name, filter)) :
    (∀ n : Int, (strtol name).1 = n → name[(strtol name).2]? = some 0 → 0 ≤ n → n < 2 ^ 31 →
      (∀ table', parse_line MAX table' (true, true) (h, j) line =
        parse_line MAX table (true, true) (h, j) line) ∧
      ∃ h' j', parse_line MAX table (true, true) (h, j) line = .ret (h', j') () ∧
        filter_entries h' j' = some (entries_at h ps ++ [(n, (cstr filter).take MAX)])) ∧
    (∀ d ds r, (∀ x ∈ d :: ds, x < 10) → d ≠ 0 → name = decimal_text (d :: ds) ++ 0 :: r →
      (strtol name).1 = min ((decimal_value (d :: ds) : Nat) : Int) LONG_MAX ∧
      name[(strtol name).2]? = some 0) ∧
    (∀ r, name = 48 :: 0 :: r → (strtol name).1 = 0 ∧ name[(strtol name).2]? = some 0) ∧
    (∀ e, name[(strtol name).2]? ≠ some 0 → table_entry table name = some e →
      ∃ h' j', parse_line MAX table (true, true) (h, j) line = .ret (h', j') () ∧
        filter_entries h' j' = some (entries_at h ps ++ [(e.nr, (cstr filter).take MAX)])) ∧
    (minijail_lookup_syscall table name =
      match table_entry table name with
      | some e => e.nr
      | none => -1) := by
  refine ⟨?_, ?_, ?_, ?_, lookup_syscall_eq table name⟩
  · intro n hv he h0 h1
    have hres : ∀ t, resolve_syscall t name = n := by
      intro t
      unfold resolve_syscall
      simp only [he, ne_eq, not_true_eq_false, if_false, hv]
      exact long_to_int_small n h0 h1
    constructor
    · intro table'
      rw [parse_line_rule MAX table' (true, true) (h, j) line name filter hf,
        parse_line_rule MAX table (true, true) (h, j) line name filter hf, hres, hres]
    · obtain ⟨h', j', hp, _, hent⟩ :=
        parse_line_attach MAX table h j ps hr line name filter hf n (hres table) h0
      exact ⟨h', j', hp, hent⟩
  · intro d ds r hd h0 hname
    subst hname
    rw [strtol_decimal d ds r hd h0]
    refine ⟨rfl, ?_⟩
    have : (decimal_text (d :: ds)).length = (d :: ds).length := by simp [decimal_text]
    simp only []
    rw [← this, List.getElem?_append_right (le_refl _)]
    simp
  · intro r hname
    subst hname
    rw [strtol_zero]
    simp
  · intro e he hte
    have hres : resolve_syscall table name = e.nr := by
      unfold resolve_syscall
      simp only [ne_eq, he, not_false_eq_true, if_true]
      rw [lookup_syscall_eq, hte]
    obtain ⟨h', j', hp, _, hent⟩ :=
      parse_line_attach MAX table h j ps hr line name filter hf e.nr hres
        (table_entry_nonneg table name e hte)
    exact ⟨h', j', hp, hent⟩

/-- C11, amended, at the line "open: 1" on the collection of `jail_one`. -/
theorem syscall_resolution_order_witness :
    Ring heap_one jail_one.filters [1] ∧
    rule_fields line_open = some (lit "open" ++ [0] ++ lit " 1" ++ [0, 0], lit "1" ++ [0, 0]) ∧
    ((∀ n : Int, (strtol (lit "open" ++ [0] ++ lit " 1" ++ [0, 0])).1 = n →
        (lit "open" ++ [0] ++ lit " 1" ++ [0, 0])[(strtol
          (lit "open" ++ [0] ++ lit " 1" ++ [0, 0])).2]? = some 0 → 0 ≤ n → n < 2 ^ 31 →
      (∀ table', parse_line 512 table' (true, true) (heap_one, jail_one) line_open =
        parse_line 512 sample_table (true, true) (heap_one, jail_one) line_open) ∧
      ∃ h' j', parse_line 512 sample_table (true, true) (heap_one, jail_one) line_open =
          .ret (h', j') () ∧
        filter_entries h' j' =
          some (entries_at heap_one [1] ++ [(n, (cstr (lit "1" ++ [0, 0])).take 512)])) ∧
    (∀ d ds r, (∀ x ∈ d :: ds, x < 10) → d ≠ 0 →
      lit "open" ++ [0] ++ lit " 1" ++ [0, 0] = decimal_text (d :: ds) ++ 0 :: r →
      (strtol (lit "open" ++ [0] ++ lit " 1" ++ [0, 0])).1 =
        min ((decimal_value (d :: ds) : Nat) : Int) LONG_MAX ∧
      (lit "open" ++ [0] ++ lit " 1" ++ [0, 0])[(strtol
        (lit "open" ++ [0] ++ lit " 1" ++ [0, 0])).2]? = some 0) ∧
    (∀ r, lit "open" ++ [0] ++ lit " 1" ++ [0, 0] = 48 :: 0 :: r →
      (strtol (lit "open" ++ [0] ++ lit " 1" ++ [0, 0])).1 = 0 ∧
      (lit "open" ++ [0] ++ lit " 1" ++ [0, 0])[(strtol
        (lit "open" ++ [0] ++ lit " 1" ++ [0, 0])).2]? = some 0) ∧
    (∀ e, (lit "open" ++ [0] ++ lit " 1" ++ [0, 0])[(strtol
        (lit "open" ++ [0] ++ lit " 1" ++ [0, 0])).2]? ≠ some 0 →
      table_entry sample_table (lit "open" ++ [0] ++ lit " 1" ++ [0, 0]) = some e →
      ∃ h' j', parse_line 512 sample_table (true, true) (heap_one, jail_one) line_open =
          .ret (h', j') () ∧
        filter_entries h' j' =
          some (entries_at heap_one [1] ++ [(e.nr, (cstr (lit "1" ++ [0, 0])).take 512)])) ∧
    (minijail_lookup_syscall sample_table (lit "open" ++ [0] ++ lit " 1" ++ [0, 0]) =
      match table_entry sample_table (lit "open" ++ [0] ++ lit " 1" ++ [0, 0]) with
      | some e => e.nr
      | none => -1)) :=
  ⟨by decide, by decide,
    syscall_resolution_order 512 sample_table heap_one jail_one [1] (by decide) line_open
      (lit "open" ++ [0] ++ lit " 1" ++ [0, 0]) (lit "1" ++ [0, 0]) (by decide)⟩

/-! ## The filter file: fatal lines -/

/-- C12, the code on a line with the separator and an empty syscall field. On
the line ":1" the loop body does not reach `die`: `strip` on the empty name
reads `line[-1]`, outside the array (undefined behaviour); with a zero byte
under the array the name stays empty, `strtol` gives 0 with `end` at the
terminator, and an entry for syscall 0 is attached. -/
theorem parse_empty_name_not_fatal :
    parse_line 512 sample_table (true, true) (Heap.empty, minijail_new)
      (lit ":1\n" ++ [0]) = .undef ∧
    parse_line_below [0] 512 sample_table (true, true) (Heap.empty, minijail_new)
        (lit ":1\n" ++ [0]) =
      .ret ({ strs := [], nodes := [⟨0, lit "1", 1, 1⟩] },
        { minijail_new with filters := 1 }) () ∧
    strtol [0] = (0, 0) := by
  decide

theorem read_line_consumes (k : Nat) (c : Nat) (f : List Nat) :
    (read_line (k + 1) (c :: f)).2.length < (c :: f).length := by
  induction k generalizing c f with
  | zero =>
    by_cases hc : c = 10 <;> simp [read_line, hc]
  | succ k ih =>
    by_cases hc : c = 10
    · simp [read_line, hc]
    · cases f with
      | nil => simp [read_line, hc]
      | cons d f =>
        have := ih d f
        rw [read_line]
        simp only [hc, if_false]
        simp only [List.length_cons] at this ⊢
        omega

/-- With a line array of at least two bytes, fuel above the length of the file
is enough: the loop is the loop body run on the arrays `fgets` fills. -/
theorem parse_lines_eq_arrays (MAX : Nat) (hMAX : 2 ≤ MAX) (table : List syscall_entry)
    (alloc : Nat → Bool × Bool) :
    ∀ fuel i st file, file.length < fuel →
      parse_lines MAX table alloc fuel i st file =
        parse_arrays MAX table alloc i st (file_lines MAX fuel file) := by
  obtain ⟨k, rfl⟩ : ∃ k, MAX = k + 2 := ⟨MAX - 2, by omega⟩
  intro fuel
  induction fuel with
  | zero => intro i st file hlt; omega
  | succ fuel ih =>
    intro i st file hlt
    cases file with
    | nil => simp [parse_lines, file_lines, fgets, parse_arrays]
    | cons c f =>
      have hcons := read_line_consumes k c f
      have hfg : fgets (k + 2) (c :: f) =
          some ((read_line (k + 1) (c :: f)).1 ++ [0], (read_line (k + 1) (c :: f)).2) := rfl
      generalize (read_line (k + 1) (c :: f)).1 ++ [0] = line at hfg
      generalize (read_line (k + 1) (c :: f)).2 = rest at hfg hcons
      rw [parse_lines, file_lines, hfg]
      simp only [parse_arrays]
      generalize parse_line (k + 2) table (alloc i) st line = r
      cases r with
      | undef => rfl
      | die msg st' => rfl
      | ret st' u =>
        simp only []
        exact ih (i + 1) st' _ (by simp only [List.length_cons] at hcons hlt; omega)

theorem parse_arrays_append (MAX : Nat) (table : List syscall_entry)
    (alloc : Nat → Bool × Bool) (l1 l2 : List (List Nat)) :
    ∀ i st st', parse_arrays MAX table alloc i st l1 = .ret st' () →
      parse_arrays MAX table alloc i st (l1 ++ l2) =
        parse_arrays MAX table alloc (i + l1.length) st' l2 := by
  induction l1 with
  | nil =>
    intro i st st' h
    simp only [parse_arrays, Outcome.ret.injEq, and_true] at h
    subst h
    rfl
  | cons line rest ih =>
    intro i st st' h
    simp only [parse_arrays, List.cons_append] at h ⊢
    cases hp : parse_line MAX table (alloc i) st line with
    | undef => simp [hp] at h
    | die msg s => simp [hp] at h
    | ret s u =>
      simp only [hp] at h ⊢
      change parse_arrays MAX table alloc (i + 1) s (rest ++ l2) = _
      rw [ih (i + 1) s st' h]
      simp only [List.length_cons]
      congr 1
      omega

/-- C13, counterexample. In the file `file_bogus` the second line has the
unresolvable name "bogus"; `minijail_parse_seccomp_filters` aborts on it, and
at the abort the entry of the first line is attached: the collection is not the
empty one it was before the call. -/
theorem parse_unresolvable_counterexample :
    minijail_parse_seccomp_filters 512 sample_table alloc_ok Heap.empty minijail_new
        (some file_bogus) =
      .die "syscall '%s' unknown" (heap_open, { minijail_new with filters := 1 }) ∧
    filter_entries Heap.empty minijail_new = some [] ∧
    filter_entries heap_open { minijail_new with filters := 1 } = some [(2, lit "1")] := by
  decide

/-- C13, amended. When line `k` of a filter file (a line array of at least two
bytes) is a rule line whose syscall field is not an integer literal and names
no entry of the syscall table, and the lines before it are accepted, leaving
the heap and the configuration `st'`, then `minijail_parse_seccomp_filters`
aborts on that line with the diagnostic for an unknown syscall, and the state
at the abort is `st'`: the collection holds what the lines before attached, and
is the one before the call when the line is the first of the file. -/
theorem parse_unresolvable_name (MAX : Nat) (hMAX : 2 ≤ MAX) (table : List syscall_entry)
    (alloc : Nat → Bool × Bool) (h : Heap) (j : minijail) (file : List Nat) (k : Nat)
    (bad name filter : List Nat) (st' : Heap × minijail)
    (hk : (file_lines MAX (file.length + 1) file)[k]? = some bad)
    (hf : rule_fields bad = some (name, filter))
    (hlit : name[(strtol name).2]? ≠ some 0)
    (hun : table_entry table name = none)
    (hpre : parse_arrays MAX table alloc 0 (h, j)
      ((file_lines MAX (file.length + 1) file).take k) = .ret st' ()) :
    minijail_parse_seccomp_filters MAX table alloc h j (some file) =
      .die "syscall '%s' unknown" st' ∧
    (k = 0 → st' = (h, j)) := by
  constructor
  · unfold minijail_parse_seccomp_filters
    simp only []
    rw [parse_lines_eq_arrays MAX hMAX table alloc _ 0 (h, j) file (by omega)]
    have hklt : k < (file_lines MAX (file.length + 1) file).length := by
      by_contra hc
      rw [List.getElem?_eq_none (by omega)] at hk
      exact absurd hk (by simp)
    have hsplit : file_lines MAX (file.length + 1) file =
        (file_lines MAX (file.length + 1) file).take k ++
          bad :: (file_lines MAX (file.length + 1) file).drop (k + 1) := by
      rw [List.getElem?_eq_getElem hklt] at hk
      have hb := Option.some.inj hk
      rw [← hb, ← List.drop_eq_getElem_cons hklt, List.take_append_drop]
    have hres : resolve_syscall table name = -1 := by
      unfold resolve_syscall
      simp only [ne_eq, hlit, not_false_eq_true, if_true]
      rw [lookup_syscall_eq, hun]
    rw [hsplit, parse_arrays_append MAX table alloc _ _ 0 (h, j) st' hpre]
    simp only [parse_arrays]
    rw [parse_line_rule MAX table _ st' bad name filter hf, hres]
    simp
  · intro hk0
    subst hk0
    simp only [List.take_zero, parse_arrays, Outcome.ret.injEq, and_true] at hpre
    exact hpre.symm

/-- C13, amended, at the second line of `file_bogus`. -/
theorem parse_unresolvable_name_witness :
    2 ≤ 512 ∧
    (file_lines 512 (file_bogus.length + 1) file_bogus)[1]? = some (lit "bogus: 1\n" ++ [0]) ∧
    rule_fields (lit "bogus: 1\n" ++ [0]) =
      some (lit "bogus" ++ [0] ++ lit " 1" ++ [0, 0], lit "1" ++ [0, 0]) ∧
    (lit "bogus" ++ [0] ++ lit " 1" ++ [0, 0])[(strtol
      (lit "bogus" ++ [0] ++ lit " 1" ++ [0, 0])).2]? ≠ some 0 ∧
    table_entry sample_table (lit "bogus" ++ [0] ++ lit " 1" ++ [0, 0]) = none ∧
    parse_arrays 512 sample_table alloc_ok 0 (Heap.empty, minijail_new)
      ((file_lines 512 (file_bogus.length + 1) file_bogus).take 1) =
        .ret (heap_open, { minijail_new with filters := 1 }) () ∧
    (minijail_parse_seccomp_filters 512 sample_table alloc_ok Heap.empty minijail_new
        (some file_bogus) =
      .die "syscall '%s' unknown" (heap_open, { minijail_new with filters := 1 }) ∧
    ((1 : Nat) = 0 → (heap_open, { minijail_new with filters := 1 }) =
      (Heap.empty, minijail_new))) :=
  ⟨by decide, by decide, by decide, by decide, by decide, by decide,
    parse_unresolvable_name 512 (by decide) sample_table alloc_ok Heap.empty minijail_new
      file_bogus 1 (lit "bogus: 1\n" ++ [0]) (lit "bogus" ++ [0] ++ lit " 1" ++ [0, 0])
      (lit "1" ++ [0, 0]) (heap_open, { minijail_new with filters := 1 })
      (by decide) (by decide) (by decide) (by decide) (by decide)⟩

/-! ## The privilege-drop engine: the calls of a run -/

theorem andThen_ret {σ α β : Type} (o : Outcome σ α) (f : σ → α → Outcome σ β) (s : σ)
    (b : β) (h : o.andThen f = .ret s b) : ∃ s1 a, o = .ret s1 a ∧ f s1 a = .ret s b := by
  cases o with
  | ret s1 a => exact ⟨s1, a, rfl, h⟩
  | die msg s1 => simp [Outcome.andThen] at h
  | undef => simp [Outcome.andThen] at h

theorem run_nil (w : World) : run [] w = w := rfl

theorem run_cons (op : Op) (ops : List Op) (w : World) :
    run (op :: ops) w = run ops (run [op] w) := rfl

theorem run_append (a b : List Op) (w : World) : run (a ++ b) w = run b (run a w) := by
  simp [run, List.foldl_append]

theorem effect_trace (op : Op) (w : World) : (effect op w).trace = w.trace := by
  cases op <;> rfl

theorem run_trace (ops : List Op) (w : World) : (run ops w).trace = w.trace ++ ops := by
  induction ops generalizing w with
  | nil => simp [run]
  | cons op ops ih =>
    rw [run_cons, ih]
    simp [run, effect_trace]

theorem perform_ret (sys : List Op → Op → Nat) (op : Op) (msg : String) (w w' : World)
    (u : Unit) (h : perform sys op msg w = .ret w' u) : w' = run [op] w := by
  unfold perform at h
  by_cases he : (issue sys w op).2 ≠ 0
  · simp [he] at h
  · simp only [he, if_false, Outcome.ret.injEq] at h
    rw [← h.1]
    rfl

/-- A step guarded by a flag. -/
theorem guarded_perform_ret (sys : List Op → Op → Nat) (c : Bool) (op : Op) (msg : String)
    (w w' : World) (u : Unit)
    (h : (if c = true then perform sys op msg w else Outcome.ret w ()) = .ret w' u) :
    w' = run (if c = true then [op] else []) w := by
  cases c with
  | true =>
    simp only [if_true] at h ⊢
    exact perform_ret sys op msg w w' u h
  | false =>
    simp only [Bool.false_eq_true, if_false, Outcome.ret.injEq] at h ⊢
    exact h.1.symm

theorem remount_ret (sys : List Op → Op → Nat) (w : World)
    (h : (remount_readonly sys w).2 = 0) :
    (remount_readonly sys w).1 = run [Op.umount_proc, Op.mount_proc_readonly] w := by
  unfold remount_readonly at h ⊢
  by_cases h1 : (issue sys w .umount_proc).2 ≠ 0
  · rw [if_pos h1] at h
    exact absurd h h1
  · rw [if_neg h1] at h ⊢
    by_cases h2 : (issue sys (issue sys w .umount_proc).1 .mount_proc_readonly).2 ≠ 0
    · rw [if_pos h2] at h
      exact absurd h h2
    · rw [if_neg h2]
      rfl

theorem raise_loop_ret (P : Platform) (sys : List Op → Op → Nat) (mask : Nat) :
    ∀ (l : List Nat) (w w' : World) (u : Unit), raise_loop P sys mask l w = .ret w' u →
      w' = run ((l.filter (fun i =>
          !(decide (i ≠ CAP_SETPCAP ∧ mask &&& P.shl1 i = 0)))).flatMap (fun i =>
        [Op.cap_set_flag .effective i, Op.cap_set_flag .permitted i,
          Op.cap_set_flag .inheritable i])) w := by
  intro l
  induction l with
  | nil =>
    intro w w' u h
    simp only [raise_loop, Outcome.ret.injEq] at h
    simp [run, h.1]
  | cons i rest ih =>
    intro w w' u h
    by_cases hc : i ≠ CAP_SETPCAP ∧ mask &&& P.shl1 i = 0
    · rw [raise_loop, if_pos hc] at h
      rw [ih w w' u h]
      simp [List.filter_cons, hc]
    · rw [raise_loop, if_neg hc] at h
      obtain ⟨w1, _, h1, h⟩ := andThen_ret _ _ _ _ h
      obtain ⟨w2, _, h2, h⟩ := andThen_ret _ _ _ _ h
      obtain ⟨w3, _, h3, h⟩ := andThen_ret _ _ _ _ h
      have e1 := perform_ret _ _ _ _ _ _ h1
      have e2 := perform_ret _ _ _ _ _ _ h2
      have e3 := perform_ret _ _ _ _ _ _ h3
      rw [ih w3 w' u h, e3, e2, e1]
      simp only [List.filter_cons, hc, decide_False, Bool.not_false, if_true,
        List.flatMap_cons]
      rw [run_append]
      rfl

theorem bounding_loop_ret (P : Platform) (sys : List Op → Op → Nat) (mask : Nat) :
    ∀ (l : List Nat) (w w' : World) (u : Unit), bounding_loop P sys mask l w = .ret w' u →
      w' = run ((l.filter (fun i => decide (mask &&& P.shl1 i = 0))).map Op.capbset_drop) w := by
  intro l
  induction l with
  | nil =>
    intro w w' u h
    simp only [bounding_loop, Outcome.ret.injEq] at h
    simp [run, h.1]
  | cons i rest ih =>
    intro w w' u h
    by_cases hc : mask &&& P.shl1 i = 0
    · rw [bounding_loop, if_neg (by simp [hc])] at h
      obtain ⟨w1, _, h1, h⟩ := andThen_ret _ _ _ _ h
      have e1 := perform_ret _ _ _ _ _ _ h1
      rw [ih w1 w' u h, e1]
      simp only [List.filter_cons, hc, decide_True, if_true, List.map_cons]
      rfl
    · rw [bounding_loop, if_pos hc] at h
      rw [ih w w' u h]
      simp [List.filter_cons, hc]

/-- A `drop_caps` that returns has made the calls `drop_caps_ops`, all
successful. -/
theorem drop_caps_ret (P : Platform) (sys : List Op → Op → Nat) (j : minijail)
    (w w' : World) (u : Unit) (h : drop_caps P sys j w = .ret w' u) :
    w' = run (drop_caps_ops P j.caps) w := by
  unfold drop_caps at h
  obtain ⟨w1, _, h1, h⟩ := andThen_ret _ _ _ _ h
  obtain ⟨w2, _, h2, h⟩ := andThen_ret _ _ _ _ h
  obtain ⟨w3, _, h3, h⟩ := andThen_ret _ _ _ _ h
  obtain ⟨w4, _, h4, h⟩ := andThen_ret _ _ _ _ h
  obtain ⟨w5, _, h5, h⟩ := andThen_ret _ _ _ _ h
  obtain ⟨w6, _, h6, h⟩ := andThen_ret _ _ _ _ h
  have e1 := perform_ret _ _ _ _ _ _ h1
  have e2 := perform_ret _ _ _ _ _ _ h2
  have e3 := perform_ret _ _ _ _ _ _ h3
  have e4 := perform_ret _ _ _ _ _ _ h4
  have e5 := raise_loop_ret P sys j.caps _ _ _ _ h5
  have e6 := perform_ret _ _ _ _ _ _ h6
  have e7 := bounding_loop_ret P sys j.caps _ _ _ _ h
  have e8 : (issue sys w6 Op.cap_free).1 = run [Op.cap_free] w6 := rfl
  rw [e7, e8, e6, e5, e4, e3, e2, e1]
  simp only [drop_caps_ops, raised_caps, dropped_caps, run_append]
  rfl

theorem installsFrom_refl (w : World) : InstallsFrom w w := ⟨[], by simp, rfl⟩

theorem installsFrom_step (w w1 w' : World) (nr : Int) (f : List Nat)
    (h1 : w1 = (run [Op.seccomp_filter nr f] w)) (h : InstallsFrom w1 w') :
    InstallsFrom w w' := by
  obtain ⟨ops, hall, hw⟩ := h
  refine ⟨Op.seccomp_filter nr f :: ops, ?_, ?_⟩
  · intro op hop
    rcases List.mem_cons.mp hop with rfl | hm
    · rfl
    · exact hall op hm
  · rw [hw, h1]
    rfl

/-- Whatever the system answers, the loop of `setup_seccomp_filters` issues
filter installs only, whether it returns or reaches `die`. -/
theorem setup_loop_installs (sys : List Op → Op → Nat) (h : Heap) (first : Nat) :
    ∀ (fuel sf : Nat) (b : Bool) (w : World),
      (∀ w' r, setup_loop sys h first fuel sf b w = .ret w' r → InstallsFrom w w') ∧
      (∀ msg w', setup_loop sys h first fuel sf b w = .die msg w' → InstallsFrom w w') := by
  intro fuel
  induction fuel with
  | zero => intro sf b w; simp [setup_loop]
  | succ fuel ih =>
    intro sf b w
    rw [setup_loop]
    cases hn : h.node sf with
    | none => simp
    | some n =>
      simp only []
      have hstep : ∀ w', InstallsFrom
          (issue sys w (Op.seccomp_filter n.nr (if b = true then lit "1" else n.filter))).1 w' →
          InstallsFrom w w' :=
        fun w' hw => installsFrom_step w _ w' n.nr _ rfl hw
      have hself := hstep _ (installsFrom_refl _)
      generalize issue sys w (Op.seccomp_filter n.nr (if b = true then lit "1" else n.filter))
        = r at hstep hself
      by_cases he : r.2 ≠ 0
      · rw [if_pos he]
        by_cases h38 : (r.2 : Int) = ENOSYS
        · rw [if_pos h38]
          cases b with
          | true =>
            simp only [if_true]
            exact ⟨fun w' r' hh => by simp at hh, fun msg w' hh => by
              simp only [Outcome.die.injEq] at hh; rw [← hh.2]; exact hself⟩
          | false =>
            simp only [Bool.false_eq_true, if_false]
            by_cases hsf : sf ≠ first
            · rw [if_pos hsf]
              exact ⟨fun w' r' hh => hstep w' ((ih sf true r.1).1 w' r' hh),
                fun msg w' hh => hstep w' ((ih sf true r.1).2 msg w' hh)⟩
            · rw [if_neg hsf]
              exact ⟨fun w' r' hh => by
                simp only [Outcome.ret.injEq] at hh; rw [← hh.1]; exact hself,
                fun msg w' hh => by simp at hh⟩
        · rw [if_neg h38]
          constructor
          · intro w' r' hh
            split at hh
            · simp at hh
            · split at hh <;> simp at hh
          · intro msg w' hh
            have : w' = r.1 := by
              split at hh
              · simp only [Outcome.die.injEq] at hh; exact hh.2.symm
              · split at hh <;> (simp only [Outcome.die.injEq] at hh; exact hh.2.symm)
            rw [this]; exact hself
      · rw [if_neg he]
        by_cases hnx : n.next ≠ first
        · rw [if_pos hnx]
          exact ⟨fun w' r' hh => hstep w' ((ih n.next false r.1).1 w' r' hh),
            fun msg w' hh => hstep w' ((ih n.next false r.1).2 msg w' hh)⟩
        · rw [if_neg hnx]
          exact ⟨fun w' r' hh => by
            simp only [Outcome.ret.injEq] at hh; rw [← hh.1]; exact hself,
            fun msg w' hh => by simp at hh⟩

theorem setup_installs (sys : List Op → Op → Nat) (h : Heap) (j : minijail) (w : World) :
    (∀ w' r, setup_seccomp_filters sys h j w = .ret w' r → InstallsFrom w w') ∧
    (∀ msg w', setup_seccomp_filters sys h j w = .die msg w' → InstallsFrom w w') := by
  unfold setup_seccomp_filters
  by_cases h0 : j.filters = 0
  · simp only [h0, if_true]
    exact ⟨fun w' r hh => by
      simp only [Outcome.ret.injEq] at hh; rw [← hh.1]; exact installsFrom_refl w,
      fun msg w' hh => by simp at hh⟩
  · simp only [h0, if_false]
    exact setup_loop_installs sys h j.filters _ _ _ _

/-- On a well-formed collection the loop of `setup_seccomp_filters` ends: two
turns per entry left are enough fuel. -/
theorem setup_loop_total (sys : List Op → Op → Nat) (h : Heap) (first : Nat) (ps : List Nat)
    (hr : Ring h first ps) :
    ∀ (fuel i : Nat) (b : Bool) (w : World) (hi : i < ps.length),
      2 * (ps.length - i) ≤ fuel + (if b = true then 1 else 0) →
      setup_loop sys h first fuel ps[i] b w ≠ .undef := by
  intro fuel
  induction fuel with
  | zero =>
    intro i b w hi hf
    cases b <;> simp at hf <;> omega
  | succ fuel ih =>
    intro i b w hi hf
    obtain ⟨nd, hnd, hnext, _⟩ := ring_at h first ps hr i hi
    rw [setup_loop, hnd]
    simp only []
    generalize issue sys w (Op.seccomp_filter nd.nr (if b = true then lit "1" else nd.filter))
      = r
    by_cases he : r.2 ≠ 0
    · rw [if_pos he]
      by_cases h38 : (r.2 : Int) = ENOSYS
      · rw [if_pos h38]
        cases b with
        | true => simp
        | false =>
          simp only [Bool.false_eq_true, if_false]
          by_cases hsf : ps[i] ≠ first
          · rw [if_pos hsf]
            exact ih i true r.1 hi (by simp at hf ⊢; omega)
          · rw [if_neg hsf]; simp
      · rw [if_neg h38]
        split
        · simp
        · split <;> simp
    · rw [if_neg he]
      by_cases hnx : nd.next ≠ first
      · rw [if_pos hnx]
        have hi1 : i + 1 < ps.length := by
          by_contra hc
          rw [List.getElem?_eq_none (by omega)] at hnext
          exact hnx hnext
        rw [List.getElem?_eq_getElem hi1] at hnext
        simp only [Option.getD_some] at hnext
        rw [hnext]
        exact ih (i + 1) false r.1 hi1 (by cases b <;> simp at hf ⊢ <;> omega)
      · rw [if_neg hnx]; simp

theorem setup_total (sys : List Op → Op → Nat) (h : Heap) (j : minijail) (ps : List Nat)
    (hr : Ring h j.filters ps) (w : World) :
    setup_seccomp_filters sys h j w ≠ .undef := by
  unfold setup_seccomp_filters
  by_cases h0 : j.filters = 0
  · simp [h0]
  · simp only [h0, if_false]
    have hps : ps ≠ [] := fun he => h0 ((ring_first h _ ps hr).1.mp he)
    have hpos : 0 < ps.length := List.length_pos.mpr hps
    have hfirst : ps[0] = j.filters := by
      have := (ring_first h _ ps hr).2 h0
      rw [List.getElem?_eq_getElem hpos] at this
      exact Option.some.inj this
    have hlen := ring_length_le h _ ps hr
    have := setup_loop_total sys h j.filters ps hr (2 * h.nodes.length + 1) 0 false w hpos
      (by simp; omega)
    rw [hfirst] at this
    exact this

/-- A `minijail_enter` that returns, seen from the return of
`setup_seccomp_filters`: the PID-namespace flag is clear, group inheritance
has a username, a failed installation is not fatal only when the filter flag
is clear, and the calls made after the installation are those of `enter_order`,
then those of `enter_activation`, all successful. -/
theorem enter_ret_setup (P : Platform) (sys : List Op → Op → Nat) (h : Heap) (j : minijail)
    (w0 w : World) (u : Unit) (he : minijail_enter P sys h j w0 = .ret w u) :
    j.flags.pids = false ∧ ¬ (j.flags.usergroups = true ∧ j.user = 0) ∧
    ∃ w1 ret, setup_seccomp_filters sys h j w0 = .ret w1 ret ∧
      ¬ (j.flags.seccomp_filter = true ∧ ret ≠ 0) ∧
      w = run (enter_order P j (user_name h j) ++ enter_activation j) w1 := by
  unfold minijail_enter at he
  by_cases hp : j.flags.pids = true
  · simp [hp] at he
  · simp only [hp, Bool.false_eq_true, if_false] at he
    obtain ⟨w1, ret, hs, he⟩ := andThen_ret _ _ _ _ he
    by_cases hc1 : j.flags.seccomp_filter = true ∧ ret ≠ 0
    · rw [if_pos hc1] at he; simp at he
    · rw [if_neg hc1] at he
      by_cases hc2 : j.flags.usergroups = true ∧ j.user = 0
      · rw [if_pos hc2] at he; simp at he
      · rw [if_neg hc2] at he
        obtain ⟨w2, _, h2, he⟩ := andThen_ret _ _ _ _ he
        obtain ⟨w3, _, h3, he⟩ := andThen_ret _ _ _ _ he
        obtain ⟨w4, _, h4, he⟩ := andThen_ret _ _ _ _ he
        obtain ⟨w5, _, h5, he⟩ := andThen_ret _ _ _ _ he
        obtain ⟨w6, _, h6, he⟩ := andThen_ret _ _ _ _ he
        obtain ⟨w7, _, h7, he⟩ := andThen_ret _ _ _ _ he
        obtain ⟨w8, _, h8, he⟩ := andThen_ret _ _ _ _ he
        obtain ⟨w9, _, h9, he⟩ := andThen_ret _ _ _ _ he
        have e2 := guarded_perform_ret _ _ _ _ _ _ _ h2
        have e3 : w3 = run (if j.flags.readonly = true then
            [Op.umount_proc, Op.mount_proc_readonly] else []) w2 := by
          cases hro : j.flags.readonly with
          | false =>
            simp only [hro, Bool.false_eq_true, if_false, Outcome.ret.injEq] at h3 ⊢
            exact h3.1.symm
          | true =>
            simp only [hro, if_true] at h3 ⊢
            by_cases hr0 : (remount_readonly sys w2).2 ≠ 0
            · rw [if_pos hr0] at h3; simp at h3
            · rw [if_neg hr0] at h3
              simp only [Outcome.ret.injEq] at h3
              rw [← h3.1]
              exact remount_ret sys w2 (by simpa using hr0)
        have e4 : w4 = run (if j.flags.caps = true then [Op.keepcaps, Op.securebits]
            else []) w3 := by
          cases hcp : j.flags.caps with
          | false =>
            simp only [hcp, Bool.false_eq_true, if_false, Outcome.ret.injEq] at h4 ⊢
            exact h4.1.symm
          | true =>
            simp only [hcp, if_true] at h4 ⊢
            obtain ⟨wa, _, ha, hb⟩ := andThen_ret _ _ _ _ h4
            rw [perform_ret _ _ _ _ _ _ hb, perform_ret _ _ _ _ _ _ ha]
            rfl
        have e5 : w5 = run [if j.flags.usergroups = true then
            Op.initgroups (user_name h j) j.usergid else Op.setgroups_none] w4 := by
          cases hug : j.flags.usergroups with
          | false =>
            simp only [hug, Bool.false_eq_true, if_false] at h5 ⊢
            exact perform_ret _ _ _ _ _ _ h5
          | true =>
            simp only [hug, if_true] at h5 ⊢
            unfold user_name
            cases hstr : h.str j.user with
            | none => simp [hstr] at h5
            | some us =>
              simp only [hstr] at h5 ⊢
              exact perform_ret _ _ _ _ _ _ h5
        have e6 := guarded_perform_ret _ _ _ _ _ _ _ h6
        have e7 := guarded_perform_ret _ _ _ _ _ _ _ h7
        have e8 : w8 = run (if j.flags.caps = true then drop_caps_ops P j.caps else []) w7 := by
          cases hcp : j.flags.caps with
          | false =>
            simp only [hcp, Bool.false_eq_true, if_false, Outcome.ret.injEq] at h8 ⊢
            exact h8.1.symm
          | true =>
            simp only [hcp, if_true] at h8 ⊢
            exact drop_caps_ret P sys j w7 w8 _ h8
        have e9 := guarded_perform_ret _ _ _ _ _ _ _ h9
        have e10 := guarded_perform_ret _ _ _ _ _ _ _ he
        refine ⟨by simpa using hp, hc2, w1, ret, hs, hc1, ?_⟩
        rw [e10, e9, e8, e7, e6, e5, e4, e3, e2]
        simp only [enter_order, enter_activation, run_append]

/-- A `minijail_enter` that returns: the PID-namespace flag is clear, group
inheritance has a username, and the calls made are filter installs, then the
calls of `enter_order`, then those of `enter_activation`, all successful. -/
theorem enter_ret (P : Platform) (sys : List Op → Op → Nat) (h : Heap) (j : minijail)
    (w0 w : World) (u : Unit) (he : minijail_enter P sys h j w0 = .ret w u) :
    j.flags.pids = false ∧ ¬ (j.flags.usergroups = true ∧ j.user = 0) ∧
    ∃ installs, (∀ op ∈ installs, Op.isInstall op = true) ∧
      w = run (installs ++ (enter_order P j (user_name h j) ++ enter_activation j)) w0 := by
  obtain ⟨hp, hc2, w1, ret, hs, _, hw⟩ := enter_ret_setup P sys h j w0 w u he
  obtain ⟨installs, hall, hw1⟩ := (setup_installs sys h j w0).1 w1 ret hs
  refine ⟨hp, hc2, installs, hall, ?_⟩
  rw [hw, hw1, run_append, run_append, run_append]

theorem run_raise (l : List Nat) :
    ∀ w : World,
      (run (l.flatMap (fun i =>
        [Op.cap_set_flag .effective i, Op.cap_set_flag .permitted i,
          Op.cap_set_flag .inheritable i])) w).capobj =
        ⟨w.capobj.effective ++ l, w.capobj.permitted ++ l, w.capobj.inheritable ++ l⟩ ∧
      (run (l.flatMap (fun i =>
        [Op.cap_set_flag .effective i, Op.cap_set_flag .permitted i,
          Op.cap_set_flag .inheritable i])) w).proc = w.proc ∧
      (run (l.flatMap (fun i =>
        [Op.cap_set_flag .effective i, Op.cap_set_flag .permitted i,
          Op.cap_set_flag .inheritable i])) w).dropped = w.dropped := by
  induction l with
  | nil => intro w; simp [run]
  | cons i l ih =>
    intro w
    rw [List.flatMap_cons, run_append]
    obtain ⟨h1, h2, h3⟩ := ih (run [Op.cap_set_flag .effective i, Op.cap_set_flag .permitted i,
      Op.cap_set_flag .inheritable i] w)
    rw [h1, h2, h3]
    simp [run, effect, CapSets.raise]

theorem run_drops (l : List Nat) :
    ∀ w : World,
      (run (l.map Op.capbset_drop) w).dropped = w.dropped ++ l ∧
      (run (l.map Op.capbset_drop) w).proc = w.proc := by
  induction l with
  | nil => intro w; simp [run]
  | cons i l ih =>
    intro w
    rw [List.map_cons, run_cons]
    obtain ⟨h1, h2⟩ := ih (run [Op.capbset_drop i] w)
    rw [h1, h2]
    simp [run, effect]

/-- The capability sets of the process and its bounding set after the calls of
`drop_caps`. -/
theorem run_drop_caps_ops (P : Platform) (mask : Nat) (w : World) :
    (run (drop_caps_ops P mask) w).proc =
      ⟨raised_caps P mask, raised_caps P mask, raised_caps P mask⟩ ∧
    (run (drop_caps_ops P mask) w).dropped = w.dropped ++ dropped_caps P mask := by
  unfold drop_caps_ops
  rw [run_append, run_append, run_append]
  have hA1 : (run [Op.cap_get_proc, Op.cap_clear_flag .inheritable,
      Op.cap_clear_flag .effective, Op.cap_clear_flag .permitted] w).capobj = ⟨[], [], []⟩ := rfl
  have hA2 : (run [Op.cap_get_proc, Op.cap_clear_flag .inheritable,
      Op.cap_clear_flag .effective, Op.cap_clear_flag .permitted] w).dropped = w.dropped := rfl
  generalize run [Op.cap_get_proc, Op.cap_clear_flag .inheritable,
    Op.cap_clear_flag .effective, Op.cap_clear_flag .permitted] w = wA at hA1 hA2
  obtain ⟨r1, _, r3⟩ := run_raise (raised_caps P mask) wA
  generalize run ((raised_caps P mask).flatMap (fun i =>
    [Op.cap_set_flag .effective i, Op.cap_set_flag .permitted i,
      Op.cap_set_flag .inheritable i])) wA = wB at r1 r3
  have hC1 : (run [Op.cap_set_proc, Op.cap_free] wB).proc = wB.capobj := rfl
  have hC2 : (run [Op.cap_set_proc, Op.cap_free] wB).dropped = wB.dropped := rfl
  generalize run [Op.cap_set_proc, Op.cap_free] wB = wC at hC1 hC2
  obtain ⟨d1, d2⟩ := run_drops (dropped_caps P mask) wC
  rw [d1, d2, hC1, hC2, r1, r3, hA1, hA2]
  simp

theorem mem_takeWhile_le (c i : Nat) :
    ∀ l : List Nat, l.Pairwise (fun a b => a < b) →
      (i ∈ l.takeWhile (fun x => decide (x ≤ c)) ↔ i ∈ l ∧ i ≤ c) := by
  intro l
  induction l with
  | nil => simp
  | cons a t ih =>
    intro hp
    rw [List.pairwise_cons] at hp
    by_cases ha : a ≤ c
    · rw [List.takeWhile_cons_of_pos (by simpa using ha), List.mem_cons, ih hp.2,
        List.mem_cons]
      constructor
      · rintro (h | h)
        · exact ⟨Or.inl h, by omega⟩
        · exact ⟨Or.inr h.1, h.2⟩
      · rintro ⟨h | h, hc⟩
        · exact Or.inl h
        · exact Or.inr ⟨h, hc⟩
    · rw [List.takeWhile_cons_of_neg (by simpa using ha), List.mem_cons]
      constructor
      · intro h; simp at h
      · rintro ⟨h | h, hc⟩
        · omega
        · have := hp.1 i h; omega

theorem mem_cap_range (P : Platform) (i : Nat) :
    i ∈ cap_range P ↔ i < 64 ∧ i ≤ P.last_cap := by
  unfold cap_range
  rw [mem_takeWhile_le P.last_cap i _ (List.pairwise_lt_range 64), List.mem_range]

theorem and_two_pow_ne_zero (mask i : Nat) : mask &&& 2 ^ i ≠ 0 ↔ mask.testBit i = true := by
  rw [Nat.and_two_pow]
  cases mask.testBit i <;> simp

/-- The x86-64 platform gives `1 << i` its value for `i < 31`. -/
theorem platform_x86_lawful : platform_x86.Lawful := by
  intro i hi
  have : i % 32 = i := Nat.mod_eq_of_lt (by omega)
  simp only [platform_x86, this]
  rw [if_neg (by omega)]

/-! ## The privilege-drop engine: order and policy -/

theorem drop_caps_ops_kind (P : Platform) (mask : Nat) :
    ∀ op ∈ drop_caps_ops P mask, Op.isActivation op = false ∧ Op.isGroups op = false ∧
      Op.isInstall op = false := by
  intro op hop
  unfold drop_caps_ops at hop
  simp only [List.mem_append, List.mem_cons, List.mem_flatMap, List.mem_map,
    List.mem_singleton, List.not_mem_nil, or_false] at hop
  rcases hop with ((h | ⟨i, _, h⟩) | h) | ⟨i, _, h⟩
  · rcases h with h | h | h | h <;> subst h <;> exact ⟨rfl, rfl, rfl⟩
  · rcases h with h | h | h <;> subst h <;> exact ⟨rfl, rfl, rfl⟩
  · rcases h with h | h <;> subst h <;> exact ⟨rfl, rfl, rfl⟩
  · subst h; exact ⟨rfl, rfl, rfl⟩

theorem enter_order_kind (P : Platform) (j : minijail) (user : List Nat) :
    ∀ op ∈ enter_order P j user, Op.isActivation op = false ∧ Op.isInstall op = false ∧
      (Op.isGroups op = true →
        op = if j.flags.usergroups = true then Op.initgroups user j.usergid
          else Op.setgroups_none) := by
  intro op hop
  unfold enter_order at hop
  simp only [List.mem_append, List.mem_singleton] at hop
  rcases hop with h | h | h | h | h | h | h
  · split at h
    · simp only [List.mem_singleton] at h; subst h; exact ⟨rfl, rfl, fun hg => by simp [Op.isGroups] at hg⟩
    · simp at h
  · split at h
    · simp only [List.mem_cons, List.mem_singleton, List.not_mem_nil, or_false] at h
      rcases h with h | h <;> subst h <;>
        exact ⟨rfl, rfl, fun hg => by simp [Op.isGroups] at hg⟩
    · simp at h
  · split at h
    · simp only [List.mem_cons, List.mem_singleton, List.not_mem_nil, or_false] at h
      rcases h with h | h <;> subst h <;>
        exact ⟨rfl, rfl, fun hg => by simp [Op.isGroups] at hg⟩
    · simp at h
  · subst h
    cases j.flags.usergroups <;> exact ⟨rfl, rfl, fun _ => rfl⟩
  · split at h
    · simp only [List.mem_singleton] at h; subst h; exact ⟨rfl, rfl, fun hg => by simp [Op.isGroups] at hg⟩
    · simp at h
  · split at h
    · simp only [List.mem_singleton] at h; subst h; exact ⟨rfl, rfl, fun hg => by simp [Op.isGroups] at hg⟩
    · simp at h
  · split at h
    · obtain ⟨h1, h2, h3⟩ := drop_caps_ops_kind P j.caps op h
      exact ⟨h1, h3, fun hg => by rw [h2] at hg; simp at hg⟩
    · simp at h

theorem enter_order_groups_mem (P : Platform) (j : minijail) (user : List Nat) :
    (if j.flags.usergroups = true then Op.initgroups user j.usergid else Op.setgroups_none)
      ∈ enter_order P j user := by
  unfold enter_order
  simp

theorem enter_activation_kind (j : minijail) :
    ∀ op ∈ enter_activation j, Op.isActivation op = true ∧ Op.isGroups op = false := by
  intro op hop
  unfold enter_activation at hop
  rw [List.mem_append] at hop
  rcases hop with h | h
  · split at h
    · simp only [List.mem_singleton] at h; subst h; exact ⟨rfl, rfl⟩
    · simp at h
  · split at h
    · simp only [List.mem_singleton] at h; subst h; exact ⟨rfl, rfl⟩
    · simp at h

theorem install_kind (op : Op) (h : Op.isInstall op = true) :
    Op.isActivation op = false ∧ Op.isGroups op = false := by
  cases op <;> simp [Op.isInstall] at h
  exact ⟨rfl, rfl⟩

theorem run_enter_activation (j : minijail) (w : World) :
    (run (enter_activation j) w).proc = w.proc ∧
    (run (enter_activation j) w).dropped = w.dropped := by
  unfold enter_activation
  cases j.flags.seccomp_filter <;> cases j.flags.seccomp <;> exact ⟨rfl, rfl⟩

/-- C14. For every configuration with the PID-namespace flag set, on every
platform and whatever the system would answer, `minijail_enter` reaches `die`
with its diagnostic in the state it was called in: no call has been issued. -/
theorem enter_pid_namespace_aborts (P : Platform) (sys : List Op → Op → Nat) (h : Heap)
    (j : minijail) (w : World) (hp : j.flags.pids = true) :
    minijail_enter P sys h j w =
      .die "tried to enter a pid-namespaced jail; try minijail_run()?" w := by
  simp [minijail_enter, hp]

/-- C14 at `jail_pids`, a configuration with every identity flag and the
PID-namespace flag. -/
theorem enter_pid_namespace_aborts_witness :
    jail_pids.flags.pids = true ∧
    minijail_enter platform_x86 sys_ok heap_ab jail_pids world0 =
      .die "tried to enter a pid-namespaced jail; try minijail_run()?" world0 :=
  ⟨by decide, enter_pid_namespace_aborts platform_x86 sys_ok heap_ab jail_pids world0
    (by decide)⟩

/-- C15. When `minijail_enter` returns, the calls it made are a run `before`
without any `prctl(PR_SET_SECCOMP, ...)`, which holds every unshare, remount,
keep-caps, securebits, group, `setresgid`, `setresuid` and capability call,
followed by the activation calls and nothing else: `PR_SET_SECCOMP` with 13
when the filter-mode flag is set, then with 1 when the classic flag is set. -/
theorem seccomp_activation_last (P : Platform) (sys : List Op → Op → Nat) (h : Heap)
    (j : minijail) (w0 w : World) (he : minijail_enter P sys h j w0 = .ret w ()) :
    ∃ before, w.trace = w0.trace ++ before ++
        ((if j.flags.seccomp_filter = true then [Op.seccomp 13] else []) ++
          (if j.flags.seccomp = true then [Op.seccomp 1] else [])) ∧
      (∀ op ∈ before, Op.isActivation op = false) ∧
      (∀ op ∈ enter_order P j (user_name h j), op ∈ before) := by
  obtain ⟨_, _, installs, hall, hw⟩ := enter_ret P sys h j w0 w () he
  refine ⟨installs ++ enter_order P j (user_name h j), ?_, ?_, ?_⟩
  · rw [hw, run_trace]
    simp [enter_activation, List.append_assoc]
  · intro op hop
    rcases List.mem_append.mp hop with hi | ho
    · exact (install_kind op (hall op hi)).1
    · exact (enter_order_kind P j _ op ho).1
  · intro op hop
    exact List.mem_append.mpr (Or.inr hop)

/-- C16. When `minijail_enter` returns, the calls it made are the filter
installs, then exactly the calls of `enter_order`, then the seccomp
activation: the unshare of the mount namespace when `vfs` is set, the unmount
and read-only mount of /proc when `readonly` is set, keep-caps and the
securebits lock when `caps` is set, the supplementary groups, `setresgid` when
`gid` is set, `setresuid` when `uid` is set, the calls of `drop_caps` when
`caps` is set, in this order. -/
theorem enter_identity_change_order (P : Platform) (sys : List Op → Op → Nat) (h : Heap)
    (j : minijail) (w0 w : World) (he : minijail_enter P sys h j w0 = .ret w ()) :
    ∃ installs, (∀ op ∈ installs, Op.isInstall op = true) ∧
      w.trace = w0.trace ++ installs ++
        ((if j.flags.vfs = true then [Op.unshare_newns] else []) ++
        ((if j.flags.readonly = true then [Op.umount_proc, Op.mount_proc_readonly] else []) ++
        ((if j.flags.caps = true then [Op.keepcaps, Op.securebits] else []) ++
        ([if j.flags.usergroups = true then Op.initgroups (user_name h j) j.usergid
            else Op.setgroups_none] ++
        ((if j.flags.gid = true then [Op.setresgid j.gid] else []) ++
        ((if j.flags.uid = true then [Op.setresuid j.uid] else []) ++
        (if j.flags.caps = true then drop_caps_ops P j.caps else []))))))) ++
        enter_activation j := by
  obtain ⟨_, _, installs, hall, hw⟩ := enter_ret P sys h j w0 w () he
  have ht : w.trace = w0.trace ++ installs ++ enter_order P j (user_name h j) ++
      enter_activation j := by
    rw [hw, run_trace]
    simp [List.append_assoc]
  exact ⟨installs, hall, ht⟩

/-- C15 at `jail_full`, every call successful. -/
theorem seccomp_activation_last_witness :
    minijail_enter platform_x86 sys_ok heap_ab jail_full world0 = .ret world_full () ∧
    ∃ before, world_full.trace = world0.trace ++ before ++
        ((if jail_full.flags.seccomp_filter = true then [Op.seccomp 13] else []) ++
          (if jail_full.flags.seccomp = true then [Op.seccomp 1] else [])) ∧
      (∀ op ∈ before, Op.isActivation op = false) ∧
      (∀ op ∈ enter_order platform_x86 jail_full (user_name heap_ab jail_full),
        op ∈ before) :=
  ⟨by decide, seccomp_activation_last platform_x86 sys_ok heap_ab jail_full world0
    world_full (by decide)⟩

/-- C16 at `jail_full`, every call successful. -/
theorem enter_identity_change_order_witness :
    minijail_enter platform_x86 sys_ok heap_ab jail_full world0 = .ret world_full () ∧
    ∃ installs, (∀ op ∈ installs, Op.isInstall op = true) ∧
      world_full.trace = world0.trace ++ installs ++
        ((if jail_full.flags.vfs = true then [Op.unshare_newns] else []) ++
        ((if jail_full.flags.readonly = true then [Op.umount_proc, Op.mount_proc_readonly]
          else []) ++
        ((if jail_full.flags.caps = true then [Op.keepcaps, Op.securebits] else []) ++
        ([if jail_full.flags.usergroups = true then
            Op.initgroups (user_name heap_ab jail_full) jail_full.usergid
            else Op.setgroups_none] ++
        ((if jail_full.flags.gid = true then [Op.setresgid jail_full.gid] else []) ++
        ((if jail_full.flags.uid = true then [Op.setresuid jail_full.uid] else []) ++
        (if jail_full.flags.caps = true then drop_caps_ops platform_x86 jail_full.caps
          else []))))))) ++
        enter_activation jail_full :=
  ⟨by decide, enter_identity_change_order platform_x86 sys_ok heap_ab jail_full world0
    world_full (by decide)⟩

/-- C18, counterexample. With the empty capability mask, after a `drop_caps`
in which every call succeeds, capability 8 (`CAP_SETPCAP`) is in the effective,
permitted and inheritable sets of the process, although bit 8 of the mask is
clear: the first loop raises it whatever the mask is. -/
theorem drop_caps_setpcap_counterexample :
    ∃ w, drop_caps platform_x86 sys_ok { minijail_new with caps := 0 } world0 = .ret w () ∧
      w.proc = ⟨[8], [8], [8]⟩ ∧ Nat.testBit 0 8 = false ∧ 8 ≤ platform_x86.last_cap :=
  ⟨_, rfl, by decide, by decide, by decide⟩

/-- C18, amended. On a platform where `1 << i` is `2^i` for `i < 31`, after a
`drop_caps` that returns, every valid capability `i < 31` is in the effective,
the permitted and the inheritable set of the process exactly when bit `i` of
the mask is set or `i` is `CAP_SETPCAP`. -/
theorem drop_caps_retains_mask (P : Platform) (hP : P.Lawful) (sys : List Op → Op → Nat)
    (j : minijail) (w0 w : World) (hd : drop_caps P sys j w0 = .ret w ())
    (i : Nat) (hv : i ≤ P.last_cap) (h31 : i < 31) :
    (i ∈ w.proc.effective ↔ (j.caps.testBit i = true ∨ i = CAP_SETPCAP)) ∧
    (i ∈ w.proc.permitted ↔ (j.caps.testBit i = true ∨ i = CAP_SETPCAP)) ∧
    (i ∈ w.proc.inheritable ↔ (j.caps.testBit i = true ∨ i = CAP_SETPCAP)) := by
  have hw := drop_caps_ret P sys j w0 w () hd
  have hproc := (run_drop_caps_ops P j.caps w0).1
  rw [← hw] at hproc
  have hmem : i ∈ raised_caps P j.caps ↔ (j.caps.testBit i = true ∨ i = CAP_SETPCAP) := by
    unfold raised_caps
    rw [List.mem_filter, mem_cap_range, hP i h31]
    have h64 : i < 64 := by omega
    have hb := and_two_pow_ne_zero j.caps i
    by_cases h8 : i = CAP_SETPCAP
    · simp [h8, h64, hv]
      rw [← h8]; exact ⟨h64, hv⟩
    · by_cases hz : j.caps &&& 2 ^ i = 0
      · have : ¬ j.caps.testBit i = true := fun ht => (hb.mpr ht) hz
        simp [h8, hz, this]
      · have : j.caps.testBit i = true := hb.mp hz
        simp [h8, hz, this, h64, hv]
  rw [hproc]
  exact ⟨hmem, hmem, hmem⟩

/-- C18, amended, at capability 2 and the mask 5 of `jail_ab`. -/
theorem drop_caps_retains_mask_witness :
    platform_x86.Lawful ∧
    (∃ w, drop_caps platform_x86 sys_ok jail_ab world0 = .ret w () ∧
      2 ≤ platform_x86.last_cap ∧ 2 < 31 ∧
      ((2 ∈ w.proc.effective ↔ (jail_ab.caps.testBit 2 = true ∨ 2 = CAP_SETPCAP)) ∧
      (2 ∈ w.proc.permitted ↔ (jail_ab.caps.testBit 2 = true ∨ 2 = CAP_SETPCAP)) ∧
      (2 ∈ w.proc.inheritable ↔ (jail_ab.caps.testBit 2 = true ∨ 2 = CAP_SETPCAP)))) :=
  ⟨platform_x86_lawful,
    ⟨_, rfl, by decide, by decide,
      drop_caps_retains_mask platform_x86 platform_x86_lawful sys_ok jail_ab world0 _ rfl 2
        (by decide) (by decide)⟩⟩

/-! ## The privilege-drop engine: capabilities -/

theorem setpcap_and_two_pow (i : Nat) (h8 : i ≠ CAP_SETPCAP) : 256 &&& 2 ^ i = 0 := by
  rw [Nat.and_two_pow]
  have : Nat.testBit 256 i = false := by
    have e : (256 : Nat) = 2 ^ 8 := by norm_num
    rw [e, Nat.testBit_two_pow]
    simp only [decide_eq_false_iff_not]
    intro h
    exact h8 h.symm
  simp [this]

/-- Below capability 31, where `1 << i` has its value: when `minijail_enter`
returns on a configuration with the capability flag set and the mask that
holds `CAP_SETPCAP` only, every valid capability under 31 other than
`CAP_SETPCAP` is absent from the effective, permitted and inheritable sets of
the process and has been dropped from its bounding set. -/
theorem setpcap_only_below_31 (P : Platform) (hP : P.Lawful)
    (sys : List Op → Op → Nat) (h : Heap) (j : minijail) (w0 w : World)
    (hcaps : j.flags.caps = true) (hmask : j.caps = 2 ^ CAP_SETPCAP)
    (he : minijail_enter P sys h j w0 = .ret w ())
    (i : Nat) (h31 : i < 31) (hv : i ≤ P.last_cap) (h8 : i ≠ CAP_SETPCAP) :
    i ∉ w.proc.effective ∧ i ∉ w.proc.permitted ∧ i ∉ w.proc.inheritable ∧ i ∈ w.dropped := by
  obtain ⟨_, _, installs, _, hw⟩ := enter_ret P sys h j w0 w () he
  have hm : j.caps = 256 := by rw [hmask]; rfl
  have hz : j.caps &&& P.shl1 i = 0 := by
    rw [hm, hP i h31]
    exact setpcap_and_two_pow i h8
  have hsplit : enter_order P j (user_name h j) =
      ((if j.flags.vfs = true then [Op.unshare_newns] else []) ++
      ((if j.flags.readonly = true then [Op.umount_proc, Op.mount_proc_readonly] else []) ++
      ([Op.keepcaps, Op.securebits] ++
      ([if j.flags.usergroups = true then Op.initgroups (user_name h j) j.usergid
          else Op.setgroups_none] ++
      ((if j.flags.gid = true then [Op.setresgid j.gid] else []) ++
      (if j.flags.uid = true then [Op.setresuid j.uid] else [])))))) ++
      drop_caps_ops P j.caps := by
    simp [enter_order, hcaps, List.append_assoc]
  rw [hsplit] at hw
  rw [← List.append_assoc, ← List.append_assoc, run_append, run_append] at hw
  obtain ⟨a1, a2⟩ := run_enter_activation j
    (run (drop_caps_ops P j.caps) (run (installs ++
      ((if j.flags.vfs = true then [Op.unshare_newns] else []) ++
      ((if j.flags.readonly = true then [Op.umount_proc, Op.mount_proc_readonly] else []) ++
      ([Op.keepcaps, Op.securebits] ++
      ([if j.flags.usergroups = true then Op.initgroups (user_name h j) j.usergid
          else Op.setgroups_none] ++
      ((if j.flags.gid = true then [Op.setresgid j.gid] else []) ++
      (if j.flags.uid = true then [Op.setresuid j.uid] else []))))))) w0))
  rw [← hw] at a1 a2
  obtain ⟨p1, p2⟩ := run_drop_caps_ops P j.caps (run (installs ++
      ((if j.flags.vfs = true then [Op.unshare_newns] else []) ++
      ((if j.flags.readonly = true then [Op.umount_proc, Op.mount_proc_readonly] else []) ++
      ([Op.keepcaps, Op.securebits] ++
      ([if j.flags.usergroups = true then Op.initgroups (user_name h j) j.usergid
          else Op.setgroups_none] ++
      ((if j.flags.gid = true then [Op.setresgid j.gid] else []) ++
      (if j.flags.uid = true then [Op.setresuid j.uid] else []))))))) w0)
  rw [p1] at a1
  rw [p2] at a2
  have hnr : i ∉ raised_caps P j.caps := by
    unfold raised_caps
    rw [List.mem_filter]
    intro hc
    simp [h8, hz] at hc
  have hdr : i ∈ dropped_caps P j.caps := by
    unfold dropped_caps
    rw [List.mem_filter, mem_cap_range]
    exact ⟨⟨by omega, hv⟩, by simp [hz]⟩
  rw [a1, a2]
  exact ⟨hnr, hnr, hnr, List.mem_append.mpr (Or.inr hdr)⟩

/-- Whatever `int` value a platform gives `1 << 32`, the second loop of
`drop_caps` decides on capability 32 in the same way for the mask that has bit
32 only and for the mask that has bit 33 only. -/
theorem bounding_ignores_bit_32 (P : Platform)
    (hint : P.shl1 32 < 2 ^ 31 ∨ (2 ^ 64 - 2 ^ 31 ≤ P.shl1 32 ∧ P.shl1 32 < 2 ^ 64)) :
    (32 ∈ dropped_caps P (2 ^ 32) ↔ 32 ∈ dropped_caps P (2 ^ 33)) := by
  have key : (2 ^ 32 &&& P.shl1 32 = 0) ↔ (2 ^ 33 &&& P.shl1 32 = 0) := by
    rw [Nat.and_comm (2 ^ 32), Nat.and_comm (2 ^ 33), Nat.and_two_pow, Nat.and_two_pow,
      Nat.testBit_to_div_mod, Nat.testBit_to_div_mod]
    rcases hint with h | ⟨h1, h2⟩
    · have e1 : ¬ (P.shl1 32 / 2 ^ 32 % 2 = 1) := by omega
      have e2 : ¬ (P.shl1 32 / 2 ^ 33 % 2 = 1) := by omega
      rw [decide_eq_false e1, decide_eq_false e2]
      simp
    · have e1 : P.shl1 32 / 2 ^ 32 % 2 = 1 := by omega
      have e2 : P.shl1 32 / 2 ^ 33 % 2 = 1 := by omega
      rw [decide_eq_true e1, decide_eq_true e2]
      simp
  unfold dropped_caps
  rw [List.mem_filter, List.mem_filter]
  simp only [decide_eq_true_eq, key]

/-- C20, the code on a mask with a bit from 32 on. With the mask that has bit
32 only, `drop_caps` (every call succeeding) issues `PR_CAPBSET_DROP` for
capability 32, on the x86-64 platform and on the ARM one, although bit 32 of
the mask is set; and on x86-64 it issues none for capability 31 with the mask
that has bit 40 only, although bit 31 of that mask is clear. -/
theorem bounding_set_mask_not_64_bit :
    Nat.testBit (2 ^ 32) 32 = true ∧ 32 ≤ platform_x86.last_cap ∧
    (∃ w, drop_caps platform_x86 sys_ok { minijail_new with caps := 2 ^ 32 } world0 =
        .ret w () ∧ Op.capbset_drop 32 ∈ w.trace ∧ 32 ∈ w.dropped) ∧
    (∃ w, drop_caps platform_arm sys_ok { minijail_new with caps := 2 ^ 32 } world0 =
        .ret w () ∧ Op.capbset_drop 32 ∈ w.trace ∧ 32 ∈ w.dropped) ∧
    Nat.testBit (2 ^ 40) 31 = false ∧
    (∃ w, drop_caps platform_x86 sys_ok { minijail_new with caps := 2 ^ 40 } world0 =
        .ret w () ∧ Op.capbset_drop 31 ∉ w.trace ∧ 31 ∉ w.dropped) :=
  ⟨by decide, by decide, ⟨_, rfl, by decide, by decide⟩, ⟨_, rfl, by decide, by decide⟩,
    by decide, ⟨_, rfl, by decide, by decide⟩⟩

/-! ## The namespace init -/

/-- The loop of `init` over the pairs `ws`: the status kept is the last one
reaped for the tracked pid, or the one at the start. -/
theorem init_from_reaped (ERR_INIT rootpid : Int) (rest : List InitEvent) :
    ∀ (ws : List (Int × Nat)) (st : Nat), (∀ p ∈ ws, 0 < p.1) →
      init_from ERR_INIT rootpid st (reaped ws ++ rest) =
        init_from ERR_INIT rootpid ((tracked rootpid ws).getLast?.getD st) rest := by
  intro ws
  induction ws with
  | nil => intro st _; rfl
  | cons p ws ih =>
    intro st hpos
    have hp : 0 < p.1 := hpos p (List.mem_cons_self _ _)
    have hws : ∀ q ∈ ws, 0 < q.1 := fun q hq => hpos q (List.mem_cons_of_mem _ hq)
    have e : reaped (p :: ws) ++ rest = InitEvent.wait_ret p.1 p.2 :: (reaped ws ++ rest) := rfl
    rw [e]
    simp only [init_from, gt_iff_lt, hp, if_true]
    rw [ih _ hws]
    by_cases hr : p.1 = rootpid
    · have t : tracked rootpid (p :: ws) = p.2 :: tracked rootpid ws := by
        simp [tracked, List.filter_cons, hr]
      rw [t, List.getLast?_cons, if_pos hr]
      rfl
    · have t : tracked rootpid (p :: ws) = tracked rootpid ws := by
        simp [tracked, List.filter_cons, hr]
      rw [t, if_neg hr]

theorem tracked_filter (rootpid : Int) (ws : List (Int × Nat)) :
    tracked rootpid (ws.filter (fun p => decide (p.1 = rootpid))) = tracked rootpid ws := by
  simp [tracked, List.filter_filter]

theorem wifexited_exitcode (code : Nat) :
    WIFEXITED (W_EXITCODE code) = true ∧ WEXITSTATUS (W_EXITCODE code) = code % 256 := by
  constructor
  · simp only [WIFEXITED, W_EXITCODE, beq_iff_eq]; omega
  · simp only [WEXITSTATUS, W_EXITCODE]; omega

theorem wifexited_signaled (sig : Nat) (core : Bool) (h0 : 0 < sig) (h1 : sig < 128) :
    WIFEXITED (W_SIGNALED sig core) = false := by
  cases core <;> simp [WIFEXITED, W_SIGNALED] <;> omega
/-- C21, counterexample: when `wait` reports no more children before any
status of the tracked pid 7 was reaped (at once, or after a status of another
pid), `init` exits with 0 whatever `MINIJAIL_ERR_INIT` is, and so not with
`MINIJAIL_ERR_INIT` when that is 254. -/
theorem init_unreaped_counterexample :
    (∀ ERR_INIT : Int, init ERR_INIT 7 [InitEvent.wait_ret (-1) 0] = some 0) ∧
    (∀ ERR_INIT : Int,
      init ERR_INIT 7 (reaped [(9, W_EXITCODE 3)] ++ [InitEvent.wait_ret (-1) 0]) = some 0) ∧
    tracked 7 [(9, W_EXITCODE 3)] = [] ∧
    init 254 7 [InitEvent.wait_ret (-1) 0] ≠ some 254 := by
  refine ⟨fun _ => rfl, fun _ => rfl, by decide, by decide⟩

/-- C21, amended: for every sequence `ws` of pairs that `wait` returns before
it reports no more children, `init` exits; with the exit code of the tracked
child when the last status reaped for the tracked pid is a normal exit, with
`MINIJAIL_ERR_INIT` when that status is a death by signal, and with 0 (the
initial value of `init_exitstatus`) when no status of the tracked pid was
reaped; the statuses of the other pids do not change the result. -/
theorem init_exit_status (ERR_INIT rootpid : Int) (ws : List (Int × Nat))
    (hpos : ∀ p ∈ ws, 0 < p.1) (last : Int) (hlast : last ≤ 0) (s : Nat)
    (rest : List InitEvent) :
    (∀ st, (tracked rootpid ws).getLast? = some st →
      init ERR_INIT rootpid (reaped ws ++ InitEvent.wait_ret last s :: rest) =
        some (if WIFEXITED st = true then (WEXITSTATUS st : Int) else ERR_INIT)) ∧
    (∀ code, code < 256 → (tracked rootpid ws).getLast? = some (W_EXITCODE code) →
      init ERR_INIT rootpid (reaped ws ++ InitEvent.wait_ret last s :: rest) =
        some (code : Int)) ∧
    (∀ sig core, 0 < sig → sig < 128 →
      (tracked rootpid ws).getLast? = some (W_SIGNALED sig core) →
      init ERR_INIT rootpid (reaped ws ++ InitEvent.wait_ret last s :: rest) =
        some ERR_INIT) ∧
    (tracked rootpid ws = [] →
      init ERR_INIT rootpid (reaped ws ++ InitEvent.wait_ret last s :: rest) = some 0) ∧
    init ERR_INIT rootpid (reaped ws ++ InitEvent.wait_ret last s :: rest) =
      init ERR_INIT rootpid
        (reaped (ws.filter (fun p => decide (p.1 = rootpid))) ++
          InitEvent.wait_ret last s :: rest) := by
  have hl : ¬ last > 0 := by omega
  have key : ∀ st0, init_from ERR_INIT rootpid st0 (InitEvent.wait_ret last s :: rest) =
      some (if WIFEXITED st0 = true then (WEXITSTATUS st0 : Int) else ERR_INIT) := by
    intro st0
    simp only [init_from, hl, if_false]
    cases WIFEXITED st0 <;> simp
  have hgen : ∀ st, (tracked rootpid ws).getLast? = some st →
      init ERR_INIT rootpid (reaped ws ++ InitEvent.wait_ret last s :: rest) =
        some (if WIFEXITED st = true then (WEXITSTATUS st : Int) else ERR_INIT) := by
    intro st hst
    unfold init
    rw [init_from_reaped ERR_INIT rootpid _ ws 0 hpos, hst]
    exact key st
  refine ⟨hgen, ?_, ?_, ?_, ?_⟩
  · intro code hc hst
    rw [hgen _ hst, (wifexited_exitcode code).1, (wifexited_exitcode code).2,
      Nat.mod_eq_of_lt hc]
    rfl
  · intro sig core h0 h1 hst
    rw [hgen _ hst, wifexited_signaled sig core h0 h1]
    rfl
  · intro hnone
    unfold init
    rw [init_from_reaped ERR_INIT rootpid _ ws 0 hpos, hnone]
    exact key 0
  · unfold init
    rw [init_from_reaped ERR_INIT rootpid _ ws 0 hpos,
      init_from_reaped ERR_INIT rootpid _ _ 0
        (fun p hp => hpos p (List.mem_of_mem_filter hp)),
      tracked_filter]

/-- C21 at three reaped children, the tracked one having ended by `exit(3)`. -/
theorem init_exit_status_witness :
    (∀ p ∈ [((9 : Int), W_SIGNALED 9 false), (7, W_EXITCODE 3), (8, W_EXITCODE 0)],
      0 < p.1) ∧ (-1 : Int) ≤ 0 ∧ 3 < 256 ∧
    (tracked 7 [(9, W_SIGNALED 9 false), (7, W_EXITCODE 3), (8, W_EXITCODE 0)]).getLast? =
      some (W_EXITCODE 3) ∧
    init 254 7 (reaped [(9, W_SIGNALED 9 false), (7, W_EXITCODE 3), (8, W_EXITCODE 0)] ++
      InitEvent.wait_ret (-1) 0 :: []) = some ((3 : Nat) : Int) :=
  ⟨by decide, by decide, by decide, by decide,
    (init_exit_status 254 7 [(9, W_SIGNALED 9 false), (7, W_EXITCODE 3), (8, W_EXITCODE 0)]
      (by decide) (-1) (by decide) 0 []).2.1 3 (by decide) (by decide)⟩

/-- The handler passes the status `wait` stored, not the exit code in it, to
`_exit`: after the tracked child ended by `exit(3)`, a `SIGTERM` makes `init`
call `_exit(768)`, which a parent reads as exit status 0, where the end of
`init` calls `_exit(3)`. -/
theorem init_term_passes_wait_status :
    init 254 7 [InitEvent.wait_ret 7 (W_EXITCODE 3), InitEvent.sigterm] = some 768 ∧
    exit_code 768 = 0 ∧
    init 254 7 [InitEvent.wait_ret 7 (W_EXITCODE 3), InitEvent.wait_ret (-1) 0] = some 3 := by
  decide

/-- C22, counterexample: a `SIGTERM` delivered before any status of the tracked
child was recorded makes `init` exit with 0, whatever `MINIJAIL_ERR_INIT` is
(254 in particular). -/
theorem init_sigterm_counterexample :
    (∀ ERR_INIT : Int, init ERR_INIT 7 [InitEvent.sigterm] = some 0) ∧
    (∀ ERR_INIT : Int,
      init ERR_INIT 7 (reaped [(9, W_SIGNALED 9 false)] ++ [InitEvent.sigterm]) = some 0) ∧
    init 254 7 [InitEvent.sigterm] ≠ some 254 := by
  refine ⟨fun _ => rfl, fun _ => rfl, by decide⟩

/-! ## The privilege-drop engine: the installation of the filters -/

theorem entries_at_cons (h : Heap) (p : Nat) (ps : List Nat) (nd : seccomp_filter)
    (hn : h.node p = some nd) :
    entries_at h (p :: ps) = (nd.nr, nd.filter) :: entries_at h ps := by
  simp [entries_at, List.filterMap_cons, hn]

/-- When the system accepts every install, the loop of `setup_seccomp_filters`
from entry `i` of a well-formed collection makes one install call for each
entry from `i` on, in order, each with the entry's own text, and ends with 0. -/
theorem setup_loop_ok (sys : List Op → Op → Nat) (h : Heap) (first : Nat) (ps : List Nat)
    (hr : Ring h first ps) (hsys : ∀ t nr f, sys t (Op.seccomp_filter nr f) = 0) :
    ∀ k i (hi : i < ps.length), i + k + 1 = ps.length → ∀ fuel, k < fuel → ∀ w,
      setup_loop sys h first fuel ps[i] false w =
        .ret (run (installs_of h (ps.drop i)) w) 0 := by
  have hne : ps ≠ [] → first ≠ 0 := fun hne h0 => hne ((ring_first h first ps hr).1.mpr h0)
  intro k
  induction k with
  | zero =>
    intro i hi hk fuel hf w
    obtain ⟨nd, hnd, hnext, _⟩ := ring_at h first ps hr i hi
    obtain ⟨fuel, rfl⟩ : ∃ f, fuel = f + 1 := ⟨fuel - 1, by omega⟩
    have h1 : ps[i + 1]? = none := List.getElem?_eq_none (by omega)
    rw [h1] at hnext
    simp only [Option.getD_none] at hnext
    have hd : ps.drop i = [ps[i]] := by
      rw [List.drop_eq_getElem_cons hi, List.drop_of_length_le (by omega)]
    rw [hd, installs_of, entries_at_cons h _ _ nd hnd]
    simp [setup_loop, hnd, hnext, issue, hsys, run, effect, entries_at]
  | succ k ih =>
    intro i hi hk fuel hf w
    obtain ⟨nd, hnd, hnext, _⟩ := ring_at h first ps hr i hi
    obtain ⟨fuel, rfl⟩ : ∃ f, fuel = f + 1 := ⟨fuel - 1, by omega⟩
    have hi1 : i + 1 < ps.length := by omega
    have h1 : ps[i + 1]? = some ps[i + 1] := List.getElem?_eq_getElem hi1
    rw [h1] at hnext
    simp only [Option.getD_some] at hnext
    have hpos : 0 < ps.length := by omega
    have hfirst : ps[0] = first := by
      have h0 := (ring_first h first ps hr).2 (hne (List.ne_nil_of_length_pos hpos))
      rw [List.getElem?_eq_getElem hpos] at h0
      exact Option.some.inj h0
    have hneq : nd.next ≠ first := by
      rw [hnext, ← hfirst]
      intro he
      have := (List.Nodup.getElem_inj_iff hr.2.1).mp he
      omega
    have hrec := ih (i + 1) hi1 (by omega) fuel (by omega)
    rw [List.drop_eq_getElem_cons hi, installs_of, entries_at_cons h _ _ nd hnd,
      List.map_cons, run_cons]
    simp only [setup_loop, hnd, issue, hsys, ne_eq, not_true_eq_false, if_false,
      Bool.false_eq_true, hneq, not_false_eq_true, if_true]
    rw [hnext, hrec]
    rfl

/-- When the system accepts every install, `setup_seccomp_filters` on a
well-formed collection makes one install call per entry, in the order of the
collection, and returns 0. -/
theorem setup_ok (sys : List Op → Op → Nat) (h : Heap) (j : minijail) (ps : List Nat)
    (hr : Ring h j.filters ps) (hsys : ∀ t nr f, sys t (Op.seccomp_filter nr f) = 0)
    (w : World) :
    setup_seccomp_filters sys h j w = .ret (run (installs_of h ps) w) 0 := by
  unfold setup_seccomp_filters
  by_cases h0 : j.filters = 0
  · have := (ring_first h _ ps hr).1.mpr h0
    simp [h0, this, installs_of, entries_at, run]
  · have hps : ps ≠ [] := fun he => h0 ((ring_first h _ ps hr).1.mp he)
    have hpos : 0 < ps.length := List.length_pos.mpr hps
    have h0' := (ring_first h _ ps hr).2 h0
    rw [List.getElem?_eq_getElem hpos] at h0'
    have hw := setup_loop_ok sys h _ ps hr hsys (ps.length - 1) 0 hpos (by omega)
      (2 * h.nodes.length + 1) (by have := ring_length_le h _ ps hr; omega) w
    rw [Option.some.inj h0'] at hw
    simpa [h0] using hw

/-- An `ENOSYS` on the first entry: the `continue` of the `do ... while` goes
to the test `sf != j->filters`, which fails for the first entry, so the loop
ends after this one call and `setup_seccomp_filters` returns the -1 of the
`prctl`. -/
theorem setup_first_enosys (sys : List Op → Op → Nat) (h : Heap) (j : minijail) (w : World)
    (nd : seccomp_filter) (hn : h.node j.filters = some nd)
    (hsys : sys w.trace (Op.seccomp_filter nd.nr nd.filter) = 38) :
    setup_seccomp_filters sys h j w =
      .ret { w with trace := w.trace ++ [Op.seccomp_filter nd.nr nd.filter] } (-1) := by
  have h0 : j.filters ≠ 0 := by
    intro h0
    rw [h0, node_zero] at hn
    cases hn
  simp [setup_seccomp_filters, h0, setup_loop, hn, issue, hsys, ENOSYS]

/-- C25: on a kernel that answers `ENOSYS`, the install of the first entry of
the collection (syscall 3, "a == 1") is not retried: `setup_seccomp_filters`
returns -1 after that one call, and `minijail_enter` aborts when the filter
flag is set, and goes on with no filter installed when it is clear. The same
entry in second place is retried with "1" and the installation returns 0. -/
theorem first_entry_enosys_not_retried :
    setup_seccomp_filters sys_enosys heap_two jail_two world0 =
      .ret { world0 with trace := [Op.seccomp_filter 3 (lit "a == 1")] } (-1) ∧
    minijail_enter platform_x86 sys_enosys heap_two jail_two world0 =
      .die "failed to configure seccomp filters"
        { world0 with trace := [Op.seccomp_filter 3 (lit "a == 1")] } ∧
    minijail_enter platform_x86 sys_enosys heap_two
        { jail_two with flags := Flags.zero } world0 =
      .ret { world0 with
        trace := [Op.seccomp_filter 3 (lit "a == 1"), Op.setgroups_none] } () ∧
    setup_seccomp_filters sys_enosys heap_two_swapped jail_two world0 =
      .ret { world0 with
        trace := [Op.seccomp_filter 2 (lit "1"), Op.seccomp_filter 3 (lit "a == 1"),
          Op.seccomp_filter 3 (lit "1")] } 0 := by
  decide

theorem preexec_flags (j : minijail) :
    (minijail_preexec j).1.flags =
      { Flags.zero with vfs := j.flags.vfs, readonly := j.flags.readonly } ∧
    (minijail_preexec j).1.user = 0 ∧ (minijail_preexec j).1.filters = j.filters :=
  ⟨rfl, rfl, rfl⟩

theorem enter_struct_ret (P : Platform) (sys : List Op → Op → Nat) (h : Heap) (j j' : minijail)
    (w w' : World) (u : Unit) (he : enter_struct P sys h j w = .ret (w', j') u) :
    j' = j ∧ minijail_enter P sys h j w = .ret w' u := by
  unfold enter_struct at he
  cases hm : minijail_enter P sys h j w with
  | undef => rw [hm] at he; cases he
  | die msg w1 => rw [hm] at he; cases he
  | ret w1 u1 =>
    rw [hm] at he
    injection he with h1 h2
    injection h1 with h3 h4
    subst h3; subst h4
    exact ⟨rfl, rfl⟩

/-- A child of `minijail_run` that gets past `minijail_enter`: the struct is
the one `minijail_preexec` left, and `minijail_enter` returned on it. -/
theorem run_child_ret (P : Platform) (sys : List Op → Op → Nat) (fork : Int) (h : Heap)
    (j j' : minijail) (w0 w : World) (e : ChildEnd)
    (hc : run_child P sys fork h j w0 = .ret (w, j') e) :
    j' = (minijail_preexec j).1 ∧
    minijail_enter P sys h (minijail_preexec j).1 w0 = .ret w () := by
  unfold run_child at hc
  obtain ⟨s1, u, he, hrest⟩ := andThen_ret _ _ _ _ hc
  obtain ⟨w1, j1⟩ := s1
  obtain ⟨hj, hen⟩ := enter_struct_ret P sys h _ j1 w0 w1 u he
  have hs : (w1, j1) = (w, j') := by
    split at hrest
    · split at hrest
      · injection hrest
      · split at hrest <;> injection hrest
    · injection hrest
  injection hs with h1 h2
  subst h1; subst h2
  exact ⟨hj, hen⟩

/-- On a configuration stripped by `minijail_preexec`, `minijail_enter` is the
installation, the two namespace steps and `setgroups(0, NULL)`: the test of
the PID-namespace flag does not fire, and the steps of the cleared flags are
skipped. -/
theorem enter_preexec (P : Platform) (sys : List Op → Op → Nat) (h : Heap) (j : minijail)
    (w : World) :
    minijail_enter P sys h (minijail_preexec j).1 w = enter_stripped sys h j w := by
  unfold minijail_enter enter_stripped
  have e0 : setup_seccomp_filters sys h (minijail_preexec j).1 w =
      setup_seccomp_filters sys h j w := rfl
  rw [e0]
  simp only [minijail_preexec, Flags.zero, Bool.false_eq_true, if_false, false_and]
  cases setup_seccomp_filters sys h j w with
  | undef => rfl
  | die msg s => rfl
  | ret w1 r =>
    simp only [Outcome.andThen]
    cases hv : (if j.flags.vfs = true then perform sys Op.unshare_newns "unshare" w1
        else Outcome.ret w1 ()) with
    | undef => rfl
    | die msg s => rfl
    | ret w2 u2 =>
      simp only []
      cases hro : (if j.flags.readonly = true then
          if (remount_readonly sys w2).2 ≠ 0 then
            Outcome.die "remount" (remount_readonly sys w2).1
          else Outcome.ret (remount_readonly sys w2).1 ()
        else Outcome.ret w2 ()) with
      | undef => rfl
      | die msg s => rfl
      | ret w3 u3 =>
        simp only []
        cases perform sys Op.setgroups_none "setgroups" w3 <;> rfl

theorem perform_ok (sys : List Op → Op → Nat) (op : Op) (msg : String) (w : World)
    (h0 : sys w.trace op = 0) : perform sys op msg w = .ret (run [op] w) () := by
  simp [perform, issue, h0, run]

theorem remount_ok (sys : List Op → Op → Nat) (w : World) (h0 : ∀ t op, sys t op = 0) :
    remount_readonly sys w = (run [Op.umount_proc, Op.mount_proc_readonly] w, 0) := by
  simp [remount_readonly, issue, h0, run, effect]

/-- The stripped Enter when every call succeeds. -/
theorem enter_stripped_ok (sys : List Op → Op → Nat) (h : Heap) (j : minijail)
    (ps : List Nat) (hr : Ring h j.filters ps) (h0 : ∀ t op, sys t op = 0) (w : World) :
    enter_stripped sys h j w =
      .ret (run (installs_of h ps ++ (namespace_ops j ++ [Op.setgroups_none])) w) () := by
  unfold enter_stripped
  rw [setup_ok sys h j ps hr (fun t nr f => h0 t _) w]
  simp only [Outcome.andThen, namespace_ops]
  cases hv : j.flags.vfs <;> cases hro : j.flags.readonly <;>
    simp [perform_ok, remount_ok, h0, Outcome.andThen, run_append] <;> rfl
/-- C23, counterexample: `minijail_enter` on a configuration with every mode
flag but `pids` set returns with the struct as it was: the uid, gid, caps,
seccomp, seccomp_filter, usergroups and ptrace flags are still set. -/
theorem enter_keeps_flags_counterexample :
    enter_struct platform_x86 sys_ok heap_ab jail_full world0 =
      .ret (world_full, jail_full) () ∧
    jail_full.flags.uid = true ∧ jail_full.flags.gid = true ∧ jail_full.flags.caps = true ∧
    jail_full.flags.seccomp = true ∧ jail_full.flags.seccomp_filter = true ∧
    jail_full.flags.usergroups = true ∧ jail_full.flags.ptrace = true := by
  have he : minijail_enter platform_x86 sys_ok heap_ab jail_full world0 =
      .ret world_full () := by decide
  refine ⟨?_, by decide, by decide, by decide, by decide, by decide, by decide, by decide⟩
  simp only [enter_struct, he]

/-- C23, amended: it is `minijail_preexec` that clears every mode flag other
than vfs and readonly (uid, gid, caps, seccomp, seccomp_filter, pids,
usergroups and ptrace are 0 after it) and keeps the values of these two;
`minijail_enter` leaves the struct as it was, whether it returns or aborts; so
in the child of `minijail_run`, which calls the one and then the other, the
struct after `minijail_enter` has every mode flag other than vfs and readonly
cleared. -/
theorem preexec_clears_mode_flags (P : Platform) (sys : List Op → Op → Nat) (fork : Int)
    (h : Heap) (j : minijail) (w0 : World) :
    ((minijail_preexec j).1.flags.uid = false ∧ (minijail_preexec j).1.flags.gid = false ∧
      (minijail_preexec j).1.flags.caps = false ∧
      (minijail_preexec j).1.flags.seccomp = false ∧
      (minijail_preexec j).1.flags.seccomp_filter = false ∧
      (minijail_preexec j).1.flags.pids = false ∧
      (minijail_preexec j).1.flags.usergroups = false ∧
      (minijail_preexec j).1.flags.ptrace = false ∧
      (minijail_preexec j).1.flags.vfs = j.flags.vfs ∧
      (minijail_preexec j).1.flags.readonly = j.flags.readonly) ∧
    (∀ w j', enter_struct P sys h j w0 = .ret (w, j') () → j' = j) ∧
    (∀ msg w j', enter_struct P sys h j w0 = .die msg (w, j') → j' = j) ∧
    (∀ w j' e, run_child P sys fork h j w0 = .ret (w, j') e →
      j'.flags = { Flags.zero with vfs := j.flags.vfs, readonly := j.flags.readonly }) := by
  refine ⟨⟨rfl, rfl, rfl, rfl, rfl, rfl, rfl, rfl, rfl, rfl⟩, ?_, ?_, ?_⟩
  · intro w j' he
    exact (enter_struct_ret P sys h j j' w0 w () he).1
  · intro msg w j' he
    unfold enter_struct at he
    cases hm : minijail_enter P sys h j w0 with
    | undef => rw [hm] at he; cases he
    | ret w1 u1 => rw [hm] at he; cases he
    | die m1 w1 =>
      rw [hm] at he
      injection he with _ h2
      injection h2 with _ h4
      exact h4.symm
  · intro w j' e hc
    rw [(run_child_ret P sys fork h j j' w0 w e hc).1]
    rfl

theorem enter_order_preexec (P : Platform) (j : minijail) (u : List Nat) :
    enter_order P (minijail_preexec j).1 u ++ enter_activation (minijail_preexec j).1 =
      namespace_ops j ++ [Op.setgroups_none] := by
  cases hv : j.flags.vfs <;> cases hro : j.flags.readonly <;>
    simp [enter_order, enter_activation, minijail_preexec, Flags.zero, namespace_ops, hv, hro]

/-- C26, counterexample: on a configuration with the vfs, readonly and pids
flags, the child path of `minijail_run` keeps vfs and readonly in the struct,
and its `minijail_enter` issues the unshare and the /proc remount (and aborts
when the unshare fails). -/
theorem run_child_unshares_counterexample :
    jail_ns.flags.vfs = true ∧ jail_ns.flags.readonly = true ∧ jail_ns.flags.pids = true ∧
    run_child platform_x86 sys_ok 7 heap_ab jail_ns world0 =
      .ret ({ world0 with
          trace := [Op.unshare_newns, Op.umount_proc, Op.mount_proc_readonly,
            Op.setgroups_none] },
        { jail_ns with
          user := 0, flags := { Flags.zero with vfs := true, readonly := true } })
        (ChildEnd.becomes_init 7) ∧
    run_child platform_x86 sys_no_unshare 7 heap_ab jail_ns world0 =
      .die "unshare"
        ({ world0 with trace := [Op.unshare_newns] },
          { jail_ns with
            user := 0, flags := { Flags.zero with vfs := true, readonly := true } }) := by
  decide

/-- C26, amended: in the child path of `minijail_run`, `minijail_preexec`
clears the pids flag and keeps vfs and readonly, so the `minijail_enter` of the
child does not abort on the PID-namespace check, and it is the installation of
the filters, then the mount-namespace unshare exactly when vfs was set, the
/proc remount exactly when readonly was set, and `setgroups(0, NULL)`; when
every call succeeds the child gets past it with exactly these calls made.
Clearing vfs, readonly and pids is what `minijail_preenter` does. -/
theorem run_child_enter (P : Platform) (sys : List Op → Op → Nat) (fork : Int) (h : Heap)
    (j : minijail) (ps : List Nat) (w0 : World) (hr : Ring h j.filters ps) :
    ((minijail_preexec j).1.flags.pids = false ∧
      (minijail_preexec j).1.flags.vfs = j.flags.vfs ∧
      (minijail_preexec j).1.flags.readonly = j.flags.readonly) ∧
    minijail_enter P sys h (minijail_preexec j).1 w0 = enter_stripped sys h j w0 ∧
    (∀ w j' e, run_child P sys fork h j w0 = .ret (w, j') e →
      ∃ installs, (∀ op ∈ installs, Op.isInstall op = true) ∧
        w.trace = w0.trace ++ installs ++ (namespace_ops j ++ [Op.setgroups_none])) ∧
    ((∀ t op, sys t op = 0) →
      ∃ e, run_child P sys fork h j w0 =
        .ret (run (installs_of h ps ++ (namespace_ops j ++ [Op.setgroups_none])) w0,
          (minijail_preexec j).1) e) ∧
    (Op.unshare_newns ∈ namespace_ops j ↔ j.flags.vfs = true) ∧
    (Op.umount_proc ∈ namespace_ops j ↔ j.flags.readonly = true) ∧
    (Op.mount_proc_readonly ∈ namespace_ops j ↔ j.flags.readonly = true) ∧
    (minijail_preenter j).flags =
      { j.flags with vfs := false, readonly := false, pids := false } := by
  refine ⟨⟨rfl, rfl, rfl⟩, enter_preexec P sys h j w0, ?_, ?_, ?_, ?_, ?_, rfl⟩
  · intro w j' e hc
    obtain ⟨_, hen⟩ := run_child_ret P sys fork h j j' w0 w e hc
    obtain ⟨_, _, installs, hall, hw⟩ := enter_ret P sys h _ w0 w () hen
    refine ⟨installs, hall, ?_⟩
    rw [hw, run_trace, enter_order_preexec, List.append_assoc]
  · intro h0
    have he : enter_struct P sys h (minijail_preexec j).1 w0 =
        .ret (run (installs_of h ps ++ (namespace_ops j ++ [Op.setgroups_none])) w0,
          (minijail_preexec j).1) () := by
      unfold enter_struct
      rw [enter_preexec, enter_stripped_ok sys h j ps hr h0]
    unfold run_child
    simp only [he, Outcome.andThen]
    by_cases hp : j.flags.pids = true
    · rw [if_pos hp]
      by_cases hf : fork < 0
      · rw [if_pos hf]; exact ⟨_, rfl⟩
      · rw [if_neg hf]
        by_cases hg : fork > 0
        · rw [if_pos hg]; exact ⟨_, rfl⟩
        · rw [if_neg hg]; exact ⟨_, rfl⟩
    · rw [if_neg hp]; exact ⟨_, rfl⟩
  · cases hv : j.flags.vfs <;> cases hro : j.flags.readonly <;> simp [namespace_ops, hv, hro]
  · cases hv : j.flags.vfs <;> cases hro : j.flags.readonly <;> simp [namespace_ops, hv, hro]
  · cases hv : j.flags.vfs <;> cases hro : j.flags.readonly <;> simp [namespace_ops, hv, hro]

/-- C26 at `jail_ns`, every call successful. -/
theorem run_child_enter_witness :
    Ring heap_ab jail_ns.filters [] ∧
    (∀ w j' e, run_child platform_x86 sys_ok 0 heap_ab jail_ns world0 = .ret (w, j') e →
      ∃ installs, (∀ op ∈ installs, Op.isInstall op = true) ∧
        w.trace = world0.trace ++ installs ++ (namespace_ops jail_ns ++ [Op.setgroups_none])) ∧
    run_child platform_x86 sys_ok 0 heap_ab jail_ns world0 =
      .ret ({ world0 with
          trace := [Op.unshare_newns, Op.umount_proc, Op.mount_proc_readonly,
            Op.setgroups_none] },
        (minijail_preexec jail_ns).1) ChildEnd.execs :=
  ⟨by decide,
    (run_child_enter platform_x86 sys_ok 0 heap_ab jail_ns [] world0 (by decide)).2.2.1,
    by decide⟩

/-! ## The filter file: `strip` and the bounds of its string -/

/-- C28: `strip` leaves its string. On the name field of a blank line, "\n"
at the start of the array, and on the empty string, the backward loop reads the
byte before the first character, outside the array. With the string " \n"
after a byte `x`, it reads that byte, and the pointer it returns designates
"\n", a string that ends in a newline; after a blank instead of `x` it goes on
below the array. On the empty string after a newline byte it stores the
terminator on that byte, before the first character. A blank line in a filter
file makes the loop body of the parser do the first of these, and what becomes
of the line depends on the bytes under the array. -/
theorem strip_leaves_its_string :
    strip (lit "\n" ++ [0]) 0 = none ∧
    strip [0] 0 = none ∧
    strip (lit "x \n" ++ [0]) 1 = some (lit "x" ++ [0] ++ lit "\n" ++ [0], 2) ∧
    cstr ((lit "x" ++ [0] ++ lit "\n" ++ [0]).drop 2) = lit "\n" ∧
    strip (lit "  \n" ++ [0]) 1 = none ∧
    strip (lit "x\n" ++ [0]) 2 = some (lit "x" ++ [0, 0], 2) ∧
    parse_line 512 sample_table (true, true) (Heap.empty, minijail_new) (lit "\n" ++ [0]) =
      .undef ∧
    parse_line_below (lit "\n") 512 sample_table (true, true) (Heap.empty, minijail_new)
      (lit "\n" ++ [0]) = .undef ∧
    parse_line_below (lit "x") 512 sample_table (true, true) (Heap.empty, minijail_new)
      (lit "\n" ++ [0]) = .ret (Heap.empty, minijail_new) () ∧
    parse_line_below (lit "x\n") 512 sample_table (true, true) (Heap.empty, minijail_new)
      (lit "\n" ++ [0]) = .die "invalid filter on line %d" (Heap.empty, minijail_new) := by
  decide

/-! ## The filter list stays well formed -/

/-- A rejected call leaves the heap and the configuration as they were. -/
theorem add_seccomp_filter_rejected (MAX : Nat) (h : Heap) (j : minijail) (c : AddCall)
    (hc : c.accepted = false) :
    ∃ r, minijail_add_seccomp_filter MAX c.mallocOk c.strndupOk h j c.nr c.filter =
      .ret (h, j) r := by
  unfold minijail_add_seccomp_filter
  unfold AddCall.accepted at hc
  cases hf : c.filter with
  | none => exact ⟨_, rfl⟩
  | some t =>
    simp only []
    by_cases hn : c.nr < 0
    · rw [if_pos hn]; exact ⟨_, rfl⟩
    · rw [if_neg hn]
      cases hm : c.mallocOk with
      | false => exact ⟨_, rfl⟩
      | true =>
        cases hs : c.strndupOk with
        | false => exact ⟨_, rfl⟩
        | true =>
          have : 0 ≤ c.nr := by omega
          simp [hf, hm, hs, this] at hc

theorem entries_at_append (h : Heap) (a b : List Nat) :
    entries_at h (a ++ b) = entries_at h a ++ entries_at h b := by
  simp [entries_at, List.filterMap_append]

/-- A sequence of calls from a well-formed collection: every call returns, the
collection stays well formed, and its entries are the ones it had followed by
those of the accepted calls, in order. -/
theorem add_calls_ring (MAX : Nat) (calls : List AddCall) :
    ∀ (h : Heap) (j : minijail) (ps : List Nat), Ring h j.filters ps →
      ∃ h' j' qs, add_calls MAX (h, j) calls = .ret (h', j') () ∧
        Ring h' j'.filters (ps ++ qs) ∧
        entries_at h' (ps ++ qs) = entries_at h ps ++ added MAX calls ∧
        qs.length = (added MAX calls).length := by
  induction calls with
  | nil =>
    intro h j ps hr
    exact ⟨h, j, [], rfl, by simpa using hr, by simp [added], rfl⟩
  | cons c rest ih =>
    intro h j ps hr
    cases hc : c.accepted with
    | false =>
      obtain ⟨r, hrej⟩ := add_seccomp_filter_rejected MAX h j c hc
      obtain ⟨h', j', qs, h1, h2, h3, h4⟩ := ih h j ps hr
      refine ⟨h', j', qs, ?_, h2, ?_, ?_⟩
      · simp only [add_calls, hrej]
        exact h1
      · rw [h3]; simp [added, List.filter_cons, hc]
      · rw [h4]; simp [added, List.filter_cons, hc]
    | true =>
      unfold AddCall.accepted at hc
      simp only [Bool.and_eq_true, decide_eq_true_eq] at hc
      obtain ⟨⟨⟨hsome, hnr⟩, hm⟩, hs⟩ := hc
      obtain ⟨t, ht⟩ := Option.isSome_iff_exists.mp hsome
      obtain ⟨h1, j1, hadd, _, hring, _, _, hnew, hold⟩ :=
        add_seccomp_filter_ring MAX h j c.nr t ps hr hnr
      obtain ⟨h', j', qs, e1, e2, e3, e4⟩ := ih h1 j1 (ps ++ [h.nodes.length + 1]) hring
      have hacc : c.accepted = true := by
        simp [AddCall.accepted, hsome, hnr, hm, hs]
      have hcons : added MAX (c :: rest) = (c.nr, (cstr t).take MAX) :: added MAX rest := by
        simp [added, List.filter_cons, hacc, ht]
      have hent : entries_at h1 (ps ++ [h.nodes.length + 1]) =
          entries_at h ps ++ [(c.nr, (cstr t).take MAX)] := by
        rw [entries_at_append]
        congr 1
        · apply entries_at_congr
          intro p hp
          apply hold
          have := ring_ptr_le h _ ps hr p hp
          omega
        · cases hn : h1.node (h.nodes.length + 1) with
          | none => rw [hn] at hnew; cases hnew
          | some nd =>
            rw [hn] at hnew
            simp only [Option.map_some', Option.some.injEq] at hnew
            simp [entries_at, hn, hnew, strndup_eq]
      refine ⟨h', j', (h.nodes.length + 1) :: qs, ?_, ?_, ?_, ?_⟩
      · simp only [add_calls, hm, hs, ht, hadd]
        exact e1
      · simpa using e2
      · have : ps ++ (h.nodes.length + 1) :: qs = ps ++ [h.nodes.length + 1] ++ qs := by simp
        rw [this, e3, hent, hcons]
        simp
      · rw [hcons]; simp [e4]

/-- In a well-formed collection every entry is the `prev` of its `next` and
the `next` of its `prev`. -/
theorem ring_links (h : Heap) (first : Nat) (ps : List Nat) (hr : Ring h first ps)
    (i : Nat) (hi : i < ps.length) :
    ∃ n nx pv, h.node ps[i] = some n ∧ h.node n.next = some nx ∧ nx.prev = ps[i] ∧
      h.node n.prev = some pv ∧ pv.next = ps[i] := by
  have hpos : 0 < ps.length := by omega
  have hps : ps ≠ [] := List.ne_nil_of_length_pos hpos
  have hf0 : first ≠ 0 := fun h0 => hps ((ring_first h first ps hr).1.mpr h0)
  have hfirst : ps[0] = first := by
    have h0 := (ring_first h first ps hr).2 hf0
    rw [List.getElem?_eq_getElem hpos] at h0
    exact Option.some.inj h0
  obtain ⟨n, hn, hnext, hprev⟩ := ring_at h first ps hr i hi
  have hnx : ∃ nx, h.node n.next = some nx ∧ nx.prev = ps[i] := by
    by_cases hi1 : i + 1 < ps.length
    · obtain ⟨nx, hx, _, hxp⟩ := ring_at h first ps hr (i + 1) hi1
      rw [List.getElem?_eq_getElem hi1] at hnext
      simp only [Option.getD_some] at hnext
      refine ⟨nx, by rw [hnext]; exact hx, ?_⟩
      rw [hxp, if_neg (by omega)]
      simp [List.getElem?_eq_getElem hi]
    · obtain ⟨nx, hx, _, hxp⟩ := ring_at h first ps hr 0 hpos
      rw [List.getElem?_eq_none (by omega)] at hnext
      simp only [Option.getD_none] at hnext
      refine ⟨nx, by rw [hnext, ← hfirst]; exact hx, ?_⟩
      rw [hxp, if_pos rfl]
      have : ps.length - 1 = i := by omega
      simp [this, List.getElem?_eq_getElem hi]
  have hpv : ∃ pv, h.node n.prev = some pv ∧ pv.next = ps[i] := by
    by_cases hi0 : i = 0
    · have hl : ps.length - 1 < ps.length := by omega
      obtain ⟨pv, hx, hxn, _⟩ := ring_at h first ps hr (ps.length - 1) hl
      rw [if_pos hi0, List.getElem?_eq_getElem hl] at hprev
      simp only [Option.getD_some] at hprev
      refine ⟨pv, by rw [hprev]; exact hx, ?_⟩
      rw [hxn, List.getElem?_eq_none (by omega)]
      simp only [Option.getD_none]
      subst hi0
      exact hfirst.symm
    · have hl : i - 1 < ps.length := by omega
      obtain ⟨pv, hx, hxn, _⟩ := ring_at h first ps hr (i - 1) hl
      rw [if_neg hi0, List.getElem?_eq_getElem hl] at hprev
      simp only [Option.getD_some] at hprev
      refine ⟨pv, by rw [hprev]; exact hx, ?_⟩
      rw [hxn]
      have : i - 1 + 1 = i := by omega
      simp [this, List.getElem?_eq_getElem hi]
  obtain ⟨nx, h1, h2⟩ := hnx
  obtain ⟨pv, h3, h4⟩ := hpv
  exact ⟨n, nx, pv, hn, h1, h2, h3, h4⟩
theorem added_eq_nil (MAX : Nat) (calls : List AddCall) :
    added MAX calls = [] ↔ ∀ c ∈ calls, c.accepted = false := by
  induction calls with
  | nil => simp [added]
  | cons c rest ih =>
    cases hc : c.accepted with
    | false =>
      have : added MAX (c :: rest) = added MAX rest := by
        simp [added, List.filter_cons, hc]
      rw [this, ih]
      simp [hc]
    | true =>
      have hsome : c.filter.isSome = true := by
        unfold AddCall.accepted at hc
        simp only [Bool.and_eq_true] at hc
        exact hc.1.1.1
      obtain ⟨t, ht⟩ := Option.isSome_iff_exists.mp hsome
      have : added MAX (c :: rest) = (c.nr, (cstr t).take MAX) :: added MAX rest := by
        simp [added, List.filter_cons, hc, ht]
      rw [this]
      simp [hc]

/-- C30: after any sequence of calls of `minijail_add_seccomp_filter` on a new
configuration, rejected and failed calls included, every call has returned and
the collection is a well-formed circular doubly-linked list of the entries of
the accepted calls, in order: it is empty exactly when no call was accepted;
every entry is the `prev` of its `next` and the `next` of its `prev`; and the
`prev` of the first entry is the entry of the last accepted call. -/
theorem filter_list_well_formed (MAX : Nat) (h0 : Heap) (calls : List AddCall) :
    ∃ h j ps, add_calls MAX (h0, minijail_new) calls = .ret (h, j) () ∧
      Ring h j.filters ps ∧ filter_ptrs h j = some ps ∧
      filter_entries h j = some (added MAX calls) ∧
      (j.filters = 0 ↔ ∀ c ∈ calls, c.accepted = false) ∧
      (∀ p ∈ ps, ∃ n nx pv, h.node p = some n ∧ h.node n.next = some nx ∧ nx.prev = p ∧
        h.node n.prev = some pv ∧ pv.next = p) ∧
      (j.filters ≠ 0 → ∃ f l, h.node j.filters = some f ∧ h.node f.prev = some l ∧
        (added MAX calls).getLast? = some (l.nr, l.filter)) := by
  have hr0 : Ring h0 minijail_new.filters [] :=
    ⟨by simp [minijail_new], List.nodup_nil, fun i hi => absurd hi (by simp)⟩
  obtain ⟨h, j, qs, hrun, hring, hent, hlen⟩ := add_calls_ring MAX calls h0 minijail_new [] hr0
  simp only [List.nil_append] at hring hent
  have hent' : entries_at h qs = added MAX calls := by
    rw [hent]; simp [entries_at]
  have hempty : j.filters = 0 ↔ ∀ c ∈ calls, c.accepted = false := by
    rw [← added_eq_nil MAX calls, ← (ring_first h _ qs hring).1]
    constructor
    · intro hq; rw [← hent', hq]; rfl
    · intro ha
      rw [ha] at hlen
      exact List.length_eq_zero.mp hlen
  refine ⟨h, j, qs, hrun, hring, filter_ptrs_ring h j qs hring, ?_, hempty, ?_, ?_⟩
  · rw [filter_entries_ring h j qs hring, hent']
  · intro p hp
    obtain ⟨i, hi, rfl⟩ := List.getElem_of_mem hp
    exact ring_links h _ qs hring i hi
  · intro hne
    have hqs : qs ≠ [] := fun he => hne ((ring_first h _ qs hring).1.mp he)
    have hpos : 0 < qs.length := List.length_pos.mpr hqs
    have hfirst : qs[0] = j.filters := by
      have h0' := (ring_first h _ qs hring).2 hne
      rw [List.getElem?_eq_getElem hpos] at h0'
      exact Option.some.inj h0'
    have hl : qs.length - 1 < qs.length := by omega
    obtain ⟨f, hf, _, hfp⟩ := ring_at h _ qs hring 0 hpos
    obtain ⟨l, hl1, _, _⟩ := ring_at h _ qs hring (qs.length - 1) hl
    rw [if_pos rfl, List.getElem?_eq_getElem hl] at hfp
    simp only [Option.getD_some] at hfp
    refine ⟨f, l, by rw [← hfirst]; exact hf, by rw [hfp]; exact hl1, ?_⟩
    rw [← hent']
    have hsplit : qs = qs.dropLast ++ [qs[qs.length - 1]] := by
      rw [← List.getLast_eq_getElem qs hqs]
      exact (List.dropLast_append_getLast hqs).symm
    rw [hsplit, entries_at_append]
    have : entries_at h [qs[qs.length - 1]] = [(l.nr, l.filter)] := by
      simp [entries_at, hl1]
    rw [this, List.getLast?_concat]

/-- The collection after the calls of `calls_mixed`, of which the first two
and the last are accepted. -/
theorem filter_list_after_mixed_calls :
    add_calls 512 (Heap.empty, minijail_new) calls_mixed =
      .ret ({ strs := [],
              nodes := [⟨2, lit "1", 2, 3⟩, ⟨3, lit "a == 1", 3, 1⟩,
                ⟨0, lit "fd == 0", 1, 2⟩] },
        { minijail_new with filters := 1 }) () ∧
    added 512 calls_mixed = [(2, lit "1"), (3, lit "a == 1"), (0, lit "fd == 0")] := by
  decide

/-! ## The pipe protocol -/

theorem lp64_size_t_lawful : lp64_size_t.Lawful := by
  refine ⟨fun n => le_length 8 n, ?_, by decide⟩
  intro n hn
  show unle (le 8 n) = n
  rw [unle_le]
  exact Nat.mod_eq_of_lt (by simpa [lp64_size_t] using hn)

/-- No lawful layout has an empty struct. -/
theorem layout_size_pos (L : Layout) (hL : L.Lawful) : 0 < L.size := by
  by_contra h0
  have hz : L.size = 0 := by omega
  have e1 : L.put minijail_new = [] := List.length_eq_zero.mp (by rw [hL.1, hz])
  have e2 : L.put jail_ab = [] := List.length_eq_zero.mp (by rw [hL.1, hz])
  have g1 := hL.2 minijail_new (by decide)
  have g2 := hL.2 jail_ab (by decide)
  rw [e1] at g1
  rw [e2, g1] at g2
  exact absurd g2 (by decide)

theorem marshaled_length (L : Layout) (hL : L.Lawful) (h : Heap) (j : minijail) (sz : Nat)
    (hsz : minijail_size L h j = some sz) : (marshaled L h j).length = sz := by
  unfold marshaled
  by_cases hu : j.user = 0
  · rw [size_null L h j hu] at hsz
    simp only [Option.some.injEq] at hsz
    simp [hu, hL.1, hsz]
  · cases hs : h.str j.user with
    | none => simp [minijail_size, hu, hs] at hsz
    | some u =>
      rw [size_user L h j u hu hs] at hsz
      simp only [Option.some.injEq] at hsz
      simp [hu, hL.1, ← hsz, strlen_eq]

/-- A `minijail_to_fd` whose allocation and writes succeed: the pipe gets the
bytes of the size, then the marshaled form. -/
theorem to_fd_ok (L : Layout) (hL : L.Lawful) (R : SizeRep) (hR : R.Lawful)
    (malloc : Nat → Option (List Nat)) (h : Heap) (j : minijail) (sz : Nat)
    (hsz : minijail_size L h j = some sz) (block : List Nat) (hm : malloc sz = some block)
    (hb : block.length = sz) (pipe : List Nat) :
    minijail_to_fd L R malloc R.size sz h j pipe =
      .ret (pipe ++ R.put sz ++ marshaled L h j) 0 := by
  have hpos : sz ≠ 0 := by
    have h1 := marshaled_length L hL h j sz hsz
    have h2 := layout_size_pos L hL
    have h3 : L.size ≤ (marshaled L h j).length := by
      unfold marshaled
      rw [List.length_append, hL.1]
      omega
    omega
  have hmar := marshal_exact L hL h j block sz hb hsz
  have hlen := marshaled_length L hL h j sz hsz
  unfold minijail_to_fd
  rw [hsz]
  simp only [hpos, if_false, hm, Option.getD_some, hmar, ne_eq, not_true_eq_false, write,
    Int.toNat_ofNat]
  have t1 : (R.put sz).take R.size = R.put sz := List.take_of_length_le (by rw [hR.1])
  have e : L.put j ++ (if j.user = 0 then [] else
      (match h.str j.user with | some u => cstr u ++ [0] | none => [])) = marshaled L h j := rfl
  rw [e]
  have t2 : ((marshaled L h j).take sz).take sz = marshaled L h j := by
    rw [List.take_take, Nat.min_self]
    exact List.take_of_length_le (by omega)
  rw [t1, t2]
  simp

/-- `minijail_from_fd` on a size above `USHRT_MAX`. -/
theorem from_fd_too_big (L : Layout) (R : SizeRep) (hR : R.Lawful) (m s : Bool) (h : Heap)
    (j : minijail) (sz : Nat) (rest : List Nat) (hfit : sz < 2 ^ (8 * R.size))
    (hbig : USHRT_MAX < sz) :
    minijail_from_fd L R m s h j (R.put sz ++ rest) = .ret (rest, h, j) (-E2BIG) := by
  have hl := hR.1 sz
  unfold minijail_from_fd read
  simp only [List.take_left' hl, List.drop_left' hl, hl, ne_eq, not_true_eq_false, if_false,
    hR.2.1 sz hfit, gt_iff_lt, hbig, if_true]

/-- `minijail_from_fd` on the bytes of a size up to `USHRT_MAX` followed by
that many bytes: the result of `minijail_unmarshal` on them, and the pipe is
empty. -/
theorem from_fd_stream (L : Layout) (R : SizeRep) (hR : R.Lawful) (s : Bool) (h : Heap)
    (j : minijail) (sz : Nat) (buf : List Nat) (hsmall : sz ≤ USHRT_MAX)
    (hb : buf.length = sz) :
    minijail_from_fd L R true s h j (R.put sz ++ buf) =
      match minijail_unmarshal L s h j buf sz with
      | .undef => Outcome.undef
      | .die msg st => Outcome.die msg ([], st.1, st.2)
      | .ret st r => Outcome.ret ([], st.1, st.2) r := by
  have hl := hR.1 sz
  have hfit : sz < 2 ^ (8 * R.size) := by
    have h2 := hR.2.2
    have : 2 ^ (8 * 2) ≤ 2 ^ (8 * R.size) := Nat.pow_le_pow_right (by omega) (by omega)
    have : (2 : Nat) ^ (8 * 2) = 65536 := by norm_num
    unfold USHRT_MAX at hsmall
    omega
  have hns : ¬ sz > USHRT_MAX := by omega
  unfold minijail_from_fd read
  simp only [List.take_left' hl, List.drop_left' hl, hl, ne_eq, not_true_eq_false, if_false,
    hR.2.1 sz hfit, hns, Bool.not_true, Bool.false_eq_true,
    List.take_of_length_le (Nat.le_of_eq hb), List.drop_of_length_le (Nat.le_of_eq hb), hb]
theorem long_name_size : minijail_size lp64 heap_long jail_long = some 65537 := by
  have hs : heap_long.str jail_long.user = some long_name := rfl
  have hn : cstr long_name = long_name :=
    cstr_eq_self long_name (fun b hb => by
      rw [List.eq_of_mem_replicate hb]; decide)
  have hl : strlen long_name = 65488 := by
    rw [strlen_eq, hn]
    exact List.length_replicate _ _
  rw [size_user lp64 heap_long jail_long long_name (by decide) hs, hl]
  rfl

/-- C24, counterexample: for a configuration whose username has 65488 letters,
`minijail_size` is 65537; `minijail_to_fd` writes that size and the marshaled
form and returns 0, and `minijail_from_fd` reading these bytes returns
`-E2BIG` after the size, with the struct it was given untouched. -/
theorem pipe_size_limit_counterexample :
    minijail_size lp64 heap_long jail_long = some 65537 ∧
    minijail_to_fd lp64 lp64_size_t malloc_zero (lp64_size_t.size : Nat) (65537 : Nat)
        heap_long jail_long [] =
      .ret (lp64_size_t.put 65537 ++ marshaled lp64 heap_long jail_long) 0 ∧
    minijail_from_fd lp64 lp64_size_t true true Heap.empty minijail_new
        (lp64_size_t.put 65537 ++ marshaled lp64 heap_long jail_long) =
      .ret (marshaled lp64 heap_long jail_long, Heap.empty, minijail_new) (-E2BIG) := by
  refine ⟨long_name_size, ?_, ?_⟩
  · have := to_fd_ok lp64 lp64_lawful lp64_size_t lp64_size_t_lawful malloc_zero heap_long
      jail_long 65537 long_name_size (List.replicate 65537 0) rfl
      (List.length_replicate _ _) []
    simpa using this
  · exact from_fd_too_big lp64 lp64_size_t lp64_size_t_lawful true true Heap.empty
      minijail_new 65537 _ (by norm_num [lp64_size_t]) (by norm_num [USHRT_MAX])

/-- C24, amended: for every configuration `c` whose `minijail_size` is at most
`USHRT_MAX`, `minijail_to_fd` (allocation and writes succeeding) writes exactly
the `sizeof(size_t)` bytes of `minijail_size(c)`, 8 under LP64, followed by the
marshaled buffer of that length, and `minijail_from_fd` reading that byte
stream returns 0, leaves the pipe empty and yields a struct equal to `c` in
every field but the pointer `user`, which designates a copy of the username of
`c` when `c` has one. -/
theorem pipe_round_trip (L : Layout) (hL : L.Lawful) (R : SizeRep) (hR : R.Lawful)
    (malloc : Nat → Option (List Nat)) (h : Heap) (c : minijail) (hc : c.InRange)
    (sz : Nat) (hsz : minijail_size L h c = some sz) (block : List Nat)
    (hm : malloc sz = some block) (hb : block.length = sz) (hsmall : sz ≤ USHRT_MAX)
    (h2 : Heap) (j0 : minijail) :
    ∃ buf, minijail_to_fd L R malloc R.size sz h c [] = .ret (R.put sz ++ buf) 0 ∧
      (R.put sz).length = R.size ∧ R.get (R.put sz) = sz ∧ buf.length = sz ∧
      minijail_marshal L h c block sz = .ret buf 0 ∧
      (c.user = 0 →
        minijail_from_fd L R true true h2 j0 (R.put sz ++ buf) = .ret ([], h2, c) 0) ∧
      (c.user ≠ 0 → ∃ h3 c' u,
        minijail_from_fd L R true true h2 j0 (R.put sz ++ buf) = .ret ([], h3, c') 0 ∧
        { c' with user := c.user } = c ∧ c'.user ≠ 0 ∧
        h.str c.user = some u ∧ h3.str c'.user = some (cstr u)) := by
  have hlen := marshaled_length L hL h c sz hsz
  have hfit : sz < 2 ^ (8 * R.size) := by
    have h2' := hR.2.2
    have : 2 ^ (8 * 2) ≤ 2 ^ (8 * R.size) := Nat.pow_le_pow_right (by omega) (by omega)
    have : (2 : Nat) ^ (8 * 2) = 65536 := by norm_num
    unfold USHRT_MAX at hsmall
    omega
  have hto := to_fd_ok L hL R hR malloc h c sz hsz block hm hb []
  rw [List.nil_append] at hto
  have hfrom := from_fd_stream L R hR true h2 j0 sz (marshaled L h c) hsmall hlen
  refine ⟨marshaled L h c, hto, hR.1 sz, hR.2.1 sz hfit, hlen,
    marshal_exact L hL h c block sz hb hsz, ?_, ?_⟩
  · intro hu
    rw [size_null L h c hu] at hsz
    simp only [Option.some.injEq] at hsz
    subst hsz
    have hmz : marshaled L h c = L.put c := by simp [marshaled, hu]
    rw [hfrom, hmz, unmarshal_header_null L hL h2 j0 c hc hu]
  · intro hu
    cases hs : h.str c.user with
    | none => simp [minijail_size, hu, hs] at hsz
    | some u =>
      rw [size_user L h c u hu hs] at hsz
      simp only [Option.some.injEq] at hsz
      subst hsz
      have hmz : marshaled L h c = L.put c ++ (cstr u ++ [0]) := by
        simp [marshaled, hu, hs]
      have hun := unmarshal_header_user L hL h2 j0 c hc hu (cstr u ++ [0]) (by simp)
      simp only [List.length_append, List.length_singleton, ← strlen_eq] at hun
      rw [hfrom, hmz, hun]
      refine ⟨_, _, u, rfl, rfl, ?_, rfl, ?_⟩
      · simp [Heap.allocStr]
      · rw [cstr_append_zero _ _ (cstr_nonzero u)]
        exact str_allocStr h2 (cstr u)

/-- C24 at `jail_ab` under LP64: 8 bytes of length, then the 51 marshaled
bytes. -/
theorem pipe_round_trip_witness :
    lp64.Lawful ∧ lp64_size_t.Lawful ∧ jail_ab.InRange ∧
    minijail_size lp64 heap_ab jail_ab = some 51 ∧
    malloc_zero 51 = some (List.replicate 51 0) ∧ (List.replicate 51 0).length = 51 ∧
    51 ≤ USHRT_MAX ∧
    minijail_to_fd lp64 lp64_size_t malloc_zero 8 51 heap_ab jail_ab [] =
      .ret ([51, 0, 0, 0, 0, 0, 0, 0] ++ marshaled_ab) 0 ∧
    minijail_from_fd lp64 lp64_size_t true true Heap.empty minijail_new
        ([51, 0, 0, 0, 0, 0, 0, 0] ++ marshaled_ab) =
      .ret ([], heap_ab, jail_ab) 0 ∧
    ∃ buf, minijail_to_fd lp64 lp64_size_t malloc_zero lp64_size_t.size (51 : Nat)
        heap_ab jail_ab [] = .ret (lp64_size_t.put 51 ++ buf) 0 ∧
      (lp64_size_t.put 51).length = lp64_size_t.size ∧
      lp64_size_t.get (lp64_size_t.put 51) = 51 ∧ buf.length = 51 ∧
      minijail_marshal lp64 heap_ab jail_ab (List.replicate 51 0) 51 = .ret buf 0 ∧
      (jail_ab.user = 0 →
        minijail_from_fd lp64 lp64_size_t true true Heap.empty minijail_new
          (lp64_size_t.put 51 ++ buf) = .ret ([], Heap.empty, jail_ab) 0) ∧
      (jail_ab.user ≠ 0 → ∃ h3 c' u,
        minijail_from_fd lp64 lp64_size_t true true Heap.empty minijail_new
          (lp64_size_t.put 51 ++ buf) = .ret ([], h3, c') 0 ∧
        { c' with user := jail_ab.user } = jail_ab ∧ c'.user ≠ 0 ∧
        heap_ab.str jail_ab.user = some u ∧ h3.str c'.user = some (cstr u)) :=
  ⟨lp64_lawful, lp64_size_t_lawful, by decide, by decide, rfl, by decide, by decide,
    by decide, by decide,
    pipe_round_trip lp64 lp64_lawful lp64_size_t lp64_size_t_lawful malloc_zero heap_ab jail_ab
      (by decide) 51 (by decide) (List.replicate 51 0) rfl (by decide) (by decide)
      Heap.empty minijail_new⟩

/-! ## The preload variable around `minijail_run` -/

theorem getenv_unsetenv_same (env : List (List Nat × List Nat)) (n : List Nat) :
    getenv (unsetenv env n) n = none := by
  induction env with
  | nil => rfl
  | cons p env ih =>
    by_cases hp : p.1 = n
    · have : unsetenv (p :: env) n = unsetenv env n := by
        simp [unsetenv, List.filter_cons, hp]
      rw [this, ih]
    · have : unsetenv (p :: env) n = p :: unsetenv env n := by
        simp [unsetenv, List.filter_cons, hp]
      rw [this]
      simp only [getenv, List.find?_cons, hp, decide_False] at ih ⊢
      exact ih

theorem getenv_unsetenv_other (env : List (List Nat × List Nat)) (n m : List Nat)
    (hne : n ≠ m) : getenv (unsetenv env m) n = getenv env n := by
  induction env with
  | nil => rfl
  | cons p env ih =>
    by_cases hp : p.1 = m
    · have : unsetenv (p :: env) m = unsetenv env m := by
        simp [unsetenv, List.filter_cons, hp]
      have hpn : ¬ p.1 = n := fun h => hne (h.symm.trans hp)
      rw [this, ih]
      simp [getenv, List.find?_cons, hpn]
    · have : unsetenv (p :: env) m = p :: unsetenv env m := by
        simp [unsetenv, List.filter_cons, hp]
      rw [this]
      by_cases hpn : p.1 = n
      · simp [getenv, List.find?_cons, hpn]
      · simp only [getenv, List.find?_cons, hpn, decide_False] at ih ⊢
        exact ih

theorem getenv_setenv_same (env : List (List Nat × List Nat)) (n v : List Nat) :
    getenv (setenv env n v) n = some v := by
  simp [getenv, setenv, List.find?_cons]

theorem getenv_setenv_other (env : List (List Nat × List Nat)) (n m v : List Nat)
    (hne : n ≠ m) : getenv (setenv env m v) n = getenv env n := by
  have hmn : ¬ m = n := fun h => hne h.symm
  have : getenv (setenv env m v) n = getenv (unsetenv env m) n := by
    simp [getenv, setenv, List.find?_cons, hmn]
  rw [this, getenv_unsetenv_other env n m hne]

/-- The path of `minijail_run` on which the `clone` succeeds: however the call
ends in the calling process, by `return 0` or by the abort after a failed
`minijail_to_fd`, the preload variable has the value it had before the call,
and the descriptor variable is unset. -/
theorem run_parent_restores (L : Layout) (R : SizeRep) (ld fdv path : List Nat)
    (hne : ld ≠ fdv) (a : RunAnswers) (h : Heap) (s s' : RunState) (hc : a.clone > 0) :
    (∀ r, minijail_run L R ld fdv path a h s = .ret s' (some r) → r = 0 →
      getenv s'.env ld = getenv s.env ld ∧ getenv s'.env fdv = none) ∧
    (minijail_run L R ld fdv path a h s = .die "failed to send marshalled minijail" s' →
      getenv s'.env ld = getenv s.env ld ∧ getenv s'.env fdv = none) := by
  have key : ∀ env2 : List (List Nat × List Nat),
      getenv (unsetenv (match getenv s.env ld with
        | some v => setenv env2 ld v
        | none => unsetenv env2 ld) fdv) ld = getenv s.env ld ∧
      getenv (unsetenv (match getenv s.env ld with
        | some v => setenv env2 ld v
        | none => unsetenv env2 ld) fdv) fdv = none := by
    intro env2
    refine ⟨?_, getenv_unsetenv_same _ _⟩
    rw [getenv_unsetenv_other _ _ _ hne]
    cases hg : getenv s.env ld with
    | none => exact getenv_unsetenv_same _ _
    | some v => exact getenv_setenv_same _ _ _
  have hnc : ¬ a.clone ≤ 0 := by omega
  constructor
  · intro r hr h0
    subst h0
    unfold minijail_run at hr
    simp only [] at hr
    split at hr
    · simp [ENOMEM] at hr
    · split at hr
      · rename_i hp
        injection hr with _ h2
        injection h2 with h3
        exact absurd h3 hp
      · split at hr
        · rename_i hp
          injection hr with _ h2
          injection h2 with h3
          exact absurd h3 hp
        · split at hr
          · simp [EINVAL] at hr
          · split at hr
            · cases hr
            · cases hr
            · split at hr
              · cases hr
              · injection hr with h1 _
                rw [← h1]
                exact key _
  · intro hr
    unfold minijail_run at hr
    simp only [] at hr
    split at hr
    · cases hr
    · split at hr
      · cases hr
      · split at hr
        · cases hr
        · split at hr
          · cases hr
          · split at hr
            · cases hr
            · rename_i msg pipe hto
              exfalso
              unfold minijail_to_fd at hto
              split at hto
              · cases hto
              · split at hto
                · cases hto
                · split at hto
                  · cases hto
                  · rename_i hm
                    cases hmar : minijail_marshal L h { s.j with initpid := a.clone }
                      ((a.malloc _).getD []) _ with
                    | undef => rw [hmar] at hm; cases hm
                    | ret b r => rw [hmar] at hm; cases hm
                    | die m b =>
                      unfold minijail_marshal at hmar
                      simp only [] at hmar
                      split at hmar
                      · cases hmar
                      · split at hmar
                        · cases hmar
                        · split at hmar
                          · split at hmar
                            · cases hmar
                            · split at hmar
                              · cases hmar
                              · split at hmar <;> cases hmar
                          · cases hmar
                  · split at hto
                    · cases hto
                    · split at hto
                      · cases hto
                      · split at hto <;> cases hto
            · split at hr
              · injection hr with _ h1
                rw [← h1]
                exact key _
              · cases hr
/-- C27: when `pipe` fails, `minijail_run` returns -1 with the preload variable
set to the path of the preload library where it was unset before, and with the
path appended to its value where it was set; when the `clone` fails, the same,
and the descriptor variable is left set as well. Only when the `clone`
succeeds is the variable put back (here to "libfoo.so") in the calling
process. -/
theorem run_error_leaves_preload :
    (∃ s, minijail_run lp64 lp64_size_t ld_preload fd_var preload_path answers_no_pipe heap_ab
        ⟨[], jail_ab, [], []⟩ = .ret s (some (-1)) ∧
      getenv [] ld_preload = none ∧ getenv s.env ld_preload = some preload_path) ∧
    (∃ s, minijail_run lp64 lp64_size_t ld_preload fd_var preload_path answers_no_pipe heap_ab
        ⟨env_preload, jail_ab, [], []⟩ = .ret s (some (-1)) ∧
      getenv env_preload ld_preload = some (lit "libfoo.so") ∧
      getenv s.env ld_preload = some (lit "libfoo.so /lib/libminijailpreload.so")) ∧
    (∃ s, minijail_run lp64 lp64_size_t ld_preload fd_var preload_path answers_no_clone heap_ab
        ⟨env_preload, jail_ab, [], []⟩ = .ret s (some (-1)) ∧
      getenv s.env ld_preload = some (lit "libfoo.so /lib/libminijailpreload.so") ∧
      getenv s.env fd_var = some (lit "3")) ∧
    (∃ s, minijail_run lp64 lp64_size_t ld_preload fd_var preload_path answers_ok heap_ab
        ⟨env_preload, jail_ab, [], []⟩ = .ret s (some 0) ∧
      getenv s.env ld_preload = some (lit "libfoo.so") ∧ getenv s.env fd_var = none ∧
      s.j.initpid = 77) := by
  refine ⟨⟨_, rfl, ?_, ?_⟩, ⟨_, rfl, ?_, ?_⟩, ⟨_, rfl, ?_, ?_⟩, ⟨_, rfl, ?_, ?_, ?_⟩⟩ <;>
    decide

/-! ## The privilege-drop engine: a run in which every call succeeds -/

theorem raise_loop_ok (P : Platform) (sys : List Op → Op → Nat) (mask : Nat)
    (h0 : ∀ t op, sys t op = 0) :
    ∀ (l : List Nat) (w : World), raise_loop P sys mask l w =
      .ret (run ((l.filter (fun i =>
          !(decide (i ≠ CAP_SETPCAP ∧ mask &&& P.shl1 i = 0)))).flatMap (fun i =>
        [Op.cap_set_flag .effective i, Op.cap_set_flag .permitted i,
          Op.cap_set_flag .inheritable i])) w) () := by
  intro l
  induction l with
  | nil => intro w; rfl
  | cons i rest ih =>
    intro w
    by_cases hc : i ≠ CAP_SETPCAP ∧ mask &&& P.shl1 i = 0
    · rw [raise_loop, if_pos hc, ih w]
      simp [List.filter_cons, hc]
    · rw [raise_loop, if_neg hc]
      simp only [perform_ok _ _ _ _ (h0 _ _), Outcome.andThen, ih]
      simp only [List.filter_cons, hc, decide_False, Bool.not_false, if_true,
        List.flatMap_cons]
      rw [run_append]
      rfl

theorem bounding_loop_ok (P : Platform) (sys : List Op → Op → Nat) (mask : Nat)
    (h0 : ∀ t op, sys t op = 0) :
    ∀ (l : List Nat) (w : World), bounding_loop P sys mask l w =
      .ret (run ((l.filter (fun i => decide (mask &&& P.shl1 i = 0))).map Op.capbset_drop) w)
        () := by
  intro l
  induction l with
  | nil => intro w; rfl
  | cons i rest ih =>
    intro w
    by_cases hc : mask &&& P.shl1 i = 0
    · rw [bounding_loop, if_neg (by simp [hc])]
      simp only [perform_ok _ _ _ _ (h0 _ _), Outcome.andThen, ih]
      simp only [List.filter_cons, hc, decide_True, if_true, List.map_cons]
      rfl
    · rw [bounding_loop, if_pos hc, ih w]
      simp [List.filter_cons, hc]

/-- When every call succeeds `drop_caps` returns, having made the calls
`drop_caps_ops`. -/
theorem drop_caps_ok (P : Platform) (sys : List Op → Op → Nat) (j : minijail) (w : World)
    (h0 : ∀ t op, sys t op = 0) :
    drop_caps P sys j w = .ret (run (drop_caps_ops P j.caps) w) () := by
  unfold drop_caps
  simp only [perform_ok _ _ _ _ (h0 _ _), Outcome.andThen, raise_loop_ok P sys j.caps h0,
    bounding_loop_ok P sys j.caps h0]
  simp only [drop_caps_ops, raised_caps, dropped_caps, run_append]
  rfl

theorem guarded_perform_ok (sys : List Op → Op → Nat) (h0 : ∀ t op, sys t op = 0) (c : Bool)
    (op : Op) (msg : String) (w : World) :
    (if c = true then perform sys op msg w else Outcome.ret w ()) =
      Outcome.ret (run (if c = true then [op] else []) w) () := by
  cases c <;> simp [perform_ok, h0, run]

theorem remount_step_ok (sys : List Op → Op → Nat) (h0 : ∀ t op, sys t op = 0) (c : Bool)
    (w : World) :
    (if c = true then
        if (remount_readonly sys w).2 ≠ 0 then Outcome.die "remount" (remount_readonly sys w).1
        else Outcome.ret (remount_readonly sys w).1 ()
      else Outcome.ret w ()) =
      (Outcome.ret (run (if c = true then [Op.umount_proc, Op.mount_proc_readonly] else []) w)
        () : Outcome World Unit) := by
  cases c <;> simp [remount_ok sys w h0, run]

theorem keepcaps_step_ok (sys : List Op → Op → Nat) (h0 : ∀ t op, sys t op = 0) (c : Bool)
    (w : World) :
    (if c = true then
        (perform sys .keepcaps "prctl(PR_SET_KEEPCAPS)" w).andThen fun w _ =>
        perform sys .securebits "prctl(PR_SET_SECUREBITS)" w
      else Outcome.ret w ()) =
      Outcome.ret (run (if c = true then [Op.keepcaps, Op.securebits] else []) w) () := by
  cases c
  · simp [run]
  · simp only [if_true, perform_ok _ _ _ _ (h0 _ _), Outcome.andThen]
    rfl

theorem drop_caps_step_ok (P : Platform) (sys : List Op → Op → Nat)
    (h0 : ∀ t op, sys t op = 0) (j : minijail) (c : Bool) (w : World) :
    (if c = true then drop_caps P sys j w else Outcome.ret w ()) =
      Outcome.ret (run (if c = true then drop_caps_ops P j.caps else []) w) () := by
  cases c
  · simp [run]
  · simp only [if_true, drop_caps_ok P sys j w h0]

/-- When every call succeeds, `minijail_enter` returns on every configuration
that passes its two checks (no PID namespace, a username when the groups are
inherited), on a well-formed collection, and the calls made are the installs
of the entries, the calls of `enter_order` and those of `enter_activation`. -/
theorem enter_ok (P : Platform) (sys : List Op → Op → Nat) (h : Heap) (j : minijail)
    (ps : List Nat) (w0 : World) (hr : Ring h j.filters ps) (h0 : ∀ t op, sys t op = 0)
    (hp : j.flags.pids = false) (hu : j.flags.usergroups = true → j.user ≠ 0)
    (hs : j.flags.usergroups = true → (h.str j.user).isSome = true) :
    minijail_enter P sys h j w0 =
      .ret (run (installs_of h ps ++
        (enter_order P j (user_name h j) ++ enter_activation j)) w0) () := by
  unfold minijail_enter
  rw [setup_ok sys h j ps hr (fun t nr f => h0 t _) w0]
  have hc2 : ¬ (j.flags.usergroups = true ∧ j.user = 0) := fun hc => hu hc.1 hc.2
  cases hug : j.flags.usergroups with
  | false =>
    simp only [guarded_perform_ok sys h0, remount_step_ok sys h0, keepcaps_step_ok sys h0,
      drop_caps_step_ok P sys h0, Bool.false_eq_true, if_false,
      perform_ok sys Op.setgroups_none _ _ (h0 _ _)]
    simp only [hp, Bool.false_eq_true, if_false, Outcome.andThen, ne_eq, not_true_eq_false,
      and_false, false_and]
    simp only [enter_order, enter_activation, run_append, hug, Bool.false_eq_true, if_false]
  | true =>
    obtain ⟨u, hu'⟩ := Option.isSome_iff_exists.mp (hs hug)
    have hne : j.user ≠ 0 := hu hug
    simp only [guarded_perform_ok sys h0, remount_step_ok sys h0, keepcaps_step_ok sys h0,
      drop_caps_step_ok P sys h0, if_true, hu',
      perform_ok sys (Op.initgroups (cstr u) j.usergid) _ _ (h0 _ _)]
    simp only [hp, Bool.false_eq_true, if_false, Outcome.andThen, ne_eq, not_true_eq_false,
      and_false, hne, true_and]
    simp only [enter_order, enter_activation, run_append, hug, if_true, user_name, hu']
/-- C17. (1) For every configuration with the group-inheritance flag set and
no username, on a well-formed filter collection, `minijail_enter` reaches
`die`, and the calls issued before are filter installs only: no unshare,
mount, group, identity or capability call. (2) Every run of `minijail_enter`
that returns has made exactly one call that sets the groups: `initgroups` with
the username and the cached `usergid` when the flag is set (and then there is
a username), `setgroups(0, NULL)` when it is clear, whatever the other flags
are. (3) Such runs exist for every configuration that passes the two checks of
`minijail_enter`: when the calls succeed it returns, with that call made. -/
theorem enter_supplementary_groups (P : Platform) (sys : List Op → Op → Nat) (h : Heap)
    (j : minijail) (w0 : World) (ps : List Nat) (hr : Ring h j.filters ps) :
    (j.flags.usergroups = true → j.user = 0 →
      ∃ msg w, minijail_enter P sys h j w0 = .die msg w ∧ InstallsFrom w0 w) ∧
    (∀ w, minijail_enter P sys h j w0 = .ret w () →
      ∃ ops, w.trace = w0.trace ++ ops ∧
        (if j.flags.usergroups = true then Op.initgroups (user_name h j) j.usergid
          else Op.setgroups_none) ∈ ops ∧
        (∀ op ∈ ops, Op.isGroups op = true →
          op = if j.flags.usergroups = true then Op.initgroups (user_name h j) j.usergid
            else Op.setgroups_none) ∧
        (j.flags.usergroups = true → j.user ≠ 0)) ∧
    ((∀ t op, sys t op = 0) → j.flags.pids = false →
      (j.flags.usergroups = true → j.user ≠ 0 ∧ (h.str j.user).isSome = true) →
      minijail_enter P sys h j w0 =
        .ret (run (installs_of h ps ++
          (enter_order P j (user_name h j) ++ enter_activation j)) w0) () ∧
      (if j.flags.usergroups = true then Op.initgroups (user_name h j) j.usergid
        else Op.setgroups_none) ∈
        (run (installs_of h ps ++
          (enter_order P j (user_name h j) ++ enter_activation j)) w0).trace) := by
  refine ⟨?_, ?_, ?_⟩
  · intro hug hu
    unfold minijail_enter
    by_cases hp : j.flags.pids = true
    · exact ⟨"tried to enter a pid-namespaced jail; try minijail_run()?", w0, by simp [hp],
        installsFrom_refl w0⟩
    · simp only [hp, Bool.false_eq_true, if_false]
      cases hs : setup_seccomp_filters sys h j w0 with
      | undef => exact absurd hs (setup_total sys h j ps hr w0)
      | die msg w => exact ⟨msg, w, rfl, (setup_installs sys h j w0).2 msg w hs⟩
      | ret w r =>
        have hi := (setup_installs sys h j w0).1 w r hs
        simp only [Outcome.andThen]
        by_cases hc1 : j.flags.seccomp_filter = true ∧ r ≠ 0
        · rw [if_pos hc1]; exact ⟨_, w, rfl, hi⟩
        · rw [if_neg hc1, if_pos ⟨hug, hu⟩]; exact ⟨_, w, rfl, hi⟩
  · intro w he
    obtain ⟨_, hnu, installs, hall, hw⟩ := enter_ret P sys h j w0 w () he
    refine ⟨installs ++ (enter_order P j (user_name h j) ++ enter_activation j), ?_, ?_, ?_, ?_⟩
    · rw [hw, run_trace]
    · exact List.mem_append.mpr (Or.inr (List.mem_append.mpr
        (Or.inl (enter_order_groups_mem P j _))))
    · intro op hop hg
      rcases List.mem_append.mp hop with hi | ho
      · rw [(install_kind op (hall op hi)).2] at hg; simp at hg
      · rcases List.mem_append.mp ho with ho | ha
        · exact (enter_order_kind P j _ op ho).2.2 hg
        · rw [(enter_activation_kind j op ha).2] at hg; simp at hg
    · intro hug hu
      exact hnu ⟨hug, hu⟩
  · intro h0 hp hus
    refine ⟨enter_ok P sys h j ps w0 hr h0 hp (fun hug => (hus hug).1)
      (fun hug => (hus hug).2), ?_⟩
    rw [run_trace]
    exact List.mem_append.mpr (Or.inr (List.mem_append.mpr (Or.inr
      (List.mem_append.mpr (Or.inl (enter_order_groups_mem P j _))))))

/-- C17 at three configurations: at `jail_full` (flag set, username "ab",
usergid 1000), whose run returns with `initgroups("ab", 1000)` as its one group
call; at `jail_ab` (flag clear), whose run returns with `setgroups(0, NULL)`;
and at `jail_nouser` (flag set, no username), which aborts with no call made. -/
theorem enter_supplementary_groups_witness :
    (Ring heap_ab jail_full.filters [] ∧ jail_full.flags.usergroups = true ∧
      minijail_enter platform_x86 sys_ok heap_ab jail_full world0 = .ret world_full () ∧
      Op.initgroups (lit "ab") 1000 ∈ world_full.trace ∧
      ∃ ops, world_full.trace = world0.trace ++ ops ∧
        (if jail_full.flags.usergroups = true then
          Op.initgroups (user_name heap_ab jail_full) jail_full.usergid
          else Op.setgroups_none) ∈ ops ∧
        (∀ op ∈ ops, Op.isGroups op = true →
          op = if jail_full.flags.usergroups = true then
            Op.initgroups (user_name heap_ab jail_full) jail_full.usergid
            else Op.setgroups_none) ∧
        (jail_full.flags.usergroups = true → jail_full.user ≠ 0)) ∧
    (Ring heap_ab jail_ab.filters [] ∧ jail_ab.flags.usergroups = false ∧
      jail_ab.flags.pids = false ∧
      minijail_enter platform_x86 sys_ok heap_ab jail_ab world0 =
        .ret (run (installs_of heap_ab [] ++
          (enter_order platform_x86 jail_ab (user_name heap_ab jail_ab) ++
            enter_activation jail_ab)) world0) () ∧
      (if jail_ab.flags.usergroups = true then
        Op.initgroups (user_name heap_ab jail_ab) jail_ab.usergid
        else Op.setgroups_none) ∈
        (run (installs_of heap_ab [] ++
          (enter_order platform_x86 jail_ab (user_name heap_ab jail_ab) ++
            enter_activation jail_ab)) world0).trace) ∧
    (Ring Heap.empty jail_nouser.filters [] ∧
      jail_nouser.flags.usergroups = true ∧ jail_nouser.user = 0 ∧
      minijail_enter platform_x86 sys_ok Heap.empty jail_nouser world0 =
        .die "usergroup inheritance without username" world0 ∧
      ∃ msg w, minijail_enter platform_x86 sys_ok Heap.empty jail_nouser world0 = .die msg w ∧
        InstallsFrom world0 w) :=
  ⟨⟨by decide, by decide, by decide, by decide,
      (enter_supplementary_groups platform_x86 sys_ok heap_ab jail_full world0 []
        (by decide)).2.1 world_full (by decide)⟩,
    ⟨by decide, by decide, by decide,
      (enter_supplementary_groups platform_x86 sys_ok heap_ab jail_ab world0 []
        (by decide)).2.2 (fun _ _ => rfl) (by decide) (fun hug => absurd hug (by decide))⟩,
    ⟨by decide, by decide, by decide, by decide,
      (enter_supplementary_groups platform_x86 sys_ok Heap.empty jail_nouser world0 []
        (by decide)).1 (by decide) (by decide)⟩⟩

/-! ## The privilege-drop engine: the mask that holds `CAP_SETPCAP` only -/

theorem platform_x86_40_lawful : platform_x86_40.Lawful :=
  fun i hi => platform_x86_lawful i hi

/-- C19: on the x86-64 platform with `CAP_LAST_CAP` 40, after `minijail_enter`
on the mask that holds `CAP_SETPCAP` only, every call successful, capability
40 is in the effective, permitted and inheritable sets of the process and has
not been dropped from the bounding set: the `int` shift `1 << 40` gives 256
there, the bit of `CAP_SETPCAP`. With `CAP_LAST_CAP` 35 the sets are
`CAP_SETPCAP` alone and every other capability up to 35 has been dropped. -/
theorem setpcap_only_keeps_capability_40 :
    platform_x86_40.Lawful ∧ jail_setpcap.flags.caps = true ∧
    jail_setpcap.caps = 2 ^ CAP_SETPCAP ∧ Nat.testBit jail_setpcap.caps 40 = false ∧
    40 ≤ platform_x86_40.last_cap ∧ platform_x86_40.shl1 40 = 256 ∧
    (∃ w, minijail_enter platform_x86_40 sys_ok Heap.empty jail_setpcap world0 = .ret w () ∧
      w.proc = ⟨[8, 40], [8, 40], [8, 40]⟩ ∧ 40 ∉ w.dropped ∧
      Op.capbset_drop 40 ∉ w.trace ∧ 39 ∈ w.dropped) ∧
    (∃ w, minijail_enter platform_x86 sys_ok Heap.empty jail_setpcap world0 = .ret w () ∧
      w.proc = ⟨[8], [8], [8]⟩ ∧
      w.dropped = (List.range 36).filter (fun i => decide (i ≠ 8))) := by
  have e40 : minijail_enter platform_x86_40 sys_ok Heap.empty jail_setpcap world0 =
      .ret (run (enter_order platform_x86_40 jail_setpcap [] ++
        enter_activation jail_setpcap) world0) () := by decide
  have e35 : minijail_enter platform_x86 sys_ok Heap.empty jail_setpcap world0 =
      .ret (run (enter_order platform_x86 jail_setpcap [] ++
        enter_activation jail_setpcap) world0) () := by decide
  refine ⟨platform_x86_40_lawful, by decide, by decide, by decide, by decide, by decide,
    ⟨_, e40, by decide, by decide, by decide, by decide⟩,
    ⟨_, e35, by decide, by decide⟩⟩

/-! ## The namespace init: `SIGTERM` -/

/-- C22, amended: when `SIGTERM` is delivered after `wait` has returned the
pairs `ws`, `init` ends at once: it exits whatever would have come later, and
what it exits with depends neither on what comes later nor on
`MINIJAIL_ERR_INIT`, but only on the status most recently recorded from the
tracked child; when no status of the tracked child has been recorded it exits
with 0, the initial value of `init_exitstatus`. -/
theorem init_sigterm_exit (ERR_INIT rootpid : Int) (ws : List (Int × Nat))
    (hpos : ∀ p ∈ ws, 0 < p.1) (rest : List InitEvent) :
    (∃ v, init ERR_INIT rootpid (reaped ws ++ InitEvent.sigterm :: rest) = some v ∧
      ∀ ERR_INIT2 rest2,
        init ERR_INIT2 rootpid (reaped ws ++ InitEvent.sigterm :: rest2) = some v) ∧
    (∀ ws2 : List (Int × Nat), (∀ p ∈ ws2, 0 < p.1) →
      (tracked rootpid ws2).getLast? = (tracked rootpid ws).getLast? →
      init ERR_INIT rootpid (reaped ws2 ++ InitEvent.sigterm :: rest) =
        init ERR_INIT rootpid (reaped ws ++ InitEvent.sigterm :: rest)) ∧
    (tracked rootpid ws = [] →
      init ERR_INIT rootpid (reaped ws ++ InitEvent.sigterm :: rest) = some 0) := by
  have key : ∀ (l : List (Int × Nat)), (∀ p ∈ l, 0 < p.1) → ∀ E r,
      init E rootpid (reaped l ++ InitEvent.sigterm :: r) =
        some (init_term ((tracked rootpid l).getLast?.getD 0)) := by
    intro l hl E r
    unfold init
    rw [init_from_reaped E rootpid _ l 0 hl]
    rfl
  refine ⟨⟨_, key ws hpos ERR_INIT rest, fun E2 r2 => key ws hpos E2 r2⟩, ?_, ?_⟩
  · intro ws2 hpos2 hsame
    rw [key ws hpos, key ws2 hpos2, hsame]
  · intro hnone
    rw [key ws hpos, hnone]
    rfl

/-- C22 at a `SIGTERM` that comes when only another child (pid 9) has been
reaped, the tracked child being pid 7. -/
theorem init_sigterm_exit_witness :
    (∀ p ∈ [((9 : Int), W_EXITCODE 1)], 0 < p.1) ∧
    tracked 7 [(9, W_EXITCODE 1)] = [] ∧
    init 254 7 (reaped [(9, W_EXITCODE 1)] ++
      InitEvent.sigterm :: [InitEvent.wait_ret 7 (W_EXITCODE 0)]) = some 0 :=
  ⟨by decide, by decide,
    (init_sigterm_exit 254 7 [(9, W_EXITCODE 1)] (by decide)
      [InitEvent.wait_ret 7 (W_EXITCODE 0)]).2.2 (by decide)⟩

end Minijail
